import Mathlib

/-!
# simpix: pixel reassignment by simulated annealing (`pixswap.cpp`)

A shallow embedding of `pixswap.cpp` and proofs about it.

Conventions of the embedding

* A packed ARGB pixel (`UInt_t`, `0xAARRGGBB`) is a `Nat`.
* C `int` values are `Int` (or `Nat` for loop counters and array indices that
  are stored from loop counters).  The pixel count `N` is an `int` of the
  program, so conversions of `N` and of ranks below `N` preserve the value.
  The unsigned subtraction that produces the swap offset is modelled with its
  wrap-around modulo `2^32`.
* `double` values that occur in the energy bookkeeping are integers of
  magnitude at most `N * 195075`; they are modelled in `Int`.
* Arrays are lists.  Every array read and write of the annealing loop, of the
  energy loop and of the output loop is bounds-checked: an access outside the
  array makes the embedded function return `none`.
* `std::sort`, `TRandom3` and the floating-point acceptance comparison are
  library code; they enter as parameters constrained by their contracts.  The
  libstdc++ implementation of `std::sort` is embedded as well (`std_sort`), to
  follow the program on inputs where the order of equal keys matters.
* The temperature schedule is written over the `double` operations as a
  parameter.  It is examined for two instances: rationals rounded to a 53-bit
  significand after every operation (`ieeeOps`), and exact real arithmetic
  (`ExactOps`).  The library function `std::pow` is a parameter of `ieeeOps`;
  where its accuracy matters it is constrained by `PowAccurate`.
-/

namespace Simpix

/-! ## Parameters (lines 27-30) -/

/-- Number of annealing steps, `N_STEPS`. -/
def N_STEPS : Nat := 40000000

/-- Swap radius in rank space, `RADIUS`. -/
def RADIUS : Nat := 8000

/-! ## Pixel helpers (lines 34-36) -/

/-- Red channel: `(p >> 16) & 0xFF`. -/
def R (p : Nat) : Int := (((p >>> 16) &&& 0xFF : Nat) : Int)

/-- Green channel: `(p >> 8) & 0xFF`. -/
def G (p : Nat) : Int := (((p >>> 8) &&& 0xFF : Nat) : Int)

/-- Blue channel: `p & 0xFF`. -/
def B (p : Nat) : Int := ((p &&& 0xFF : Nat) : Int)

/-- Squared distance of two pixels in RGB space (lines 39-44).  The three
differences are `int` differences converted to `double`; all values are
integers below `2^53`, so the `double` arithmetic is exact. -/
def pixEnergy (src tgt : Nat) : Int :=
  let dr := R src - R tgt
  let dg := G src - G tgt
  let db := B src - B tgt
  dr * dr + dg * dg + db * db

/-- Conversion `(uint64_t)x` of an `int`. -/
def toU64 (x : Int) : Nat := (x % 2 ^ 64).toNat

/-- Product of two `uint64_t` values. -/
def mul64 (a b : Nat) : Nat := (a * b) % 2 ^ 64

/-- Sum of two `uint64_t` values. -/
def add64 (a b : Nat) : Nat := (a + b) % 2 ^ 64

/-- Colour key (lines 48-53): `r * 256 * 256 + g * 256 + b` in `uint64_t`
arithmetic, every operation wrapping modulo `2^64`. -/
def colorKey (p : Nat) : Nat :=
  let r := toU64 (R p)
  let g := toU64 (G p)
  let b := toU64 (B p)
  add64 (add64 (mul64 (mul64 r 256) 256) (mul64 g 256)) b

/-- The unwrapped values of the intermediate results of `colorKey`, in
evaluation order: `r*256`, `r*256*256`, `g*256`, `r*256*256 + g*256` and
`r*256*256 + g*256 + b`. -/
def colorKeySteps (p : Nat) : List Nat :=
  let r := toU64 (R p)
  let g := toU64 (G p)
  let b := toU64 (B p)
  [r * 256, mul64 r 256 * 256, g * 256, mul64 (mul64 r 256) 256 + mul64 g 256,
   add64 (mul64 (mul64 r 256) 256) (mul64 g 256) + b]

/-- The colour of a pixel as a triple of channels. -/
def rgb (p : Nat) : Int × Int × Int := (R p, G p, B p)

/-! ## Sort records (lines 57-64) -/

/-- Sort record `KeyIndex`: colour key and original position. -/
structure KeyIndex where
  key : Nat
  idx : Nat
  deriving DecidableEq

/-- Comparison `KeyIndex::operator<`: compares the keys only. -/
def KeyIndex.lt (a other : KeyIndex) : Bool := decide (a.key < other.key)

/-! ## Library code, taken as parameters -/

/-- Contract of `std::sort` on a vector of `KeyIndex` records with
`operator<`: the result is a rearrangement of the input in which no later
element compares less than an earlier one.  The order of records that compare
equivalent is left to the implementation. -/
structure StdSort where
  sort : List KeyIndex → List KeyIndex
  perm : ∀ l, (sort l).Perm l
  sorted : ∀ l, (sort l).Pairwise (fun a b => KeyIndex.lt b a = false)

/-- The `double` operations of the program, over a carrier `D` of doubles. -/
structure DoubleOps (D : Type) where
  /-- Value of a decimal literal. -/
  lit : ℚ → D
  /-- Conversion of an integer to `double`. -/
  ofInt : Int → D
  neg : D → D
  mul : D → D → D
  div : D → D → D
  /-- `std::pow`. -/
  pow : D → D → D
  /-- `std::exp`. -/
  exp : D → D
  /-- Comparison `<`. -/
  lt : D → D → Bool

/-- The generator `TRandom3` over a carrier `σ` of generator states:
`Integer(imax)` returns an integer below `imax`, `Rndm()` returns a double;
both advance the state. -/
structure TRandom3 (σ D : Type) where
  seed : Nat → σ
  Integer : σ → Nat → Nat × σ
  Rndm : σ → D × σ
  Integer_lt : ∀ g imax, 0 < imax → (Integer g imax).1 < imax

/-- The parameters of lines 27-30. -/
structure Config (D : Type) where
  nSteps : Nat
  radius : Nat
  tI : D
  tF : D

/-- The parameter values of the program. -/
def config {D : Type} (F : DoubleOps D) : Config D :=
  { nSteps := N_STEPS, radius := RADIUS, tI := F.lit 2, tF := F.lit (1 / 1000) }

/-! ## Temperature (lines 67-71) -/

/-- Annealing temperature at a step. -/
def temperature {D : Type} (F : DoubleOps D) (cfg : Config D) (step : Nat) : D :=
  let fraction := F.div (F.ofInt step) (F.ofInt ((cfg.nSteps : Int) - 1))
  F.mul cfg.tI (F.pow (F.div cfg.tF cfg.tI) fraction)

/-! ## Array access -/

/-- Bounds-checked read `a[i]` with an `int` index. -/
def readAt {α : Type} (a : List α) (i : Int) : Option α :=
  if 0 ≤ i then a[i.toNat]? else none

/-- Bounds-checked write `a[i] = v`. -/
def writeAt {α : Type} (a : List α) (i : Nat) (v : α) : Option (List α) :=
  if i < a.length then some (a.set i v) else none

/-- All results of a list of computations, or `none` if one of them fails. -/
def collect {α : Type} : List (Option α) → Option (List α)
  | [] => some []
  | x :: xs => x.bind fun v => (collect xs).map fun vs => v :: vs

/-- A loop `for (i = 0; i < N; ++i) a[i] = f(i)` over a fresh array of
size `N`. -/
def fillArray {α : Type} (N : Nat) (f : Nat → Option α) : Option (List α) :=
  collect ((List.range N).map f)

/-! ## Rank ordering (lines 91-109) -/

/-- Key construction (lines 91-97) for one image: record `i` holds the colour
key of pixel `i` and the position `i`. -/
def loadKeys (pix : List Nat) (N : Nat) : Option (List KeyIndex) :=
  fillArray N (fun i => (pix[i]?).map (fun p => { key := colorKey p, idx := i }))

/-- The records built by `loadKeys` when all `N` pixels can be read. -/
def keyList (pix : List Nat) (N : Nat) : List KeyIndex :=
  (List.range N).map (fun i => { key := colorKey (pix.getD i 0), idx := i })

/-- Extraction of the positions from the sorted records (lines 104-109). -/
def extractOrder (keys : List KeyIndex) (N : Nat) : Option (List Nat) :=
  fillArray N (fun i => (keys[i]?).map (fun e => e.idx))

/-- Rank ordering of one image: build the records, sort them, extract the
positions. -/
def rankOrder (S : StdSort) (pix : List Nat) (N : Nat) : Option (List Nat) :=
  (loadKeys pix N).bind (fun keys => extractOrder (S.sort keys) N)

/-! ## Initial mapping and energy (lines 113-120) -/

/-- Initial mapping (lines 113-115): `mapping[tgtOrder[i]] = srcOrder[i]`. -/
def initMapping (srcOrder tgtOrder : List Nat) (N : Nat) : Option (List Nat) :=
  (List.range N).foldlM
    (fun mapping i =>
      (tgtOrder[i]?).bind fun t =>
      (srcOrder[i]?).bind fun s =>
      writeAt mapping t s)
    (List.replicate N 0)

/-- Energy of a mapping, recomputed in full (lines 118-120):
the sum of `pixEnergy(srcPix[mapping[i]], tgtPix[i])` over `i < N`. -/
def totalEnergy (srcPix tgtPix mapping : List Nat) (N : Nat) : Option Int :=
  (List.range N).foldlM
    (fun E i =>
      (mapping[i]?).bind fun mi =>
      (srcPix[mi]?).bind fun s =>
      (tgtPix[i]?).bind fun t =>
      some (E + pixEnergy s t))
    0

/-- The sum that `totalEnergy` computes when every access is in bounds. -/
def energySum (srcPix tgtPix mapping : List Nat) (N : Nat) : Int :=
  ∑ i in Finset.range N, pixEnergy (srcPix.getD (mapping.getD i 0) 0) (tgtPix.getD i 0)

/-! ## Annealing loop (lines 122-155) -/

/-- State of the annealing loop. -/
structure AnnealState (σ : Type) where
  mapping : List Nat
  E : Int
  rng : σ
  deriving DecidableEq

/-- Conversion of a `UInt_t` to `int`. -/
def toI32 (x : Nat) : Int :=
  if x % 2 ^ 32 < 2 ^ 31 then ((x % 2 ^ 32 : Nat) : Int) else ((x % 2 ^ 32 : Nat) : Int) - 2 ^ 32

/-- Difference `a - b` in `UInt_t` arithmetic. -/
def sub32 (a b : Nat) : Nat := (a % 2 ^ 32 + (2 ^ 32 - b % 2 ^ 32)) % 2 ^ 32

/-- The offset `dk` (lines 131-132) from the raw draw: the subtraction is done
in `UInt_t`, the result is converted to `int`, and `0` is replaced by `1`. -/
def offset (radius raw : Nat) : Int :=
  let dk := toI32 (sub32 raw radius)
  if dk = 0 then 1 else dk

/-- The second rank `k2` (lines 134-136): `k + dk` clamped to `[0, N-1]`. -/
def clampRank (N : Nat) (k dk : Int) : Int :=
  let k2 := k + dk
  let k2 := if k2 < 0 then 0 else k2
  if k2 ≥ (N : Int) then (N : Int) - 1 else k2

/-- Energy change `dE` (lines 146-147) of giving source pixel `mj` to target
position `i` and source pixel `mi` to target position `j`. -/
def swapDelta (srcPix tgtPix : List Nat) (i j mi mj : Nat) : Option Int :=
  (srcPix[mj]?).bind fun smj =>
  (tgtPix[i]?).bind fun ti =>
  (srcPix[mi]?).bind fun smi =>
  (tgtPix[j]?).bind fun tj =>
  some (pixEnergy smj ti + pixEnergy smi tj - pixEnergy smi ti - pixEnergy smj tj)

/-- The exchange of lines 151-152: `mapping[i] = mj; mapping[j] = mi`. -/
def applySwap (mapping : List Nat) (i j mi mj : Nat) : Option (List Nat) :=
  (writeAt mapping i mj).bind fun m1 => writeAt m1 j mi

/-- The acceptance condition of line 150,
`dE <= 0.0 || rng.Rndm() < std::exp(-dE / T)`, with the generator state it
leaves: `Rndm` is called only when `dE > 0`. -/
def metropolis {σ D : Type} (F : DoubleOps D) (rng : TRandom3 σ D) (T : D) (dE : Int)
    (g : σ) : Bool × σ :=
  if dE ≤ 0 then (true, g)
  else
    let d := rng.Rndm g
    (F.lt d.1 (F.exp (F.div (F.neg (F.ofInt dE)) T)), d.2)

/-- The value of `swapDelta` for the positions `i` and `j` of a mapping when
every access is in bounds. -/
def deltaAt (srcPix tgtPix mapping : List Nat) (i j : Nat) : Int :=
  pixEnergy (srcPix.getD (mapping.getD j 0) 0) (tgtPix.getD i 0)
    + pixEnergy (srcPix.getD (mapping.getD i 0) 0) (tgtPix.getD j 0)
    - pixEnergy (srcPix.getD (mapping.getD i 0) 0) (tgtPix.getD i 0)
    - pixEnergy (srcPix.getD (mapping.getD j 0) 0) (tgtPix.getD j 0)

/-- The mapping with the entries at positions `i` and `j` exchanged. -/
def exchanged (mapping : List Nat) (i j : Nat) : List Nat :=
  (mapping.set i (mapping.getD j 0)).set j (mapping.getD i 0)

/-- One iteration of the annealing loop (lines 128-154). -/
def annealStep {σ D : Type} (F : DoubleOps D) (rng : TRandom3 σ D) (cfg : Config D)
    (srcPix tgtPix tgtOrder : List Nat) (N : Nat) (step : Nat)
    (st : AnnealState σ) : Option (AnnealState σ) :=
  let T := temperature F cfg step
  let d1 := rng.Integer st.rng N
  let k : Int := (d1.1 : Int)
  let d2 := rng.Integer d1.2 (2 * cfg.radius + 1)
  let dk := offset cfg.radius d2.1
  let k2 := clampRank N k dk
  if k2 = k then some { st with rng := d2.2 }
  else
    (readAt tgtOrder k).bind fun i =>
    (readAt tgtOrder k2).bind fun j =>
    (st.mapping[i]?).bind fun mi =>
    (st.mapping[j]?).bind fun mj =>
    (swapDelta srcPix tgtPix i j mi mj).bind fun dE =>
    let acc := metropolis F rng T dE d2.2
    if acc.1 then
      (applySwap st.mapping i j mi mj).bind fun m =>
      some { mapping := m, E := st.E + dE, rng := acc.2 }
    else some { st with rng := acc.2 }

/-- The loop invariant: the mapping is a permutation of `0..N-1` and the
running energy is the energy of the mapping. -/
def Consistent {σ : Type} (srcPix tgtPix : List Nat) (st : AnnealState σ) : Prop :=
  st.mapping.Perm (List.range srcPix.length)
    ∧ st.E = energySum srcPix tgtPix st.mapping srcPix.length

/-- The iterations `step, step+1, ..., step+n-1` of the annealing loop. -/
def annealLoop {σ D : Type} (F : DoubleOps D) (rng : TRandom3 σ D) (cfg : Config D)
    (srcPix tgtPix tgtOrder : List Nat) (N : Nat) :
    Nat → Nat → AnnealState σ → Option (AnnealState σ)
  | 0, _, st => some st
  | n + 1, step, st =>
    (annealStep F rng cfg srcPix tgtPix tgtOrder N step st).bind fun st1 =>
    annealLoop F rng cfg srcPix tgtPix tgtOrder N n (step + 1) st1

/-! ## Output assembly (lines 159-163) -/

/-- The output buffer: a copy of the source buffer in which entry `i` is then
overwritten by `srcPix[mapping[i]]`. -/
def assemble (srcPix mapping : List Nat) (N : Nat) : Option (List Nat) :=
  (List.range N).foldlM
    (fun outPix i =>
      (mapping[i]?).bind fun mi =>
      (srcPix[mi]?).bind fun s =>
      writeAt outPix i s)
    srcPix

/-! ## The program (lines 73-169) -/

/-- What the program has computed when the annealing loop starts. -/
structure Setup (σ : Type) where
  srcOrder : List Nat
  tgtOrder : List Nat
  start : AnnealState σ
  deriving DecidableEq

/-- Lines 79-122: pixel count of the source image, rank orderings, initial
mapping, initial energy and the seeded generator. -/
def setup {σ D : Type} (S : StdSort) (rng : TRandom3 σ D)
    (srcPix tgtPix : List Nat) : Option (Setup σ) :=
  let N := srcPix.length
  (rankOrder S srcPix N).bind fun srcOrder =>
  (rankOrder S tgtPix N).bind fun tgtOrder =>
  (initMapping srcOrder tgtOrder N).bind fun mapping =>
  (totalEnergy srcPix tgtPix mapping N).bind fun E =>
  some { srcOrder := srcOrder, tgtOrder := tgtOrder,
         start := { mapping := mapping, E := E, rng := rng.seed 12345 } }

/-- State of the program after the first `n` iterations of the annealing
loop. -/
def stateAfter {σ D : Type} (S : StdSort) (F : DoubleOps D) (rng : TRandom3 σ D)
    (cfg : Config D) (srcPix tgtPix : List Nat) (n : Nat) : Option (AnnealState σ) :=
  (setup S rng srcPix tgtPix).bind fun su =>
  annealLoop F rng cfg srcPix tgtPix su.tgtOrder srcPix.length n 0 su.start

/-- The output buffer assembled from the state after `n` iterations. -/
def outputAfter {σ D : Type} (S : StdSort) (F : DoubleOps D) (rng : TRandom3 σ D)
    (cfg : Config D) (srcPix tgtPix : List Nat) (n : Nat) : Option (List Nat) :=
  (stateAfter S F rng cfg srcPix tgtPix n).bind fun st =>
  assemble srcPix st.mapping srcPix.length

/-- The whole program `pixswap`: the output buffer after all `nSteps`
iterations. -/
def pixswap {σ D : Type} (S : StdSort) (F : DoubleOps D) (rng : TRandom3 σ D)
    (cfg : Config D) (srcPix tgtPix : List Nat) : Option (List Nat) :=
  outputAfter S F rng cfg srcPix tgtPix cfg.nSteps

/-! ## Concrete library instances, used to evaluate the program -/

/-- Insertion sort by key: a stable instance of the `std::sort` contract. -/
def insertionSort : StdSort where
  sort := List.insertionSort (fun a b => a.key ≤ b.key)
  perm := fun l => List.perm_insertionSort _ l
  sorted := fun l => by
    have : IsTotal KeyIndex (fun a b => a.key ≤ b.key) := ⟨fun a b => by omega⟩
    have : IsTrans KeyIndex (fun a b => a.key ≤ b.key) := ⟨fun a b c => by omega⟩
    have h := List.sorted_insertionSort (fun a b : KeyIndex => a.key ≤ b.key) l
    refine List.Pairwise.imp ?_ h
    intro a b hab
    simp only [KeyIndex.lt, decide_eq_false_iff_not, Nat.not_lt]
    exact hab

/-- A generator that replays a fixed list of raw draws: `Integer(imax)` is the
next raw draw reduced modulo `imax`, `Rndm()` is the next raw draw divided by
`2^32`. -/
def scriptedRng (script : List Nat) : TRandom3 (List Nat) ℚ where
  seed := fun _ => script
  Integer := fun g imax => (g.headD 0 % imax, g.tail)
  Rndm := fun g => ((g.headD 0 : ℚ) / 2 ^ 32, g.tail)
  Integer_lt := fun _ _ h => Nat.mod_lt _ h

/-- Exact rational arithmetic in place of `double` arithmetic.  `pow` is exact
for exponent `0` and `exp` is the cubic Taylor polynomial, which lies below the
exponential function on negative arguments. -/
def ratOps : DoubleOps ℚ where
  lit := fun q => q
  ofInt := fun z => (z : ℚ)
  neg := fun x => -x
  mul := fun x y => x * y
  div := fun x y => x / y
  pow := fun x y => if y = 0 then 1 else x
  exp := fun x => 1 + x + x ^ 2 / 2 + x ^ 3 / 6
  lt := fun x y => decide (x < y)

/-! ## Double arithmetic with rounding -/

/-- Binary logarithm by repeated halving, with `fuel` halvings allowed. -/
def log2Fuel : Nat → Nat → Nat
  | 0, _ => 0
  | fuel + 1, n => if n < 2 then 0 else log2Fuel fuel (n / 2) + 1

/-- Position of the leading bit of `n`: the largest `p` with `2^p <= n`. -/
def ilog2 (n : Nat) : Nat := log2Fuel n n

/-- The double nearest to a rational (round to nearest, ties to even), with a
53-bit significand.  The exponent range of `double` is not modelled: the
result is the one for values in the normal range. -/
def roundDouble (q : ℚ) : ℚ :=
  if q = 0 then 0
  else
    let a : ℚ := |q|
    let e0 : Int := (ilog2 a.num.natAbs : Int) - (ilog2 a.den : Int)
    let e : Int := if a < (2 : ℚ) ^ e0 then e0 - 1 else e0
    let ulp : ℚ := (2 : ℚ) ^ (e - 52)
    let m : ℚ := a / ulp
    let f : Int := Rat.floor m
    let r : ℚ := m - f
    let n : Int :=
      if r < 1 / 2 then f
      else if 1 / 2 < r then f + 1
      else if f % 2 = 0 then f else f + 1
    (if q < 0 then -1 else 1) * (n : ℚ) * ulp

/-- Double arithmetic on rationals: every arithmetic result is rounded to the
nearest double.  `pow` has the exact cases `pow(x, 0) = 1` and `pow(x, 1) = x`
and `exp` is rounded; beyond that the two functions are those of the given
library functions `pw` and `ex`.  Division by zero is not modelled. -/
def ieeeOps (pw : ℚ → ℚ → ℚ) (ex : ℚ → ℚ) : DoubleOps ℚ where
  lit := fun q => roundDouble q
  ofInt := fun z => roundDouble (z : ℚ)
  neg := fun x => -x
  mul := fun x y => roundDouble (x * y)
  div := fun x y => roundDouble (x / y)
  pow := fun x y => if y = 0 then 1 else if y = 1 then x else roundDouble (pw x y)
  exp := fun x => roundDouble (ex x)
  lt := fun x y => decide (x < y)

/-- Double arithmetic in which the library functions, beyond their exact
cases, return their first argument.  It serves where only the exact cases of
`pow` are evaluated. -/
def ieeeBasic : DoubleOps ℚ := ieeeOps (fun x _ => x) (fun x => x)

/-- Exact real arithmetic, of which double arithmetic is the rounded
version. -/
def ExactOps (F : DoubleOps ℝ) : Prop :=
  (∀ z : Int, F.ofInt z = (z : ℝ))
    ∧ (∀ x y : ℝ, F.mul x y = x * y)
    ∧ (∀ x y : ℝ, F.div x y = x / y)
    ∧ (∀ x y : ℝ, F.pow x y = x ^ y)

/-- Accuracy of `std::pow` at a step: the double that `pow` returns for the
base `T_F / T_I` and the exponent `fraction` of the step (line 69) differs from
the real power by at most `2^-25` times the real power.  The bound is far above
the error of a mathematical library, which is about one unit in the last place
(`2^-52` of the value). -/
def PowAccurate (F : DoubleOps ℚ) (cfg : Config ℚ) (step : Nat) : Prop :=
  |((F.pow (F.div cfg.tF cfg.tI)
        (F.div (F.ofInt step) (F.ofInt ((cfg.nSteps : Int) - 1))) : ℚ) : ℝ)
      - ((F.div cfg.tF cfg.tI : ℚ) : ℝ)
          ^ ((F.div (F.ofInt step) (F.ofInt ((cfg.nSteps : Int) - 1)) : ℚ) : ℝ)|
    ≤ 1 / 2 ^ 25 * ((F.div cfg.tF cfg.tI : ℚ) : ℝ)
          ^ ((F.div (F.ofInt step) (F.ofInt ((cfg.nSteps : Int) - 1)) : ℚ) : ℝ)

/-- The doubles that `std::pow` of glibc returns for the base `T_F / T_I` of
the program at the exponents of the steps `1` and `39999998`
(`0x1.fffff99fb7ff6p-1` and `0x1.0624e072d508bp-11`), as a function of the
exponent that is constant below `1/2` and constant from `1/2` on. -/
def samplePow : ℚ → ℚ → ℚ := fun _ y =>
  if y < 1 / 2 then 4503598771585019 / 4503599627370496
  else 4611686894751883 / 9223372036854775808

/-- A configuration of three steps in which the final temperature is the
double next below the initial temperature `1`. -/
def nearConfig : Config ℚ := { nSteps := 3, radius := 1, tI := 1, tF := 1 - 1 / 2 ^ 53 }

/-- A configuration of two steps with initial temperature `49` and final
temperature `1`. -/
def coolingConfig : Config ℚ := { nSteps := 2, radius := 1, tI := 49, tF := 1 }

/-! ## The library sort

`std::sort` as implemented in libstdc++ (`bits/stl_algo.h`, `bits/stl_heap.h`):
introsort on a vector of `KeyIndex` records, compared by `KeyIndex::operator<`.
A vector is a list, an iterator is an index into it, and an access outside the
vector makes the function return `none`.  Loops whose trip count is not a
function of their arguments take a bound on the number of iterations, for which
the callers pass the vector length. -/

/-- Exchange of two elements, `std::iter_swap(a, b)`. -/
def iter_swap (v : List KeyIndex) (a b : Nat) : Option (List KeyIndex) :=
  (v[a]?).bind fun x =>
  (v[b]?).bind fun y =>
  (writeAt v a y).bind fun v1 => writeAt v1 b x

/-- Function `std::__move_median_to_first(result, a, b, c, comp)`. -/
def move_median_to_first (v : List KeyIndex) (result a b c : Nat) : Option (List KeyIndex) :=
  (v[a]?).bind fun x =>
  (v[b]?).bind fun y =>
  (v[c]?).bind fun z =>
  if KeyIndex.lt x y then
    if KeyIndex.lt y z then iter_swap v result b
    else if KeyIndex.lt x z then iter_swap v result c
    else iter_swap v result a
  else if KeyIndex.lt x z then iter_swap v result a
  else if KeyIndex.lt y z then iter_swap v result c
  else iter_swap v result b

/-- The loop `while (comp(first, pivot)) ++first` of `__unguarded_partition`:
the value of `first` when it ends. -/
def partitionUp (v : List KeyIndex) (pivot : KeyIndex) : Nat → Nat → Option Nat
  | 0, _ => none
  | bound + 1, first =>
    (v[first]?).bind fun x =>
    if KeyIndex.lt x pivot then partitionUp v pivot bound (first + 1) else some first

/-- The statements `--last; while (comp(pivot, last)) --last` of
`__unguarded_partition`: the value of `last` when they end. -/
def partitionDown (v : List KeyIndex) (pivot : KeyIndex) : Nat → Option Nat
  | 0 => none
  | last + 1 =>
    (v[last]?).bind fun x =>
    if KeyIndex.lt pivot x then partitionDown v pivot last else some last

/-- Function `std::__unguarded_partition(first, last, pivot, comp)`: the cut
position and the vector. -/
def unguarded_partition (pivot : Nat) :
    Nat → Nat → Nat → List KeyIndex → Option (Nat × List KeyIndex)
  | 0, _, _, _ => none
  | bound + 1, first, last, v =>
    (v[pivot]?).bind fun p =>
    (partitionUp v p v.length first).bind fun first1 =>
    (partitionDown v p last).bind fun last1 =>
    if first1 < last1 then
      (iter_swap v first1 last1).bind fun v1 =>
      unguarded_partition pivot bound (first1 + 1) last1 v1
    else some (first1, v)

/-- Function `std::__unguarded_partition_pivot(first, last, comp)`. -/
def unguarded_partition_pivot (first last : Nat) (v : List KeyIndex) :
    Option (Nat × List KeyIndex) :=
  let mid := first + (last - first) / 2
  (move_median_to_first v first (first + 1) mid (last - 1)).bind fun v1 =>
  unguarded_partition first v1.length (first + 1) last v1

/-- Function `std::__push_heap(first, holeIndex, topIndex, value, comp)`. -/
def push_heap (first topIndex : Nat) (value : KeyIndex) :
    Nat → Nat → List KeyIndex → Option (List KeyIndex)
  | 0, _, _ => none
  | bound + 1, holeIndex, v =>
    let parent := (holeIndex - 1) / 2
    if holeIndex > topIndex then
      (v[first + parent]?).bind fun p =>
      if KeyIndex.lt p value then
        (writeAt v (first + holeIndex) p).bind fun v1 =>
        push_heap first topIndex value bound parent v1
      else writeAt v (first + holeIndex) value
    else writeAt v (first + holeIndex) value

/-- The first loop of `std::__adjust_heap`: the hole index when it ends and the
vector. -/
def adjustDown (first len : Nat) : Nat → Nat → List KeyIndex → Option (Nat × List KeyIndex)
  | 0, _, _ => none
  | bound + 1, holeIndex, v =>
    if holeIndex < (len - 1) / 2 then
      let secondChild := 2 * (holeIndex + 1)
      (v[first + secondChild]?).bind fun x =>
      (v[first + (secondChild - 1)]?).bind fun y =>
      let secondChild := if KeyIndex.lt x y then secondChild - 1 else secondChild
      (v[first + secondChild]?).bind fun z =>
      (writeAt v (first + holeIndex) z).bind fun v1 =>
      adjustDown first len bound secondChild v1
    else some (holeIndex, v)

/-- Function `std::__adjust_heap(first, holeIndex, len, value, comp)`. -/
def adjust_heap (first holeIndex len : Nat) (value : KeyIndex) (v : List KeyIndex) :
    Option (List KeyIndex) :=
  (adjustDown first len v.length holeIndex v).bind fun r =>
  (if len % 2 = 0 ∧ (r.1 : Int) = ((len : Int) - 2) / 2 then
      let secondChild := 2 * (r.1 + 1)
      (r.2[first + (secondChild - 1)]?).bind fun z =>
      (writeAt r.2 (first + r.1) z).map fun v2 => (secondChild - 1, v2)
    else some r).bind fun r2 =>
  push_heap first holeIndex value v.length r2.1 r2.2

/-- The loop of `std::__make_heap`, from `parent` down to `0`. -/
def makeHeapFrom (first len : Nat) : Nat → List KeyIndex → Option (List KeyIndex)
  | 0, v => (v[first]?).bind fun value => adjust_heap first 0 len value v
  | parent + 1, v =>
    (v[first + (parent + 1)]?).bind fun value =>
    (adjust_heap first (parent + 1) len value v).bind fun v1 =>
    makeHeapFrom first len parent v1

/-- Function `std::__make_heap(first, last, comp)`. -/
def make_heap (first last : Nat) (v : List KeyIndex) : Option (List KeyIndex) :=
  if last - first < 2 then some v
  else makeHeapFrom first (last - first) ((last - first - 2) / 2) v

/-- Function `std::__pop_heap(first, last, result, comp)`. -/
def pop_heap (first last result : Nat) (v : List KeyIndex) : Option (List KeyIndex) :=
  (v[result]?).bind fun value =>
  (v[first]?).bind fun top =>
  (writeAt v result top).bind fun v1 =>
  adjust_heap first 0 (last - first) value v1

/-- Function `std::__heap_select(first, middle, last, comp)`. -/
def heap_select (first middle last : Nat) (v : List KeyIndex) : Option (List KeyIndex) :=
  (make_heap first middle v).bind fun v1 =>
  (List.range' middle (last - middle)).foldlM
    (fun w i =>
      (w[i]?).bind fun x =>
      (w[first]?).bind fun top =>
      if KeyIndex.lt x top then pop_heap first middle i w else some w)
    v1

/-- Function `std::__sort_heap(first, last, comp)`: `last` runs from its value
down to `first + 2`. -/
def sort_heap (first : Nat) : Nat → List KeyIndex → Option (List KeyIndex)
  | 0, v => some v
  | last + 1, v =>
    if last + 1 - first > 1 then
      (pop_heap first last last v).bind fun v1 => sort_heap first last v1
    else some v

/-- Function `std::__partial_sort(first, middle, last, comp)`. -/
def partial_sort (first middle last : Nat) (v : List KeyIndex) : Option (List KeyIndex) :=
  (heap_select first middle last v).bind fun v1 => sort_heap first middle v1

/-- Function `std::__introsort_loop(first, last, depth_limit, comp)`; each
iteration of its loop is one call. -/
def introsort_loop : Nat → Nat → Nat → Nat → List KeyIndex → Option (List KeyIndex)
  | 0, _, _, _, _ => none
  | bound + 1, first, last, depth_limit, v =>
    if last - first > 16 then
      if depth_limit = 0 then partial_sort first last last v
      else
        (unguarded_partition_pivot first last v).bind fun r =>
        (introsort_loop bound r.1 last (depth_limit - 1) r.2).bind fun v1 =>
        introsort_loop bound first r.1 (depth_limit - 1) v1
    else some v

/-- Function `std::__unguarded_linear_insert(last, comp)` with the value
`val = *last` already read. -/
def unguarded_linear_insert (val : KeyIndex) : Nat → List KeyIndex → Option (List KeyIndex)
  | 0, _ => none
  | next + 1, v =>
    (v[next]?).bind fun x =>
    if KeyIndex.lt val x then
      (writeAt v (next + 1) x).bind fun v1 => unguarded_linear_insert val next v1
    else writeAt v (next + 1) val

/-- Function `std::__insertion_sort(first, last, comp)`. -/
def insertion_sort (first last : Nat) (v : List KeyIndex) : Option (List KeyIndex) :=
  (List.range' (first + 1) (last - first - 1)).foldlM
    (fun w i =>
      (w[i]?).bind fun val =>
      (w[first]?).bind fun head =>
      if KeyIndex.lt val head then
        some (w.take first ++ val :: (w.drop first).take (i - first) ++ w.drop (i + 1))
      else unguarded_linear_insert val i w)
    v

/-- Function `std::__unguarded_insertion_sort(first, last, comp)`. -/
def unguarded_insertion_sort (first last : Nat) (v : List KeyIndex) : Option (List KeyIndex) :=
  (List.range' first (last - first)).foldlM
    (fun w i => (w[i]?).bind fun val => unguarded_linear_insert val i w)
    v

/-- Function `std::__final_insertion_sort(first, last, comp)`. -/
def final_insertion_sort (first last : Nat) (v : List KeyIndex) : Option (List KeyIndex) :=
  if last - first > 16 then
    (insertion_sort first (first + 16) v).bind fun v1 =>
    unguarded_insertion_sort (first + 16) last v1
  else insertion_sort first last v

/-- Function `std::__sort(first, last, comp)` on the whole vector, which is what
`std::sort(v.begin(), v.end())` calls. -/
def std_sort (v : List KeyIndex) : Option (List KeyIndex) :=
  if v.length = 0 then some v
  else
    (introsort_loop v.length 0 v.length (ilog2 v.length * 2) v).bind fun v1 =>
    final_insertion_sort 0 v.length v1

/-- The library sort as an instance of the `std::sort` contract.  Its result
is the result of `std_sort`; the contract is checked on that result rather than
proved of the algorithm, and an input on which the check fails, or on which
`std_sort` returns nothing, is sorted by insertion. -/
def libstdcxxSort : StdSort where
  sort := fun l =>
    match std_sort l with
    | some r =>
      if r.Perm l ∧ r.Pairwise (fun a b => KeyIndex.lt b a = false) then r
      else insertionSort.sort l
    | none => insertionSort.sort l
  perm := fun l => by
    dsimp only
    split
    · split
      · next h => exact h.1
      · exact insertionSort.perm l
    · exact insertionSort.perm l
  sorted := fun l => by
    dsimp only
    split
    · split
      · next h => exact h.2
      · exact insertionSort.sorted l
    · exact insertionSort.sorted l

/-- An image of 17 pixels of one colour. -/
def flatImage : List Nat := List.replicate 17 0x000005

/-- A configuration that the interface description calls invalid: one step,
radius `0`, initial temperature `-1`, final temperature `0`. -/
def invalidConfig : Config ℚ := { nSteps := 1, radius := 0, tI := -1, tF := 0 }

/-! ## Sample inputs -/

/-- A source buffer of two pixels. -/
def sampleSrc : List Nat := [0x000005, 0x000001]

/-- A target buffer of two pixels. -/
def sampleTgt : List Nat := [0x000001, 0x000005]

/-- A generator whose first draws are `0`, `8001` and `1000000000`. -/
def sampleRng : TRandom3 (List Nat) ℚ := scriptedRng [0, 8001, 1000000000]

/-- A state of the annealing loop on two pixels, with the generator of
`sampleRng` at its start. -/
def sampleState : AnnealState (List Nat) :=
  { mapping := [1, 0], E := 0, rng := [0, 8001, 1000000000] }

/-- An image of three pixels, the first two of equal colour and different
alpha. -/
def twinSrc : List Nat := [0xFF000000, 0x00000000, 0x000001]

/-- A generator whose first draws are `1`, `8001`, `4000000000`, `0` and
`8001`. -/
def twinRng : TRandom3 (List Nat) ℚ := scriptedRng [1, 8001, 4000000000, 0, 8001]

/-- A source image of two pixels whose colour keys are in the order of the
positions. -/
def farSrc : List Nat := [0x00FFFF, 0x010000]

/-- A target image of two pixels whose colour keys are in the order of the
positions; the rank alignment pairs each source pixel with the distant target
pixel. -/
def farTgt : List Nat := [0x000000, 0x01FFFF]

/-- The rank `k` drawn by a step that starts with generator state `g`
(line 130). -/
def stepRank {σ D : Type} (rng : TRandom3 σ D) (N : Nat) (g : σ) : Nat :=
  (rng.Integer g N).1

/-- Generator state after the rank draw. -/
def genAfterRank {σ D : Type} (rng : TRandom3 σ D) (N : Nat) (g : σ) : σ :=
  (rng.Integer g N).2

/-- The raw offset draw `rng.Integer(2*RADIUS + 1)` of the step (line 131). -/
def stepRaw {σ D : Type} (rng : TRandom3 σ D) (cfg : Config D) (N : Nat) (g : σ) : Nat :=
  (rng.Integer (genAfterRank rng N g) (2 * cfg.radius + 1)).1

/-- Generator state after the rank draw and the offset draw. -/
def genAfterOffset {σ D : Type} (rng : TRandom3 σ D) (cfg : Config D) (N : Nat) (g : σ) : σ :=
  (rng.Integer (genAfterRank rng N g) (2 * cfg.radius + 1)).2

/-- The offset `dk` of the step (lines 131-132). -/
def stepOffset {σ D : Type} (rng : TRandom3 σ D) (cfg : Config D) (N : Nat) (g : σ) : Int :=
  offset cfg.radius (stepRaw rng cfg N g)

/-- The second rank `k2` of the step (lines 134-136). -/
def stepRank2 {σ D : Type} (rng : TRandom3 σ D) (cfg : Config D) (N : Nat) (g : σ) : Int :=
  clampRank N (stepRank rng N g : Int) (stepOffset rng cfg N g)

/-- The target position `i = tgtOrder[k]` of the step (line 139). -/
def stepPosI {σ D : Type} (rng : TRandom3 σ D) (tgtOrder : List Nat) (N : Nat) (g : σ) : Nat :=
  tgtOrder.getD (stepRank rng N g) 0

/-- The target position `j = tgtOrder[k2]` of the step (line 140). -/
def stepPosJ {σ D : Type} (rng : TRandom3 σ D) (cfg : Config D) (tgtOrder : List Nat)
    (N : Nat) (g : σ) : Nat :=
  tgtOrder.getD (stepRank2 rng cfg N g).toNat 0

/-- The energy change `dE` of the step (lines 146-147). -/
def stepDelta {σ D : Type} (rng : TRandom3 σ D) (cfg : Config D)
    (srcPix tgtPix tgtOrder : List Nat) (N : Nat) (st : AnnealState σ) : Int :=
  deltaAt srcPix tgtPix st.mapping (stepPosI rng tgtOrder N st.rng)
    (stepPosJ rng cfg tgtOrder N st.rng)

/-- The state that a step yields when every array access is in bounds. -/
def stepResult {σ D : Type} (F : DoubleOps D) (rng : TRandom3 σ D) (cfg : Config D)
    (srcPix tgtPix tgtOrder : List Nat) (N : Nat) (step : Nat)
    (st : AnnealState σ) : AnnealState σ :=
  if stepRank2 rng cfg N st.rng = (stepRank rng N st.rng : Int) then
    { st with rng := genAfterOffset rng cfg N st.rng }
  else
    let acc := metropolis F rng (temperature F cfg step)
      (stepDelta rng cfg srcPix tgtPix tgtOrder N st) (genAfterOffset rng cfg N st.rng)
    if acc.1 then
      { mapping := exchanged st.mapping (stepPosI rng tgtOrder N st.rng)
          (stepPosJ rng cfg tgtOrder N st.rng),
        E := st.E + stepDelta rng cfg srcPix tgtPix tgtOrder N st,
        rng := acc.2 }
    else { st with rng := acc.2 }

/-! ## Pixel arithmetic -/

theorem R_eq (p : Nat) : R p = ((p / 65536 % 256 : Nat) : Int) := by
  unfold R
  rw [show (0xFF : Nat) = 2 ^ 8 - 1 from rfl, Nat.and_pow_two_sub_one_eq_mod,
    Nat.shiftRight_eq_div_pow]

theorem G_eq (p : Nat) : G p = ((p / 256 % 256 : Nat) : Int) := by
  unfold G
  rw [show (0xFF : Nat) = 2 ^ 8 - 1 from rfl, Nat.and_pow_two_sub_one_eq_mod,
    Nat.shiftRight_eq_div_pow]

theorem B_eq (p : Nat) : B p = ((p % 256 : Nat) : Int) := by
  unfold B
  rw [show (0xFF : Nat) = 2 ^ 8 - 1 from rfl, Nat.and_pow_two_sub_one_eq_mod]

theorem R_range (p : Nat) : 0 ≤ R p ∧ R p ≤ 255 := by
  rw [R_eq]; omega

theorem G_range (p : Nat) : 0 ≤ G p ∧ G p ≤ 255 := by
  rw [G_eq]; omega

theorem B_range (p : Nat) : 0 ≤ B p ∧ B p ≤ 255 := by
  rw [B_eq]; omega

theorem R_alpha (p : Nat) : R (p % 2 ^ 24) = R p := by
  rw [R_eq, R_eq]; omega

theorem G_alpha (p : Nat) : G (p % 2 ^ 24) = G p := by
  rw [G_eq, G_eq]; omega

theorem B_alpha (p : Nat) : B (p % 2 ^ 24) = B p := by
  rw [B_eq, B_eq]; omega

theorem colorKey_eq (p : Nat) : (colorKey p : Int) = R p * 65536 + G p * 256 + B p := by
  have hr := R_range p
  have hg := G_range p
  have hb := B_range p
  simp only [colorKey, toU64, mul64, add64]
  generalize R p = r at *
  generalize G p = g at *
  generalize B p = b at *
  have e1 : r % 2 ^ 64 = r := Int.emod_eq_of_lt hr.1 (by omega)
  have e2 : g % 2 ^ 64 = g := Int.emod_eq_of_lt hg.1 (by omega)
  have e3 : b % 2 ^ 64 = b := Int.emod_eq_of_lt hb.1 (by omega)
  rw [e1, e2, e3]
  omega

theorem colorKey_le (p : Nat) : colorKey p ≤ 16777215 := by
  have h := colorKey_eq p
  have hr := R_range p
  have hg := G_range p
  have hb := B_range p
  omega

theorem colorKey_alpha (p : Nat) : colorKey (p % 2 ^ 24) = colorKey p := by
  have h1 := colorKey_eq p
  have h2 := colorKey_eq (p % 2 ^ 24)
  rw [R_alpha, G_alpha, B_alpha] at h2
  omega

theorem colorKeySteps_lt (p : Nat) :
    (colorKeySteps p).all (fun v => decide (v < 2 ^ 64)) = true := by
  have hr := R_range p
  have hg := G_range p
  have hb := B_range p
  simp only [colorKeySteps, toU64, mul64, add64]
  generalize R p = r at *
  generalize G p = g at *
  generalize B p = b at *
  have e1 : r % 2 ^ 64 = r := Int.emod_eq_of_lt hr.1 (by omega)
  have e2 : g % 2 ^ 64 = g := Int.emod_eq_of_lt hg.1 (by omega)
  have e3 : b % 2 ^ 64 = b := Int.emod_eq_of_lt hb.1 (by omega)
  rw [e1, e2, e3]
  simp only [List.all_cons, List.all_nil, Bool.and_true, Bool.and_eq_true, decide_eq_true_eq]
  omega

theorem colorKey_inj_iff (p q : Nat) :
    colorKey p = colorKey q ↔ (R p = R q ∧ G p = G q ∧ B p = B q) := by
  have h1 := colorKey_eq p
  have h2 := colorKey_eq q
  have := R_range p
  have := G_range p
  have := B_range p
  have := R_range q
  have := G_range q
  have := B_range q
  omega

theorem colorKey_eq_iff_rgb (p q : Nat) : colorKey p = colorKey q ↔ rgb p = rgb q := by
  rw [colorKey_inj_iff]
  simp [rgb, Prod.ext_iff]

theorem pixEnergy_nonneg (p q : Nat) : 0 ≤ pixEnergy p q := by
  unfold pixEnergy
  simp only
  nlinarith [mul_self_nonneg (R p - R q), mul_self_nonneg (G p - G q),
    mul_self_nonneg (B p - B q)]

theorem pixEnergy_le (p q : Nat) : pixEnergy p q ≤ 195075 := by
  have := R_range p
  have := G_range p
  have := B_range p
  have := R_range q
  have := G_range q
  have := B_range q
  unfold pixEnergy
  simp only
  nlinarith [mul_self_nonneg (R p - R q), mul_self_nonneg (G p - G q),
    mul_self_nonneg (B p - B q)]

theorem pixEnergy_eq_zero_iff (p q : Nat) : pixEnergy p q = 0 ↔ rgb p = rgb q := by
  unfold pixEnergy rgb
  simp only [Prod.mk.injEq]
  constructor
  · intro h
    have h1 := mul_self_nonneg (R p - R q)
    have h2 := mul_self_nonneg (G p - G q)
    have h3 := mul_self_nonneg (B p - B q)
    have e1 : (R p - R q) * (R p - R q) = 0 := by omega
    have e2 : (G p - G q) * (G p - G q) = 0 := by omega
    have e3 : (B p - B q) * (B p - B q) = 0 := by omega
    rw [mul_self_eq_zero] at e1 e2 e3
    omega
  · rintro ⟨h1, h2, h3⟩
    rw [h1, h2, h3]
    ring

/-- C8. For every packed pixel `p`, `colorKey p = R*65536 + G*256 + B` with the
three channels in `[0, 255]`; the key lies in `[0, 16777215]`; every
intermediate result of the 64-bit computation is below `2^64`, so nothing
wraps; and the key of `p` is the key of `p` with its alpha byte cleared. -/
theorem colorKey_spec (p : Nat) :
    (colorKey p : Int) = R p * 65536 + G p * 256 + B p
    ∧ (0 ≤ R p ∧ R p ≤ 255) ∧ (0 ≤ G p ∧ G p ≤ 255) ∧ (0 ≤ B p ∧ B p ≤ 255)
    ∧ (0 ≤ colorKey p ∧ colorKey p ≤ 16777215)
    ∧ (colorKeySteps p).all (fun v => decide (v < 2 ^ 64)) = true
    ∧ colorKey (p % 2 ^ 24) = colorKey p :=
  ⟨colorKey_eq p, R_range p, G_range p, B_range p, ⟨Nat.zero_le _, colorKey_le p⟩,
    colorKeySteps_lt p, colorKey_alpha p⟩

/-- C9. Two pixels have the same colour key exactly when they agree in `R`,
`G` and `B`, and the order of the keys is the lexicographic order of the
triples `(R, G, B)`. -/
theorem colorKey_encodes_rgb (p q : Nat) :
    (colorKey p = colorKey q ↔ (R p = R q ∧ G p = G q ∧ B p = B q))
    ∧ (colorKey p < colorKey q ↔
        (R p < R q ∨ (R p = R q ∧ (G p < G q ∨ (G p = G q ∧ B p < B q))))) := by
  refine ⟨colorKey_inj_iff p q, ?_⟩
  have h1 := colorKey_eq p
  have h2 := colorKey_eq q
  have := R_range p
  have := G_range p
  have := B_range p
  have := R_range q
  have := G_range q
  have := B_range q
  omega

/-! ## Array loops -/

theorem collect_map_some {α : Type} (r : List α) : collect (r.map some) = some r := by
  induction r with
  | nil => rfl
  | cons a as ih => simp [collect, ih]

theorem fillArray_eq {α : Type} (N : Nat) (f : Nat → Option α) (g : Nat → α)
    (h : ∀ i, i < N → f i = some (g i)) :
    fillArray N f = some ((List.range N).map g) := by
  unfold fillArray
  have e : (List.range N).map f = ((List.range N).map g).map some := by
    rw [List.map_map]
    apply List.map_congr_left
    intro i hi
    simpa using h i (List.mem_range.mp hi)
  rw [e, collect_map_some]

theorem loadKeys_eq (pix : List Nat) (N : Nat) (h : N ≤ pix.length) :
    loadKeys pix N = some (keyList pix N) := by
  unfold loadKeys keyList
  apply fillArray_eq
  intro i hi
  have hi2 : i < pix.length := by omega
  simp [List.getElem?_eq_getElem hi2]

theorem extractOrder_eq (keys : List KeyIndex) :
    extractOrder keys keys.length = some (keys.map (fun e => e.idx)) := by
  unfold extractOrder
  rw [fillArray_eq keys.length _ (fun i => ((keys[i]?).map (fun e => e.idx)).getD 0)]
  · congr 1
    apply List.ext_getElem
    · simp
    · intro n h1 h2
      simp at h1
      simp [List.getElem?_eq_getElem h1]
  · intro i hi
    simp [List.getElem?_eq_getElem hi]

theorem keyList_length (pix : List Nat) (N : Nat) : (keyList pix N).length = N := by
  simp [keyList]

theorem sort_length (S : StdSort) (l : List KeyIndex) : (S.sort l).length = l.length :=
  (S.perm l).length_eq

theorem rankOrder_eq (S : StdSort) (pix : List Nat) (N : Nat) (h : N ≤ pix.length) :
    rankOrder S pix N = some ((S.sort (keyList pix N)).map (fun e => e.idx)) := by
  unfold rankOrder
  rw [loadKeys_eq pix N h]
  simp only [Option.some_bind]
  have hl : (S.sort (keyList pix N)).length = N := by
    rw [sort_length, keyList_length]
  have := extractOrder_eq (S.sort (keyList pix N))
  rw [hl] at this
  exact this

theorem keyList_idx (pix : List Nat) (N : Nat) :
    (keyList pix N).map (fun e => e.idx) = List.range N := by
  simp [keyList, List.map_map, Function.comp_def]

theorem sortedOrder_perm (S : StdSort) (pix : List Nat) (N : Nat) :
    ((S.sort (keyList pix N)).map (fun e => e.idx)).Perm (List.range N) := by
  have h := (S.perm (keyList pix N)).map (fun e => e.idx)
  rw [keyList_idx] at h
  exact h

theorem keyList_key (pix : List Nat) (N : Nat) (e : KeyIndex) (he : e ∈ keyList pix N) :
    e.key = colorKey (pix.getD e.idx 0) := by
  simp only [keyList, List.mem_map, List.mem_range] at he
  obtain ⟨i, _, rfl⟩ := he
  rfl

theorem sorted_key (S : StdSort) (pix : List Nat) (N : Nat) (e : KeyIndex)
    (he : e ∈ S.sort (keyList pix N)) : e.key = colorKey (pix.getD e.idx 0) :=
  keyList_key pix N e ((S.perm _).subset he)

/-- Colour keys of the pixels visited in rank order are the keys of the sorted
records. -/
theorem sortedOrder_keys (S : StdSort) (pix : List Nat) (N : Nat) :
    ((S.sort (keyList pix N)).map (fun e => e.idx)).map (fun i => colorKey (pix.getD i 0))
      = (S.sort (keyList pix N)).map (fun e => e.key) := by
  rw [List.map_map]
  apply List.map_congr_left
  intro e he
  simp only [Function.comp]
  exact (sorted_key S pix N e he).symm

theorem sorted_keys_pairwise (S : StdSort) (l : List KeyIndex) :
    ((S.sort l).map (fun e => e.key)).Pairwise (fun a b => a ≤ b) := by
  rw [List.pairwise_map]
  refine List.Pairwise.imp ?_ (S.sorted l)
  intro a b hab
  simpa [KeyIndex.lt] using hab

/-! ## Permutations of `0..N-1` -/

theorem perm_range_length {l : List Nat} {N : Nat} (h : l.Perm (List.range N)) :
    l.length = N := by
  simpa using h.length_eq

theorem perm_range_getD_lt {l : List Nat} {N : Nat} (h : l.Perm (List.range N))
    {i : Nat} (hi : i < N) : l.getD i 0 < N := by
  have hl := perm_range_length h
  have hi2 : i < l.length := by omega
  rw [List.getD_eq_getElem l 0 hi2]
  exact List.mem_range.mp (h.subset (List.getElem_mem hi2))

theorem perm_range_getD_inj {l : List Nat} {N : Nat} (h : l.Perm (List.range N))
    {i j : Nat} (hi : i < N) (hj : j < N) (e : l.getD i 0 = l.getD j 0) : i = j := by
  have hl := perm_range_length h
  have hi2 : i < l.length := by omega
  have hj2 : j < l.length := by omega
  rw [List.getD_eq_getElem l 0 hi2, List.getD_eq_getElem l 0 hj2] at e
  have hn : l.Nodup := (h.nodup_iff).mpr (List.nodup_range N)
  exact (hn.getElem_inj_iff).mp e

theorem map_getD_range (l : List Nat) : (List.range l.length).map (fun i => l.getD i 0) = l := by
  apply List.ext_getElem
  · simp
  · intro n h1 h2
    simp [List.getElem?_eq_getElem h2]

/-- C5. For every pixel buffer and every sort that meets the `std::sort`
contract, the rank ordering exists, is a permutation of `0..N-1`, and visits
the pixels in non-decreasing colour-key order. -/
theorem rankOrder_sorted (S : StdSort) (pix : List Nat) :
    ∃ order, rankOrder S pix pix.length = some order
      ∧ order.Perm (List.range pix.length)
      ∧ ∀ r, r + 1 < pix.length →
          colorKey (pix.getD (order.getD r 0) 0) ≤ colorKey (pix.getD (order.getD (r + 1) 0) 0) := by
  refine ⟨_, rankOrder_eq S pix pix.length (Nat.le_refl _), sortedOrder_perm S pix _, ?_⟩
  intro r hr
  have hp := sorted_keys_pairwise S (keyList pix pix.length)
  rw [← sortedOrder_keys] at hp
  generalize hO : (S.sort (keyList pix pix.length)).map (fun e => e.idx) = order at hp
  have hlen : order.length = pix.length := by
    rw [← hO, List.length_map, sort_length, keyList_length]
  rw [List.pairwise_iff_getElem] at hp
  have h := hp r (r + 1) (by simpa [hlen] using (by omega : r < pix.length))
    (by simpa [hlen] using hr) (Nat.lt_succ_self r)
  have h1 : r < order.length := by omega
  have h2 : r + 1 < order.length := by omega
  simpa [List.getElem?_eq_getElem h1, List.getElem?_eq_getElem h2] using h

theorem rankOrder_sorted_witness :
    ∃ order, rankOrder insertionSort [0x00FF0000, 0x000000FF, 0x0000FF00] 3 = some order
      ∧ order.Perm (List.range 3)
      ∧ ∀ r, r + 1 < 3 →
          colorKey ([0x00FF0000, 0x000000FF, 0x0000FF00].getD (order.getD r 0) 0)
            ≤ colorKey ([0x00FF0000, 0x000000FF, 0x0000FF00].getD (order.getD (r + 1) 0) 0) :=
  rankOrder_sorted insertionSort [0x00FF0000, 0x000000FF, 0x0000FF00]

/-! ## Initial mapping -/

theorem writeAt_eq {α : Type} (a : List α) (i : Nat) (v : α) (h : i < a.length) :
    writeAt a i v = some (a.set i v) := by
  simp [writeAt, h]

theorem getD_set_self (l : List Nat) (i v : Nat) (h : i < l.length) :
    (l.set i v).getD i 0 = v := by
  simp [h]

theorem getD_set_ne (l : List Nat) (i j v : Nat) (h : i ≠ j) :
    (l.set i v).getD j 0 = l.getD j 0 := by
  simp [List.getElem?_set_ne h]

theorem initMapping_loop (srcOrder tgtOrder : List Nat) (N : Nat)
    (hs : srcOrder.length = N) (ht : tgtOrder.Perm (List.range N)) (n : Nat) (hn : n ≤ N) :
    ∃ m, (List.range n).foldlM
        (fun mapping i =>
          (tgtOrder[i]?).bind fun t =>
          (srcOrder[i]?).bind fun s =>
          writeAt mapping t s)
        (List.replicate N 0) = some m
      ∧ m.length = N
      ∧ ∀ r, r < n → m.getD (tgtOrder.getD r 0) 0 = srcOrder.getD r 0 := by
  have htl := perm_range_length ht
  induction n with
  | zero => exact ⟨List.replicate N 0, by simp, by simp, by intro r hr; omega⟩
  | succ n ih =>
    obtain ⟨m, hm, hlen, hget⟩ := ih (by omega)
    have h1 : n < tgtOrder.length := by omega
    have h2 : n < srcOrder.length := by omega
    have h3 : tgtOrder[n] < m.length := by
      have := perm_range_getD_lt ht (show n < N by omega)
      rw [List.getD_eq_getElem tgtOrder 0 h1] at this
      omega
    refine ⟨m.set tgtOrder[n] srcOrder[n], ?_, by simp [hlen], ?_⟩
    · rw [List.range_succ, List.foldlM_append, hm]
      simp [List.getElem?_eq_getElem h1, List.getElem?_eq_getElem h2, writeAt_eq _ _ _ h3]
    · intro r hr
      by_cases hrn : r = n
      · subst hrn
        rw [List.getD_eq_getElem tgtOrder 0 h1, List.getD_eq_getElem srcOrder 0 h2]
        exact getD_set_self m _ _ h3
      · have hne : tgtOrder[n] ≠ tgtOrder.getD r 0 := by
          intro e
          rw [← List.getD_eq_getElem tgtOrder 0 h1] at e
          exact hrn (perm_range_getD_inj ht (by omega) (by omega) e).symm
        rw [getD_set_ne m _ _ _ hne]
        exact hget r (by omega)

theorem initMapping_spec (srcOrder tgtOrder : List Nat) (N : Nat)
    (hs : srcOrder.Perm (List.range N)) (ht : tgtOrder.Perm (List.range N)) :
    ∃ m, initMapping srcOrder tgtOrder N = some m
      ∧ m.Perm (List.range N)
      ∧ ∀ r, r < N → m.getD (tgtOrder.getD r 0) 0 = srcOrder.getD r 0 := by
  have hsl := perm_range_length hs
  have htl := perm_range_length ht
  obtain ⟨m, hm, hlen, hget⟩ := initMapping_loop srcOrder tgtOrder N hsl ht N (Nat.le_refl _)
  refine ⟨m, hm, ?_, hget⟩
  have e1 : tgtOrder.map (fun i => m.getD i 0) = srcOrder := by
    apply List.ext_getElem
    · simp [hsl, htl]
    · intro r h1 h2
      have hr : r < N := by omega
      have := hget r hr
      rw [List.getD_eq_getElem srcOrder 0 h2] at this
      rw [← this]
      have h3 : r < tgtOrder.length := by omega
      simp [List.getElem?_eq_getElem h3]
  have e2 : (List.range N).map (fun i => m.getD i 0) = m := by
    rw [← hlen]; exact map_getD_range m
  have p1 : ((List.range N).map (fun i => m.getD i 0)).Perm
      (tgtOrder.map (fun i => m.getD i 0)) := (ht.symm).map _
  rw [e1, e2] at p1
  exact p1.trans hs

/-! ## Energy -/

theorem totalEnergy_loop (srcPix tgtPix mapping : List Nat) (n : Nat)
    (hm : n ≤ mapping.length) (ht : n ≤ tgtPix.length)
    (hs : ∀ i, i < n → mapping.getD i 0 < srcPix.length) :
    (List.range n).foldlM
      (fun E i =>
        (mapping[i]?).bind fun mi =>
        (srcPix[mi]?).bind fun s =>
        (tgtPix[i]?).bind fun t =>
        some (E + pixEnergy s t))
      (0 : Int) = some (energySum srcPix tgtPix mapping n) := by
  induction n with
  | zero => simp [energySum]
  | succ n ih =>
    have h1 : n < mapping.length := by omega
    have h2 : n < tgtPix.length := by omega
    have h3 := hs n (Nat.lt_succ_self n)
    rw [List.getD_eq_getElem mapping 0 h1] at h3
    rw [List.range_succ, List.foldlM_append, ih (by omega) (by omega)
      (fun i hi => hs i (by omega))]
    simp [List.getElem?_eq_getElem h1, List.getElem?_eq_getElem h2,
      List.getElem?_eq_getElem h3, energySum, Finset.sum_range_succ]

theorem totalEnergy_eq (srcPix tgtPix mapping : List Nat) (N : Nat)
    (hm : N ≤ mapping.length) (ht : N ≤ tgtPix.length)
    (hs : ∀ i, i < N → mapping.getD i 0 < srcPix.length) :
    totalEnergy srcPix tgtPix mapping N = some (energySum srcPix tgtPix mapping N) :=
  totalEnergy_loop srcPix tgtPix mapping N hm ht hs

theorem totalEnergy_of_perm (srcPix tgtPix mapping : List Nat)
    (hlen : srcPix.length ≤ tgtPix.length) (hp : mapping.Perm (List.range srcPix.length)) :
    totalEnergy srcPix tgtPix mapping srcPix.length
      = some (energySum srcPix tgtPix mapping srcPix.length) := by
  apply totalEnergy_eq
  · rw [perm_range_length hp]
  · omega
  · intro i hi
    exact perm_range_getD_lt hp hi

theorem energySum_nonneg (srcPix tgtPix mapping : List Nat) (N : Nat) :
    0 ≤ energySum srcPix tgtPix mapping N :=
  Finset.sum_nonneg (fun _ _ => pixEnergy_nonneg _ _)

theorem energySum_le (srcPix tgtPix mapping : List Nat) (N : Nat) :
    energySum srcPix tgtPix mapping N ≤ (N : Int) * 195075 := by
  unfold energySum
  have h := Finset.sum_le_card_nsmul (Finset.range N)
    (fun i => pixEnergy (srcPix.getD (mapping.getD i 0) 0) (tgtPix.getD i 0)) 195075
    (fun _ _ => pixEnergy_le _ _)
  simpa using h

theorem energySum_eq_zero_iff (srcPix tgtPix mapping : List Nat) (N : Nat) :
    energySum srcPix tgtPix mapping N = 0 ↔
      ∀ i, i < N → rgb (srcPix.getD (mapping.getD i 0) 0) = rgb (tgtPix.getD i 0) := by
  unfold energySum
  rw [Finset.sum_eq_zero_iff_of_nonneg (fun _ _ => pixEnergy_nonneg _ _)]
  constructor
  · intro h i hi
    exact (pixEnergy_eq_zero_iff _ _).mp (h i (Finset.mem_range.mpr hi))
  · intro h i hi
    exact (pixEnergy_eq_zero_iff _ _).mpr (h i (Finset.mem_range.mp hi))

theorem energySum_swap (srcPix tgtPix m : List Nat) (N i j : Nat)
    (hlen : m.length = N) (hi : i < N) (hj : j < N) (hij : i ≠ j) :
    energySum srcPix tgtPix ((m.set i (m.getD j 0)).set j (m.getD i 0)) N
      = energySum srcPix tgtPix m N
        + (pixEnergy (srcPix.getD (m.getD j 0) 0) (tgtPix.getD i 0)
          + pixEnergy (srcPix.getD (m.getD i 0) 0) (tgtPix.getD j 0)
          - pixEnergy (srcPix.getD (m.getD i 0) 0) (tgtPix.getD i 0)
          - pixEnergy (srcPix.getD (m.getD j 0) 0) (tgtPix.getD j 0)) := by
  have hi1 : ((m.set i (m.getD j 0)).set j (m.getD i 0)).getD i 0 = m.getD j 0 := by
    rw [getD_set_ne _ _ _ _ (Ne.symm hij)]
    exact getD_set_self m i _ (by omega)
  have hj1 : ((m.set i (m.getD j 0)).set j (m.getD i 0)).getD j 0 = m.getD i 0 :=
    getD_set_self _ j _ (by simp; omega)
  have hc : ∀ c, c ≠ i → c ≠ j →
      ((m.set i (m.getD j 0)).set j (m.getD i 0)).getD c 0 = m.getD c 0 := by
    intro c hci hcj
    rw [getD_set_ne _ _ _ _ (Ne.symm hcj), getD_set_ne _ _ _ _ (Ne.symm hci)]
  have key : energySum srcPix tgtPix ((m.set i (m.getD j 0)).set j (m.getD i 0)) N
      - energySum srcPix tgtPix m N
      = (pixEnergy (srcPix.getD (m.getD j 0) 0) (tgtPix.getD i 0)
          - pixEnergy (srcPix.getD (m.getD i 0) 0) (tgtPix.getD i 0))
        + (pixEnergy (srcPix.getD (m.getD i 0) 0) (tgtPix.getD j 0)
          - pixEnergy (srcPix.getD (m.getD j 0) 0) (tgtPix.getD j 0)) := by
    unfold energySum
    rw [← Finset.sum_sub_distrib, Finset.sum_eq_add i j hij]
    · rw [hi1, hj1]
    · intro c _ hcc
      rw [hc c hcc.1 hcc.2]
      ring
    · intro h; exact absurd (Finset.mem_range.mpr hi) h
    · intro h; exact absurd (Finset.mem_range.mpr hj) h
  linarith

/-! ## One annealing step -/

theorem getElem?_eq_some_getD (l : List Nat) (i : Nat) (h : i < l.length) :
    l[i]? = some (l.getD i 0) := by
  simp [List.getElem?_eq_getElem h]

theorem readAt_eq (l : List Nat) (k : Int) (h0 : 0 ≤ k) (h1 : k.toNat < l.length) :
    readAt l k = some (l.getD k.toNat 0) := by
  simp [readAt, h0, List.getElem?_eq_getElem h1]

theorem swap_perm (l : List Nat) (i j : Nat) (hi : i < l.length) (hj : j < l.length) :
    ((l.set i (l.getD j 0)).set j (l.getD i 0)).Perm l := by
  rw [List.perm_iff_count]
  intro b
  have hj2 : j < (l.set i (l.getD j 0)).length := by simpa using hj
  rw [List.count_set _ _ _ _ hj2, List.count_set _ _ _ _ hi]
  have e1 : (l.set i (l.getD j 0))[j] = l[j] := by
    rw [List.getElem_set]
    split
    · rw [List.getD_eq_getElem l 0 hj]
    · rfl
  rw [e1, List.getD_eq_getElem l 0 hj, List.getD_eq_getElem l 0 hi]
  have c1 : l[i] = b → 0 < l.count b := fun e =>
    List.count_pos_iff.mpr (e ▸ List.getElem_mem hi)
  have c2 : l[j] = b → 0 < l.count b := fun e =>
    List.count_pos_iff.mpr (e ▸ List.getElem_mem hj)
  simp only [beq_iff_eq]
  by_cases h1 : l[i] = b <;> by_cases h2 : l[j] = b <;> simp [h1, h2] <;> omega

theorem clampRank_range (N : Nat) (k dk : Int) (hN : 0 < N) :
    0 ≤ clampRank N k dk ∧ clampRank N k dk < N := by
  unfold clampRank
  simp only
  split_ifs <;> omega

theorem swapDelta_eq (srcPix tgtPix : List Nat) (i j mi mj : Nat)
    (hi : i < tgtPix.length) (hj : j < tgtPix.length)
    (hmi : mi < srcPix.length) (hmj : mj < srcPix.length) :
    swapDelta srcPix tgtPix i j mi mj
      = some (pixEnergy (srcPix.getD mj 0) (tgtPix.getD i 0)
          + pixEnergy (srcPix.getD mi 0) (tgtPix.getD j 0)
          - pixEnergy (srcPix.getD mi 0) (tgtPix.getD i 0)
          - pixEnergy (srcPix.getD mj 0) (tgtPix.getD j 0)) := by
  simp [swapDelta, List.getElem?_eq_getElem hi, List.getElem?_eq_getElem hj,
    List.getElem?_eq_getElem hmi, List.getElem?_eq_getElem hmj]

theorem applySwap_eq (mapping : List Nat) (i j mi mj : Nat)
    (hi : i < mapping.length) (hj : j < mapping.length) :
    applySwap mapping i j mi mj = some ((mapping.set i mj).set j mi) := by
  simp [applySwap, writeAt, hi, hj]

theorem metropolis_true {σ D : Type} (F : DoubleOps D) (rng : TRandom3 σ D) (T : D)
    (dE : Int) (g : σ) (h : (metropolis F rng T dE g).1 = true) :
    dE ≤ 0 ∨ F.lt (rng.Rndm g).1 (F.exp (F.div (F.neg (F.ofInt dE)) T)) = true := by
  unfold metropolis at h
  by_cases hd : dE ≤ 0
  · exact Or.inl hd
  · rw [if_neg hd] at h
    exact Or.inr h

/-- Every step of the annealing loop on a permutation mapping returns a state:
either the mapping and the energy are unchanged, or two distinct entries of
the mapping are exchanged, `dE` is added to the energy and the acceptance
condition held. -/
theorem annealStep_spec {σ D : Type} (F : DoubleOps D) (rng : TRandom3 σ D) (cfg : Config D)
    (srcPix tgtPix tgtOrder : List Nat) (step : Nat) (st : AnnealState σ)
    (hlen : srcPix.length ≤ tgtPix.length) (hN : 0 < srcPix.length)
    (ht : tgtOrder.Perm (List.range srcPix.length))
    (hm : st.mapping.Perm (List.range srcPix.length)) :
    ∃ st1, annealStep F rng cfg srcPix tgtPix tgtOrder srcPix.length step st = some st1
      ∧ ((st1.mapping = st.mapping ∧ st1.E = st.E)
        ∨ ∃ i j g, i < srcPix.length ∧ j < srcPix.length ∧ i ≠ j
            ∧ st1.mapping = exchanged st.mapping i j
            ∧ st1.E = st.E + deltaAt srcPix tgtPix st.mapping i j
            ∧ (metropolis F rng (temperature F cfg step)
                (deltaAt srcPix tgtPix st.mapping i j) g).1 = true) := by
  have hk := rng.Integer_lt st.rng srcPix.length hN
  have htl := perm_range_length ht
  have hml := perm_range_length hm
  unfold annealStep
  simp only []
  generalize rng.Integer st.rng srcPix.length = d1 at hk ⊢
  generalize rng.Integer d1.2 (2 * cfg.radius + 1) = d2
  generalize offset cfg.radius d2.1 = dk
  have hk2 := clampRank_range srcPix.length (d1.1 : Int) dk hN
  generalize clampRank srcPix.length (d1.1 : Int) dk = k2 at hk2 ⊢
  by_cases hskip : k2 = (d1.1 : Int)
  · rw [if_pos hskip]
    exact ⟨_, rfl, Or.inl ⟨rfl, rfl⟩⟩
  · rw [if_neg hskip]
    have hk2n : k2.toNat < srcPix.length := by omega
    have hne : d1.1 ≠ k2.toNat := by omega
    rw [readAt_eq tgtOrder (d1.1 : Int) (by omega) (by simpa [htl] using hk),
      readAt_eq tgtOrder k2 hk2.1 (by omega)]
    simp only [Int.toNat_ofNat, Option.some_bind]
    have hi := perm_range_getD_lt ht hk
    have hj := perm_range_getD_lt ht hk2n
    have hij : tgtOrder.getD d1.1 0 ≠ tgtOrder.getD k2.toNat 0 :=
      fun e => hne (perm_range_getD_inj ht hk hk2n e)
    generalize tgtOrder.getD d1.1 0 = i at hi hij ⊢
    generalize tgtOrder.getD k2.toNat 0 = j at hj hij ⊢
    have hmi := perm_range_getD_lt hm hi
    have hmj := perm_range_getD_lt hm hj
    rw [getElem?_eq_some_getD st.mapping i (by omega),
      getElem?_eq_some_getD st.mapping j (by omega)]
    simp only [Option.some_bind]
    rw [swapDelta_eq srcPix tgtPix i j _ _ (by omega) (by omega) hmi hmj]
    simp only [Option.some_bind]
    rw [applySwap_eq st.mapping i j _ _ (by omega) (by omega)]
    simp only [Option.some_bind]
    by_cases hacc : (metropolis F rng (temperature F cfg step)
        (deltaAt srcPix tgtPix st.mapping i j) d2.2).1 = true
    · refine ⟨_, if_pos hacc, Or.inr ⟨i, j, d2.2, hi, hj, hij, rfl, rfl, hacc⟩⟩
    · refine ⟨_, if_neg hacc, Or.inl ⟨rfl, rfl⟩⟩

/-! ## The annealing loop -/

theorem annealStep_consistent {σ D : Type} (F : DoubleOps D) (rng : TRandom3 σ D)
    (cfg : Config D) (srcPix tgtPix tgtOrder : List Nat) (step : Nat) (st : AnnealState σ)
    (hlen : srcPix.length ≤ tgtPix.length) (hN : 0 < srcPix.length)
    (ht : tgtOrder.Perm (List.range srcPix.length))
    (hc : Consistent srcPix tgtPix st) :
    ∃ st1, annealStep F rng cfg srcPix tgtPix tgtOrder srcPix.length step st = some st1
      ∧ Consistent srcPix tgtPix st1 := by
  obtain ⟨st1, h1, h2⟩ := annealStep_spec F rng cfg srcPix tgtPix tgtOrder step st hlen hN ht hc.1
  refine ⟨st1, h1, ?_⟩
  have hml := perm_range_length hc.1
  rcases h2 with ⟨hm, hE⟩ | ⟨i, j, g, hi, hj, hij, hm, hE, _⟩
  · exact ⟨hm ▸ hc.1, by rw [hE, hm, hc.2]⟩
  · constructor
    · rw [hm]
      exact (swap_perm st.mapping i j (by omega) (by omega)).trans hc.1
    · rw [hE, hm, hc.2]
      exact (energySum_swap srcPix tgtPix st.mapping _ i j hml hi hj hij).symm

theorem annealLoop_consistent {σ D : Type} (F : DoubleOps D) (rng : TRandom3 σ D)
    (cfg : Config D) (srcPix tgtPix tgtOrder : List Nat)
    (hlen : srcPix.length ≤ tgtPix.length) (hN : 0 < srcPix.length)
    (ht : tgtOrder.Perm (List.range srcPix.length)) (n : Nat) :
    ∀ (step : Nat) (st : AnnealState σ), Consistent srcPix tgtPix st →
      ∃ st1, annealLoop F rng cfg srcPix tgtPix tgtOrder srcPix.length n step st = some st1
        ∧ Consistent srcPix tgtPix st1 := by
  induction n with
  | zero => intro step st hc; exact ⟨st, rfl, hc⟩
  | succ n ih =>
    intro step st hc
    obtain ⟨st1, h1, hc1⟩ :=
      annealStep_consistent F rng cfg srcPix tgtPix tgtOrder step st hlen hN ht hc
    obtain ⟨st2, h2, hc2⟩ := ih (step + 1) st1 hc1
    exact ⟨st2, by simp [annealLoop, h1, h2], hc2⟩

/-! ## Setup -/

theorem setup_spec {σ D : Type} (S : StdSort) (rng : TRandom3 σ D)
    (srcPix tgtPix : List Nat) (hlen : srcPix.length ≤ tgtPix.length) :
    ∃ su, setup S rng srcPix tgtPix = some su
      ∧ su.srcOrder = (S.sort (keyList srcPix srcPix.length)).map (fun e => e.idx)
      ∧ su.tgtOrder = (S.sort (keyList tgtPix srcPix.length)).map (fun e => e.idx)
      ∧ su.start.rng = rng.seed 12345
      ∧ Consistent srcPix tgtPix su.start
      ∧ ∀ r, r < srcPix.length →
          su.start.mapping.getD (su.tgtOrder.getD r 0) 0 = su.srcOrder.getD r 0 := by
  have hs := sortedOrder_perm S srcPix srcPix.length
  have ht := sortedOrder_perm S tgtPix srcPix.length
  obtain ⟨m, hm, hp, hget⟩ := initMapping_spec _ _ srcPix.length hs ht
  refine ⟨{ srcOrder := _, tgtOrder := _,
            start := { mapping := m, E := energySum srcPix tgtPix m srcPix.length,
                       rng := rng.seed 12345 } }, ?_, rfl, rfl, rfl, ⟨hp, rfl⟩, hget⟩
  unfold setup
  simp only []
  rw [rankOrder_eq S srcPix srcPix.length (Nat.le_refl _),
    rankOrder_eq S tgtPix srcPix.length (by omega)]
  simp only [Option.some_bind]
  rw [hm]
  simp only [Option.some_bind]
  rw [totalEnergy_of_perm srcPix tgtPix m hlen hp]
  simp only [Option.some_bind]

theorem setup_tgtOrder_perm {σ D : Type} (S : StdSort) (rng : TRandom3 σ D)
    (srcPix tgtPix : List Nat) (su : Setup σ)
    (hlen : srcPix.length ≤ tgtPix.length) (h : setup S rng srcPix tgtPix = some su) :
    su.tgtOrder.Perm (List.range srcPix.length)
      ∧ su.srcOrder.Perm (List.range srcPix.length)
      ∧ Consistent srcPix tgtPix su.start := by
  obtain ⟨su1, h1, e1, e2, _, hc, _⟩ := setup_spec S rng srcPix tgtPix hlen
  rw [h] at h1
  cases h1
  exact ⟨e2 ▸ sortedOrder_perm S tgtPix _, e1 ▸ sortedOrder_perm S srcPix _, hc⟩

theorem stateAfter_exists {σ D : Type} (S : StdSort) (F : DoubleOps D) (rng : TRandom3 σ D)
    (cfg : Config D) (srcPix tgtPix : List Nat) (n : Nat)
    (hlen : srcPix.length ≤ tgtPix.length) (hN : 0 < srcPix.length ∨ n = 0) :
    ∃ st, stateAfter S F rng cfg srcPix tgtPix n = some st := by
  obtain ⟨su, h, _⟩ := setup_spec S rng srcPix tgtPix hlen
  obtain ⟨ht, _, hc⟩ := setup_tgtOrder_perm S rng srcPix tgtPix su hlen h
  unfold stateAfter
  rw [h]
  simp only [Option.some_bind]
  rcases hN with hN | rfl
  · obtain ⟨st, h1, _⟩ :=
      annealLoop_consistent F rng cfg srcPix tgtPix su.tgtOrder hlen hN ht n 0 su.start hc
    exact ⟨st, h1⟩
  · exact ⟨su.start, rfl⟩

theorem stateAfter_consistent {σ D : Type} (S : StdSort) (F : DoubleOps D)
    (rng : TRandom3 σ D) (cfg : Config D) (srcPix tgtPix : List Nat) (n : Nat)
    (st : AnnealState σ) (hlen : srcPix.length ≤ tgtPix.length)
    (h : stateAfter S F rng cfg srcPix tgtPix n = some st) :
    Consistent srcPix tgtPix st := by
  obtain ⟨su, hsu, _⟩ := setup_spec S rng srcPix tgtPix hlen
  obtain ⟨ht, _, hc⟩ := setup_tgtOrder_perm S rng srcPix tgtPix su hlen hsu
  unfold stateAfter at h
  rw [hsu] at h
  simp only [Option.some_bind] at h
  cases n with
  | zero =>
    simp only [annealLoop] at h
    cases h
    exact hc
  | succ n =>
    by_cases hN : 0 < srcPix.length
    · obtain ⟨st1, h1, hc1⟩ :=
        annealLoop_consistent F rng cfg srcPix tgtPix su.tgtOrder hlen hN ht (n + 1) 0
          su.start hc
      rw [h1] at h
      cases h
      exact hc1
    · exfalso
      have h0 : srcPix.length = 0 := by omega
      have hto : su.tgtOrder = [] := by
        have := perm_range_length ht
        rw [h0] at this
        exact List.length_eq_zero.mp this
      simp only [annealLoop, annealStep, h0, hto] at h
      revert h
      generalize rng.Integer su.start.rng 0 = d1
      generalize offset cfg.radius (rng.Integer d1.2 (2 * cfg.radius + 1)).1 = dk
      have hk2 : clampRank 0 (d1.1 : Int) dk = -1 := by
        unfold clampRank
        simp only
        split_ifs <;> omega
      rw [hk2]
      have : ¬ ((-1 : Int) = (d1.1 : Int)) := by omega
      simp [this, readAt]

/-! ## Output assembly -/

theorem assemble_loop (srcPix mapping : List Nat)
    (hm : mapping.Perm (List.range srcPix.length)) (n : Nat) (hn : n ≤ srcPix.length) :
    ∃ out, (List.range n).foldlM
        (fun outPix i =>
          (mapping[i]?).bind fun mi =>
          (srcPix[mi]?).bind fun s =>
          writeAt outPix i s)
        srcPix = some out
      ∧ out.length = srcPix.length
      ∧ ∀ i, i < n → out.getD i 0 = srcPix.getD (mapping.getD i 0) 0 := by
  have hml := perm_range_length hm
  induction n with
  | zero => exact ⟨srcPix, by simp, rfl, by intro i hi; omega⟩
  | succ n ih =>
    obtain ⟨out, ho, hlen, hget⟩ := ih (by omega)
    have h1 : n < mapping.length := by omega
    have h2 := perm_range_getD_lt hm (show n < srcPix.length by omega)
    refine ⟨out.set n (srcPix.getD (mapping.getD n 0) 0), ?_, by simp [hlen], ?_⟩
    · rw [List.range_succ, List.foldlM_append, ho]
      simp only [List.foldlM_cons, List.foldlM_nil, Option.some_bind, Option.bind_eq_bind,
        bind_pure, Option.pure_def]
      rw [getElem?_eq_some_getD mapping n h1]
      simp only [Option.some_bind]
      rw [getElem?_eq_some_getD srcPix _ h2]
      simp only [Option.some_bind]
      rw [writeAt_eq out n _ (by omega)]
      rfl
    · intro i hi
      by_cases hin : i = n
      · subst hin
        exact getD_set_self out i _ (by omega)
      · rw [getD_set_ne out n i _ (Ne.symm hin)]
        exact hget i (by omega)

theorem assemble_spec (srcPix mapping : List Nat)
    (hm : mapping.Perm (List.range srcPix.length)) :
    ∃ out, assemble srcPix mapping srcPix.length = some out
      ∧ out.length = srcPix.length
      ∧ (∀ i, i < srcPix.length → out.getD i 0 = srcPix.getD (mapping.getD i 0) 0)
      ∧ out.Perm srcPix := by
  obtain ⟨out, ho, hlen, hget⟩ := assemble_loop srcPix mapping hm srcPix.length (Nat.le_refl _)
  refine ⟨out, ho, hlen, hget, ?_⟩
  have hml := perm_range_length hm
  have e1 : out = mapping.map (fun a => srcPix.getD a 0) := by
    apply List.ext_getElem
    · simp [hlen, hml]
    · intro i h1 h2
      have hi : i < srcPix.length := by omega
      have := hget i hi
      rw [List.getD_eq_getElem out 0 h1] at this
      rw [this]
      have h3 : i < mapping.length := by omega
      simp [List.getElem?_eq_getElem h3]
  have p := hm.map (fun a => srcPix.getD a 0)
  rw [map_getD_range srcPix, ← e1] at p
  exact p

/-! ## Claims -/

/-- C1. For two pixel buffers of the same length `N`, every sort meeting the
`std::sort` contract, every generator and every floating-point behaviour: the
initial mapping exists, satisfies `mapping[tgtOrder[r]] = srcOrder[r]` at every
rank and is a permutation of `0..N-1`; for `N > 0` the state after any number
`n` of annealing steps exists; and whenever the state after `n` steps exists,
its mapping is a permutation of `0..N-1` (each index below `N` occurs exactly
once). -/
theorem mapping_bijection {σ D : Type} (S : StdSort) (F : DoubleOps D) (rng : TRandom3 σ D)
    (cfg : Config D) (srcPix tgtPix : List Nat) (n : Nat)
    (hlen : srcPix.length = tgtPix.length) :
    (∃ su, setup S rng srcPix tgtPix = some su
        ∧ su.start.mapping.Perm (List.range srcPix.length)
        ∧ ∀ r, r < srcPix.length →
            su.start.mapping.getD (su.tgtOrder.getD r 0) 0 = su.srcOrder.getD r 0)
    ∧ (0 < srcPix.length → ∃ st, stateAfter S F rng cfg srcPix tgtPix n = some st)
    ∧ (∀ st, stateAfter S F rng cfg srcPix tgtPix n = some st →
        st.mapping.Perm (List.range srcPix.length)
        ∧ ∀ x, x < srcPix.length → st.mapping.count x = 1) := by
  refine ⟨?_, ?_, ?_⟩
  · obtain ⟨su, h, _, _, _, hc, hget⟩ := setup_spec S rng srcPix tgtPix hlen.le
    exact ⟨su, h, hc.1, hget⟩
  · intro hN
    exact stateAfter_exists S F rng cfg srcPix tgtPix n hlen.le (Or.inl hN)
  · intro st h
    have hc := stateAfter_consistent S F rng cfg srcPix tgtPix n st hlen.le h
    refine ⟨hc.1, ?_⟩
    intro x hx
    rw [hc.1.count_eq]
    exact List.count_eq_one_of_mem (List.nodup_range _) (List.mem_range.mpr hx)

theorem mapping_bijection_witness :
    (∃ su, setup insertionSort (scriptedRng [0, 8001, 1000000000]) [0, 1] [0, 1] = some su
        ∧ su.start.mapping.Perm (List.range [0, 1].length)
        ∧ ∀ r, r < [0, 1].length →
            su.start.mapping.getD (su.tgtOrder.getD r 0) 0 = su.srcOrder.getD r 0)
    ∧ (0 < [0, 1].length → ∃ st, stateAfter insertionSort ratOps
          (scriptedRng [0, 8001, 1000000000]) (config ratOps) [0, 1] [0, 1] 3 = some st)
    ∧ (∀ st, stateAfter insertionSort ratOps (scriptedRng [0, 8001, 1000000000])
          (config ratOps) [0, 1] [0, 1] 3 = some st →
        st.mapping.Perm (List.range [0, 1].length)
        ∧ ∀ x, x < [0, 1].length → st.mapping.count x = 1) :=
  mapping_bijection insertionSort ratOps (scriptedRng [0, 8001, 1000000000]) (config ratOps)
    [0, 1] [0, 1] 3 (by decide)

/-- C2. For buffers of the same length, whenever the program returns an output
buffer it is `output[i] = srcPix[mapping[i]]` at every position for the mapping
after the last step, it is a rearrangement of the source buffer, and every
pixel value occurs in it as often as in the source; for `N > 0` the program
does return an output buffer. -/
theorem output_rearranges_source {σ D : Type} (S : StdSort) (F : DoubleOps D)
    (rng : TRandom3 σ D) (cfg : Config D) (srcPix tgtPix : List Nat)
    (hlen : srcPix.length = tgtPix.length) :
    (0 < srcPix.length → ∃ out, pixswap S F rng cfg srcPix tgtPix = some out)
    ∧ (∀ out, pixswap S F rng cfg srcPix tgtPix = some out →
        ∃ st, stateAfter S F rng cfg srcPix tgtPix cfg.nSteps = some st
          ∧ out.length = srcPix.length
          ∧ (∀ i, i < srcPix.length → out.getD i 0 = srcPix.getD (st.mapping.getD i 0) 0)
          ∧ out.Perm srcPix
          ∧ ∀ v, out.count v = srcPix.count v) := by
  constructor
  · intro hN
    obtain ⟨st, h⟩ := stateAfter_exists S F rng cfg srcPix tgtPix cfg.nSteps hlen.le (Or.inl hN)
    have hc := stateAfter_consistent S F rng cfg srcPix tgtPix cfg.nSteps st hlen.le h
    obtain ⟨out, ho, _⟩ := assemble_spec srcPix st.mapping hc.1
    exact ⟨out, by simp [pixswap, outputAfter, h, ho]⟩
  · intro out h
    unfold pixswap outputAfter at h
    cases hst : stateAfter S F rng cfg srcPix tgtPix cfg.nSteps with
    | none => rw [hst] at h; simp at h
    | some st =>
      rw [hst] at h
      simp only [Option.some_bind] at h
      have hc := stateAfter_consistent S F rng cfg srcPix tgtPix cfg.nSteps st hlen.le hst
      obtain ⟨out1, ho, hl, hget, hp⟩ := assemble_spec srcPix st.mapping hc.1
      rw [ho] at h
      cases h
      exact ⟨st, rfl, hl, hget, hp, fun v => hp.count_eq v⟩

theorem output_rearranges_source_witness :
    (0 < [0, 1].length → ∃ out, pixswap insertionSort ratOps
        (scriptedRng [0, 8001, 1000000000]) (config ratOps) [0, 1] [0, 1] = some out)
    ∧ (∀ out, pixswap insertionSort ratOps (scriptedRng [0, 8001, 1000000000])
          (config ratOps) [0, 1] [0, 1] = some out →
        ∃ st, stateAfter insertionSort ratOps (scriptedRng [0, 8001, 1000000000])
            (config ratOps) [0, 1] [0, 1] (config ratOps).nSteps = some st
          ∧ out.length = [0, 1].length
          ∧ (∀ i, i < [0, 1].length → out.getD i 0 = [0, 1].getD (st.mapping.getD i 0) 0)
          ∧ out.Perm [0, 1]
          ∧ ∀ v, out.count v = [0, 1].count v) :=
  output_rearranges_source insertionSort ratOps (scriptedRng [0, 8001, 1000000000])
    (config ratOps) [0, 1] [0, 1] (by decide)

/-- C3. For buffers of the same length, the state after any number `n` of
annealing steps (`n = 0`: right after the initial energy computation) exists
when `N > 0` or `n = 0`, and in every such state the running energy `E` is the
value that the full recomputation loop returns for the current mapping; it
lies in `[0, N * 195075]`, so every `double` involved holds an exact
integer. -/
theorem energy_tracks_mapping {σ D : Type} (S : StdSort) (F : DoubleOps D)
    (rng : TRandom3 σ D) (cfg : Config D) (srcPix tgtPix : List Nat) (n : Nat)
    (hlen : srcPix.length = tgtPix.length) :
    (0 < srcPix.length ∨ n = 0 → ∃ st, stateAfter S F rng cfg srcPix tgtPix n = some st)
    ∧ (∀ st, stateAfter S F rng cfg srcPix tgtPix n = some st →
        totalEnergy srcPix tgtPix st.mapping srcPix.length = some st.E
        ∧ 0 ≤ st.E ∧ st.E ≤ (srcPix.length : Int) * 195075) := by
  constructor
  · exact stateAfter_exists S F rng cfg srcPix tgtPix n hlen.le
  · intro st h
    have hc := stateAfter_consistent S F rng cfg srcPix tgtPix n st hlen.le h
    rw [totalEnergy_of_perm srcPix tgtPix st.mapping hlen.le hc.1, hc.2]
    exact ⟨rfl, energySum_nonneg _ _ _ _, energySum_le _ _ _ _⟩

theorem energy_tracks_mapping_witness :
    (0 < [0, 1].length ∨ 3 = 0 → ∃ st, stateAfter insertionSort ratOps
        (scriptedRng [0, 8001, 1000000000]) (config ratOps) [0, 1] [1, 1] 3 = some st)
    ∧ (∀ st, stateAfter insertionSort ratOps (scriptedRng [0, 8001, 1000000000])
          (config ratOps) [0, 1] [1, 1] 3 = some st →
        totalEnergy [0, 1] [1, 1] st.mapping [0, 1].length = some st.E
        ∧ 0 ≤ st.E ∧ st.E ≤ ([0, 1].length : Int) * 195075) :=
  energy_tracks_mapping insertionSort ratOps (scriptedRng [0, 8001, 1000000000])
    (config ratOps) [0, 1] [1, 1] 3 (by decide)

theorem exchanged_getD_lt (mapping : List Nat) (N i j : Nat) (hml : mapping.length = N)
    (hb : ∀ t, t < N → mapping.getD t 0 < N) (hi : i < N) (hj : j < N) :
    ∀ t, t < N → (exchanged mapping i j).getD t 0 < N := by
  intro t ht
  unfold exchanged
  by_cases htj : t = j
  · subst htj
    rw [getD_set_self _ t _ (by simp; omega)]
    exact hb i hi
  · rw [getD_set_ne _ j t _ (Ne.symm htj)]
    by_cases hti : t = i
    · subst hti
      rw [getD_set_self _ t _ (by omega)]
      exact hb j hj
    · rw [getD_set_ne _ i t _ (Ne.symm hti)]
      exact hb t ht

/-- C4. For buffers of the same length `N`, every mapping of length `N` with
entries below `N`, and two distinct positions `i`, `j` below `N`: the value
`dE` computed in the loop from `mi = mapping[i]` and `mj = mapping[j]` is the
total energy of the mapping with the entries `i` and `j` exchanged minus the
total energy of the mapping. -/
theorem swapDelta_is_energy_change (srcPix tgtPix mapping : List Nat) (i j : Nat)
    (hlen : srcPix.length = tgtPix.length) (hml : mapping.length = srcPix.length)
    (hb : ∀ t, t < srcPix.length → mapping.getD t 0 < srcPix.length)
    (hi : i < srcPix.length) (hj : j < srcPix.length) (hij : i ≠ j) :
    ∃ dE E m1 E1,
      swapDelta srcPix tgtPix i j (mapping.getD i 0) (mapping.getD j 0) = some dE
      ∧ totalEnergy srcPix tgtPix mapping srcPix.length = some E
      ∧ applySwap mapping i j (mapping.getD i 0) (mapping.getD j 0) = some m1
      ∧ totalEnergy srcPix tgtPix m1 srcPix.length = some E1
      ∧ dE = E1 - E := by
  refine ⟨deltaAt srcPix tgtPix mapping i j, energySum srcPix tgtPix mapping srcPix.length,
    exchanged mapping i j, energySum srcPix tgtPix (exchanged mapping i j) srcPix.length,
    ?_, ?_, ?_, ?_, ?_⟩
  · exact swapDelta_eq srcPix tgtPix i j _ _ (by omega) (by omega) (hb i hi) (hb j hj)
  · exact totalEnergy_eq _ _ _ _ (by omega) (by omega) hb
  · exact applySwap_eq mapping i j _ _ (by omega) (by omega)
  · apply totalEnergy_eq
    · simp [exchanged, hml]
    · omega
    · exact exchanged_getD_lt mapping _ i j hml hb hi hj
  · have := energySum_swap srcPix tgtPix mapping srcPix.length i j hml hi hj hij
    unfold exchanged deltaAt
    rw [this]
    ring

theorem swapDelta_is_energy_change_witness :
    ∃ dE E m1 E1,
      swapDelta [0x102030, 0x000005, 0xFF0000] [0x000001, 0x112233, 0x00FF00] 0 2
          ([2, 0, 1].getD 0 0) ([2, 0, 1].getD 2 0) = some dE
      ∧ totalEnergy [0x102030, 0x000005, 0xFF0000] [0x000001, 0x112233, 0x00FF00] [2, 0, 1]
          [0x102030, 0x000005, 0xFF0000].length = some E
      ∧ applySwap [2, 0, 1] 0 2 ([2, 0, 1].getD 0 0) ([2, 0, 1].getD 2 0) = some m1
      ∧ totalEnergy [0x102030, 0x000005, 0xFF0000] [0x000001, 0x112233, 0x00FF00] m1
          [0x102030, 0x000005, 0xFF0000].length = some E1
      ∧ dE = E1 - E :=
  swapDelta_is_energy_change [0x102030, 0x000005, 0xFF0000] [0x000001, 0x112233, 0x00FF00]
    [2, 0, 1] 0 2 (by decide) (by decide) (by decide) (by decide) (by decide) (by decide)

/-- C10. `pixEnergy p q` is `(R p - R q)^2 + (G p - G q)^2 + (B p - B q)^2`, is
symmetric, lies in `[0, 195075]` and does not depend on the alpha bytes; and
for every mapping whose accesses are in bounds the total energy exists, is
non-negative, and is `0` exactly when at every position `i < N` the mapped
source pixel has the same `R`, `G` and `B` as the target pixel. -/
theorem pixEnergy_spec (p q : Nat) (srcPix tgtPix mapping : List Nat) (N : Nat)
    (hm : N ≤ mapping.length) (ht : N ≤ tgtPix.length)
    (hs : ∀ i, i < N → mapping.getD i 0 < srcPix.length) :
    pixEnergy p q = (R p - R q) ^ 2 + (G p - G q) ^ 2 + (B p - B q) ^ 2
    ∧ pixEnergy p q = pixEnergy q p
    ∧ 0 ≤ pixEnergy p q ∧ pixEnergy p q ≤ 195075
    ∧ pixEnergy (p % 2 ^ 24) (q % 2 ^ 24) = pixEnergy p q
    ∧ ∃ E, totalEnergy srcPix tgtPix mapping N = some E
        ∧ 0 ≤ E
        ∧ (E = 0 ↔ ∀ i, i < N →
            R (srcPix.getD (mapping.getD i 0) 0) = R (tgtPix.getD i 0)
            ∧ G (srcPix.getD (mapping.getD i 0) 0) = G (tgtPix.getD i 0)
            ∧ B (srcPix.getD (mapping.getD i 0) 0) = B (tgtPix.getD i 0)) := by
  refine ⟨by unfold pixEnergy; ring, by unfold pixEnergy; ring, pixEnergy_nonneg p q,
    pixEnergy_le p q, ?_, energySum srcPix tgtPix mapping N,
    totalEnergy_eq _ _ _ _ hm ht hs, energySum_nonneg _ _ _ _, ?_⟩
  · unfold pixEnergy
    rw [R_alpha, G_alpha, B_alpha, R_alpha, G_alpha, B_alpha]
  · rw [energySum_eq_zero_iff]
    simp only [rgb, Prod.mk.injEq]

theorem pixEnergy_spec_witness :
    pixEnergy 0xFF102030 0x00FFFFFF
        = (R 0xFF102030 - R 0x00FFFFFF) ^ 2 + (G 0xFF102030 - G 0x00FFFFFF) ^ 2
          + (B 0xFF102030 - B 0x00FFFFFF) ^ 2
    ∧ pixEnergy 0xFF102030 0x00FFFFFF = pixEnergy 0x00FFFFFF 0xFF102030
    ∧ 0 ≤ pixEnergy 0xFF102030 0x00FFFFFF ∧ pixEnergy 0xFF102030 0x00FFFFFF ≤ 195075
    ∧ pixEnergy (0xFF102030 % 2 ^ 24) (0x00FFFFFF % 2 ^ 24) = pixEnergy 0xFF102030 0x00FFFFFF
    ∧ ∃ E, totalEnergy [0x000005, 0xFF0000] [0xFF0000, 0x000005] [1, 0] 2 = some E
        ∧ 0 ≤ E
        ∧ (E = 0 ↔ ∀ i, i < 2 →
            R ([0x000005, 0xFF0000].getD ([1, 0].getD i 0) 0) = R ([0xFF0000, 0x000005].getD i 0)
            ∧ G ([0x000005, 0xFF0000].getD ([1, 0].getD i 0) 0)
                = G ([0xFF0000, 0x000005].getD i 0)
            ∧ B ([0x000005, 0xFF0000].getD ([1, 0].getD i 0) 0)
                = B ([0xFF0000, 0x000005].getD i 0)) :=
  pixEnergy_spec 0xFF102030 0x00FFFFFF [0x000005, 0xFF0000] [0xFF0000, 0x000005] [1, 0] 2
    (by decide) (by decide) (by decide)

/-! ## Rank alignment of equal palettes -/

theorem colorKey_of_rgb (p : Nat) :
    colorKey p = ((rgb p).1 * 65536 + (rgb p).2.1 * 256 + (rgb p).2.2).toNat := by
  have h := colorKey_eq p
  simp only [rgb]
  omega

theorem map_colorKey_perm (srcPix tgtPix : List Nat)
    (h : (srcPix.map rgb).Perm (tgtPix.map rgb)) :
    (srcPix.map colorKey).Perm (tgtPix.map colorKey) := by
  have e : ∀ l : List Nat, l.map colorKey
      = (l.map rgb).map (fun c => (c.1 * 65536 + c.2.1 * 256 + c.2.2).toNat) := by
    intro l
    rw [List.map_map]
    apply List.map_congr_left
    intro p _
    exact colorKey_of_rgb p
  rw [e srcPix, e tgtPix]
  exact h.map _

theorem keyList_keys (pix : List Nat) :
    (keyList pix pix.length).map (fun e => e.key) = pix.map colorKey := by
  have h := congrArg (List.map colorKey) (map_getD_range pix)
  rw [List.map_map] at h
  rw [← h]
  simp [keyList, List.map_map, Function.comp_def]

theorem sorted_keys_eq (S : StdSort) (srcPix tgtPix : List Nat)
    (h : (srcPix.map rgb).Perm (tgtPix.map rgb)) :
    (S.sort (keyList srcPix srcPix.length)).map (fun e => e.key)
      = (S.sort (keyList tgtPix tgtPix.length)).map (fun e => e.key) := by
  apply @List.Perm.eq_of_sorted Nat (fun a b => a ≤ b)
  · intro a b _ _ h1 h2
    exact Nat.le_antisymm h1 h2
  · exact sorted_keys_pairwise S _
  · exact sorted_keys_pairwise S _
  · have p1 := (S.perm (keyList srcPix srcPix.length)).map (fun e => e.key)
    have p2 := (S.perm (keyList tgtPix tgtPix.length)).map (fun e => e.key)
    rw [keyList_keys] at p1 p2
    exact p1.trans ((map_colorKey_perm srcPix tgtPix h).trans p2.symm)

/-- With equal palettes, the initial mapping gives every target position a
source pixel of the target's colour. -/
theorem setup_exact {σ D : Type} (S : StdSort) (rng : TRandom3 σ D)
    (srcPix tgtPix : List Nat) (su : Setup σ)
    (hrgb : (srcPix.map rgb).Perm (tgtPix.map rgb))
    (h : setup S rng srcPix tgtPix = some su) :
    ∀ i, i < srcPix.length →
      rgb (srcPix.getD (su.start.mapping.getD i 0) 0) = rgb (tgtPix.getD i 0) := by
  have hlen : srcPix.length = tgtPix.length := by simpa using hrgb.length_eq
  obtain ⟨su1, h1, e1, e2, _, hc, hget⟩ := setup_spec S rng srcPix tgtPix hlen.le
  rw [h] at h1
  cases h1
  have hk := sorted_keys_eq S srcPix tgtPix hrgb
  rw [← sortedOrder_keys, ← sortedOrder_keys, ← hlen, ← e1, ← e2] at hk
  have ht : su.tgtOrder.Perm (List.range srcPix.length) := e2 ▸ sortedOrder_perm S tgtPix _
  have hs : su.srcOrder.Perm (List.range srcPix.length) := e1 ▸ sortedOrder_perm S srcPix _
  have htl := perm_range_length ht
  have hsl := perm_range_length hs
  intro i hi
  have hmem : i ∈ su.tgtOrder := ht.symm.subset (List.mem_range.mpr hi)
  obtain ⟨r, hr, hri⟩ := List.mem_iff_getElem.mp hmem
  have hr2 : r < su.srcOrder.length := by omega
  have hkr := congrArg (fun l => l[r]?) hk
  simp only [List.getElem?_map, List.getElem?_eq_getElem hr, List.getElem?_eq_getElem hr2,
    Option.map_some', Option.some.injEq] at hkr
  have hg := hget r (by omega)
  rw [List.getD_eq_getElem su.tgtOrder 0 hr, List.getD_eq_getElem su.srcOrder 0 hr2, hri] at hg
  rw [hri] at hkr
  rw [hg]
  exact (colorKey_eq_iff_rgb _ _).mp hkr

theorem sort_eq_of_nodup_keys (S T : StdSort) (l : List KeyIndex)
    (h : (l.map (fun e => e.key)).Nodup) : S.sort l = T.sort l := by
  apply @List.Perm.eq_of_sorted KeyIndex (fun a b => KeyIndex.lt b a = false)
  · intro a b ha hb h1 h2
    have ha1 : a ∈ l := (S.perm l).subset ha
    have hb1 : b ∈ l := (T.perm l).subset hb
    simp only [KeyIndex.lt, decide_eq_false_iff_not, Nat.not_lt] at h1 h2
    exact List.inj_on_of_nodup_map h ha1 hb1 (Nat.le_antisymm h1 h2)
  · exact S.sorted l
  · exact T.sorted l
  · exact (S.perm l).trans (T.perm l).symm

theorem rankOrder_eq_of_nodup_keys (S T : StdSort) (pix : List Nat) (N : Nat)
    (hN : N ≤ pix.length) (h : ((keyList pix N).map (fun e => e.key)).Nodup) :
    rankOrder S pix N = rankOrder T pix N := by
  rw [rankOrder_eq S pix N hN, rankOrder_eq T pix N hN, sort_eq_of_nodup_keys S T _ h]

/-- C6. When the colours of the source and of the target form the same
multiset, the state before the first annealing step has energy `0` and the
output assembled from it has the target's `R`, `G`, `B` at every position.
For source `[(0,0,0), (255,255,255)]` and target `[(255,255,255), (0,0,0)]` the
initial mapping is `[1, 0]` with energy `0`, whatever the sort does with
ties. -/
theorem rank_alignment_exact {σ D : Type} (S : StdSort) (F : DoubleOps D)
    (rng : TRandom3 σ D) (cfg : Config D) (srcPix tgtPix : List Nat)
    (hrgb : (srcPix.map rgb).Perm (tgtPix.map rgb)) :
    (∃ st out, stateAfter S F rng cfg srcPix tgtPix 0 = some st
        ∧ st.E = 0
        ∧ outputAfter S F rng cfg srcPix tgtPix 0 = some out
        ∧ ∀ i, i < srcPix.length → rgb (out.getD i 0) = rgb (tgtPix.getD i 0))
    ∧ (∃ su, setup S rng [0xFF000000, 0xFFFFFFFF] [0xFFFFFFFF, 0xFF000000] = some su
        ∧ su.start.mapping = [1, 0] ∧ su.start.E = 0) := by
  have hlen : srcPix.length = tgtPix.length := by simpa using hrgb.length_eq
  constructor
  · obtain ⟨su, h, _, _, _, hc, _⟩ := setup_spec S rng srcPix tgtPix hlen.le
    have hex := setup_exact S rng srcPix tgtPix su hrgb h
    obtain ⟨out, ho, _, hget, _⟩ := assemble_spec srcPix su.start.mapping hc.1
    refine ⟨su.start, out, by simp [stateAfter, h, annealLoop], ?_,
      by simp [outputAfter, stateAfter, h, annealLoop, ho], ?_⟩
    · rw [hc.2]
      exact (energySum_eq_zero_iff _ _ _ _).mpr hex
    · intro i hi
      rw [hget i hi]
      exact hex i hi
  · refine ⟨{ srcOrder := [0, 1], tgtOrder := [1, 0],
              start := { mapping := [1, 0], E := 0, rng := rng.seed 12345 } }, ?_, rfl, rfl⟩
    have e1 : rankOrder S [0xFF000000, 0xFFFFFFFF] 2 = some [0, 1] := by
      rw [rankOrder_eq_of_nodup_keys S insertionSort _ 2 (by decide) (by decide)]
      decide
    have e2 : rankOrder S [0xFFFFFFFF, 0xFF000000] 2 = some [1, 0] := by
      rw [rankOrder_eq_of_nodup_keys S insertionSort _ 2 (by decide) (by decide)]
      decide
    have e3 : initMapping [0, 1] [1, 0] 2 = some [1, 0] := by decide
    have e4 : totalEnergy [0xFF000000, 0xFFFFFFFF] [0xFFFFFFFF, 0xFF000000] [1, 0] 2
        = some 0 := by decide
    simp [setup, e1, e2, e3, e4]

theorem rank_alignment_exact_witness :
    (∃ st out, stateAfter insertionSort ratOps (scriptedRng []) (config ratOps)
          [0x0000FF, 0x00FF00, 0xFF0000, 0x0000FF] [0x00FF00, 0x0000FF, 0x0000FF, 0xFF0000] 0
          = some st
        ∧ st.E = 0
        ∧ outputAfter insertionSort ratOps (scriptedRng []) (config ratOps)
          [0x0000FF, 0x00FF00, 0xFF0000, 0x0000FF] [0x00FF00, 0x0000FF, 0x0000FF, 0xFF0000] 0
          = some out
        ∧ ∀ i, i < [0x0000FF, 0x00FF00, 0xFF0000, 0x0000FF].length →
            rgb (out.getD i 0)
              = rgb ([0x00FF00, 0x0000FF, 0x0000FF, 0xFF0000].getD i 0))
    ∧ (∃ su, setup insertionSort (scriptedRng []) [0xFF000000, 0xFFFFFFFF]
          [0xFFFFFFFF, 0xFF000000] = some su
        ∧ su.start.mapping = [1, 0] ∧ su.start.E = 0) :=
  rank_alignment_exact insertionSort ratOps (scriptedRng []) (config ratOps)
    [0x0000FF, 0x00FF00, 0xFF0000, 0x0000FF] [0x00FF00, 0x0000FF, 0x0000FF, 0xFF0000]
    (by decide)

/-! ## The step in terms of its parts -/

theorem stepRank_lt {σ D : Type} (rng : TRandom3 σ D) (N : Nat) (g : σ) (hN : 0 < N) :
    stepRank rng N g < N :=
  rng.Integer_lt g N hN

theorem stepRank2_range {σ D : Type} (rng : TRandom3 σ D) (cfg : Config D) (N : Nat) (g : σ)
    (hN : 0 < N) : 0 ≤ stepRank2 rng cfg N g ∧ stepRank2 rng cfg N g < N :=
  clampRank_range N _ _ hN

theorem stepPosI_lt {σ D : Type} (rng : TRandom3 σ D) (tgtOrder : List Nat) (N : Nat) (g : σ)
    (hN : 0 < N) (ht : tgtOrder.Perm (List.range N)) : stepPosI rng tgtOrder N g < N :=
  perm_range_getD_lt ht (stepRank_lt rng N g hN)

theorem stepPosJ_lt {σ D : Type} (rng : TRandom3 σ D) (cfg : Config D) (tgtOrder : List Nat)
    (N : Nat) (g : σ) (hN : 0 < N) (ht : tgtOrder.Perm (List.range N)) :
    stepPosJ rng cfg tgtOrder N g < N := by
  have h := stepRank2_range rng cfg N g hN
  exact perm_range_getD_lt ht (by omega)

theorem stepPos_ne {σ D : Type} (rng : TRandom3 σ D) (cfg : Config D) (tgtOrder : List Nat)
    (N : Nat) (g : σ) (hN : 0 < N) (ht : tgtOrder.Perm (List.range N))
    (hns : stepRank2 rng cfg N g ≠ (stepRank rng N g : Int)) :
    stepPosI rng tgtOrder N g ≠ stepPosJ rng cfg tgtOrder N g := by
  have h := stepRank2_range rng cfg N g hN
  have hk := stepRank_lt rng N g hN
  intro e
  have := perm_range_getD_inj ht hk (show (stepRank2 rng cfg N g).toNat < N by omega) e
  omega

/-- On a permutation mapping every array access of a step is in bounds, and
the step returns `stepResult`. -/
theorem annealStep_eq {σ D : Type} (F : DoubleOps D) (rng : TRandom3 σ D) (cfg : Config D)
    (srcPix tgtPix tgtOrder : List Nat) (step : Nat) (st : AnnealState σ)
    (hlen : srcPix.length ≤ tgtPix.length) (hN : 0 < srcPix.length)
    (ht : tgtOrder.Perm (List.range srcPix.length))
    (hm : st.mapping.Perm (List.range srcPix.length)) :
    annealStep F rng cfg srcPix tgtPix tgtOrder srcPix.length step st
      = some (stepResult F rng cfg srcPix tgtPix tgtOrder srcPix.length step st) := by
  have hk := stepRank_lt rng srcPix.length st.rng hN
  have hk2 := stepRank2_range rng cfg srcPix.length st.rng hN
  have hi := stepPosI_lt rng tgtOrder srcPix.length st.rng hN ht
  have hj := stepPosJ_lt rng cfg tgtOrder srcPix.length st.rng hN ht
  have htl := perm_range_length ht
  have hml := perm_range_length hm
  have hmi := perm_range_getD_lt hm hi
  have hmj := perm_range_getD_lt hm hj
  unfold annealStep stepResult
  simp only []
  by_cases hskip : stepRank2 rng cfg srcPix.length st.rng = (stepRank rng srcPix.length st.rng : Int)
  · have hskip2 := hskip
    unfold stepRank2 stepOffset stepRaw genAfterRank stepRank at hskip2
    rw [if_pos hskip2, if_pos hskip]
    rfl
  · have hskip2 := hskip
    unfold stepRank2 stepOffset stepRaw genAfterRank stepRank at hskip2
    rw [if_neg hskip2, if_neg hskip]
    have r1 : readAt tgtOrder ((rng.Integer st.rng srcPix.length).1 : Int)
        = some (stepPosI rng tgtOrder srcPix.length st.rng) := by
      rw [readAt_eq tgtOrder _ (by omega) (by simpa [htl, stepRank] using hk)]
      simp [stepPosI, stepRank]
    have r2 : readAt tgtOrder (clampRank srcPix.length ((rng.Integer st.rng srcPix.length).1 : Int)
        (offset cfg.radius (rng.Integer (rng.Integer st.rng srcPix.length).2
          (2 * cfg.radius + 1)).1))
        = some (stepPosJ rng cfg tgtOrder srcPix.length st.rng) := by
      have : (stepRank2 rng cfg srcPix.length st.rng).toNat < tgtOrder.length := by omega
      exact readAt_eq tgtOrder _ hk2.1 this
    rw [r1, r2]
    simp only [Option.some_bind]
    rw [getElem?_eq_some_getD st.mapping _ (by omega),
      getElem?_eq_some_getD st.mapping _ (by omega)]
    simp only [Option.some_bind]
    rw [swapDelta_eq srcPix tgtPix _ _ _ _ (by omega) (by omega) hmi hmj]
    simp only [Option.some_bind]
    rw [applySwap_eq st.mapping _ _ _ _ (by omega) (by omega)]
    simp only [Option.some_bind]
    exact (apply_ite some _ _ _).symm

theorem exchanged_getD_left (m : List Nat) (i j : Nat) (hi : i < m.length) (hij : i ≠ j) :
    (exchanged m i j).getD i 0 = m.getD j 0 := by
  unfold exchanged
  rw [getD_set_ne _ _ _ _ (Ne.symm hij)]
  exact getD_set_self m i _ hi

theorem exchanged_getD_right (m : List Nat) (i j : Nat) (hj : j < m.length) :
    (exchanged m i j).getD j 0 = m.getD i 0 := by
  unfold exchanged
  exact getD_set_self _ j _ (by simpa using hj)

theorem exchanged_getD_other (m : List Nat) (i j t : Nat) (hti : t ≠ i) (htj : t ≠ j) :
    (exchanged m i j).getD t 0 = m.getD t 0 := by
  unfold exchanged
  rw [getD_set_ne _ _ _ _ (Ne.symm htj), getD_set_ne _ _ _ _ (Ne.symm hti)]

theorem exchanged_length (m : List Nat) (i j : Nat) : (exchanged m i j).length = m.length := by
  simp [exchanged]

theorem exchanged_ne (m : List Nat) (N i j : Nat) (hm : m.Perm (List.range N))
    (hi : i < N) (hj : j < N) (hij : i ≠ j) :
    m.getD i 0 ≠ m.getD j 0 ∧ exchanged m i j ≠ m := by
  have hml := perm_range_length hm
  have hv : m.getD i 0 ≠ m.getD j 0 := fun e => hij (perm_range_getD_inj hm hi hj e)
  refine ⟨hv, ?_⟩
  intro e
  have := exchanged_getD_left m i j (by omega) hij
  rw [e] at this
  exact hv this

theorem metropolis_of_nonpos {σ D : Type} (F : DoubleOps D) (rng : TRandom3 σ D) (T : D)
    (dE : Int) (g : σ) (h : dE ≤ 0) : metropolis F rng T dE g = (true, g) := by
  simp [metropolis, h]

theorem metropolis_of_pos {σ D : Type} (F : DoubleOps D) (rng : TRandom3 σ D) (T : D)
    (dE : Int) (g : σ) (h : 0 < dE) :
    metropolis F rng T dE g
      = (F.lt (rng.Rndm g).1 (F.exp (F.div (F.neg (F.ofInt dE)) T)), (rng.Rndm g).2) := by
  have : ¬ dE ≤ 0 := by omega
  simp [metropolis, this]

/-- C16. In a step that is not skipped, on a permutation mapping: if `dE <= 0`
the exchange is made, `dE` is added to the running energy and the energy does
not increase; if `dE > 0` the exchange is made exactly when the comparison
`u < exp(-dE / T)` holds for the draw `u = Rndm()` and the temperature `T` of
that step, and then the energy becomes `E + dE`; otherwise mapping and energy
are unchanged.  The exchanged mapping differs from the mapping. -/
theorem metropolis_rule {σ D : Type} (F : DoubleOps D) (rng : TRandom3 σ D) (cfg : Config D)
    (srcPix tgtPix tgtOrder : List Nat) (step : Nat) (st : AnnealState σ)
    (hlen : srcPix.length = tgtPix.length) (hN : 0 < srcPix.length)
    (ht : tgtOrder.Perm (List.range srcPix.length))
    (hm : st.mapping.Perm (List.range srcPix.length))
    (hns : stepRank2 rng cfg srcPix.length st.rng ≠ (stepRank rng srcPix.length st.rng : Int)) :
    ∃ st1, annealStep F rng cfg srcPix tgtPix tgtOrder srcPix.length step st = some st1
      ∧ (stepDelta rng cfg srcPix tgtPix tgtOrder srcPix.length st ≤ 0 →
          st1.mapping = exchanged st.mapping (stepPosI rng tgtOrder srcPix.length st.rng)
              (stepPosJ rng cfg tgtOrder srcPix.length st.rng)
          ∧ st1.E = st.E + stepDelta rng cfg srcPix tgtPix tgtOrder srcPix.length st
          ∧ st1.E ≤ st.E)
      ∧ (0 < stepDelta rng cfg srcPix tgtPix tgtOrder srcPix.length st →
          (F.lt (rng.Rndm (genAfterOffset rng cfg srcPix.length st.rng)).1
              (F.exp (F.div (F.neg (F.ofInt
                (stepDelta rng cfg srcPix tgtPix tgtOrder srcPix.length st)))
                (temperature F cfg step))) = true →
            st1.mapping = exchanged st.mapping (stepPosI rng tgtOrder srcPix.length st.rng)
                (stepPosJ rng cfg tgtOrder srcPix.length st.rng)
            ∧ st1.E = st.E + stepDelta rng cfg srcPix tgtPix tgtOrder srcPix.length st)
          ∧ (F.lt (rng.Rndm (genAfterOffset rng cfg srcPix.length st.rng)).1
              (F.exp (F.div (F.neg (F.ofInt
                (stepDelta rng cfg srcPix tgtPix tgtOrder srcPix.length st)))
                (temperature F cfg step))) = false →
            st1.mapping = st.mapping ∧ st1.E = st.E))
      ∧ exchanged st.mapping (stepPosI rng tgtOrder srcPix.length st.rng)
          (stepPosJ rng cfg tgtOrder srcPix.length st.rng) ≠ st.mapping := by
  refine ⟨_, annealStep_eq F rng cfg srcPix tgtPix tgtOrder step st hlen.le hN ht hm, ?_, ?_, ?_⟩
  · intro hd
    simp only [stepResult, if_neg hns, metropolis_of_nonpos F rng _ _ _ hd, if_true,
      true_and]
    omega
  · intro hd
    simp only [stepResult, if_neg hns, metropolis_of_pos F rng _ _ _ hd]
    constructor
    · intro hacc
      rw [if_pos hacc]
      exact ⟨rfl, rfl⟩
    · intro hrej
      rw [hrej]
      exact ⟨rfl, rfl⟩
  · exact (exchanged_ne st.mapping srcPix.length _ _ hm
      (stepPosI_lt rng tgtOrder srcPix.length st.rng hN ht)
      (stepPosJ_lt rng cfg tgtOrder srcPix.length st.rng hN ht)
      (stepPos_ne rng cfg tgtOrder srcPix.length st.rng hN ht hns)).2

/-- C17. On a permutation mapping with a permutation `tgtOrder`, a step
returns a state whose mapping has the same length.  If the step is not skipped
and the acceptance condition holds, the positions `i = tgtOrder[k]` and
`j = tgtOrder[k2]` are distinct, their entries are distinct, the new entry at
`i` is the old entry at `j` and conversely, every other entry is unchanged, and
`dE` is added to the energy.  Otherwise the mapping and the energy are
unchanged.  The pixel buffers and orderings are arguments of the step and are
not part of the state it returns. -/
theorem step_frame {σ D : Type} (F : DoubleOps D) (rng : TRandom3 σ D) (cfg : Config D)
    (srcPix tgtPix tgtOrder : List Nat) (step : Nat) (st : AnnealState σ)
    (hlen : srcPix.length = tgtPix.length) (hN : 0 < srcPix.length)
    (ht : tgtOrder.Perm (List.range srcPix.length))
    (hm : st.mapping.Perm (List.range srcPix.length)) :
    ∃ st1, annealStep F rng cfg srcPix tgtPix tgtOrder srcPix.length step st = some st1
      ∧ st1.mapping.length = st.mapping.length
      ∧ ((stepRank2 rng cfg srcPix.length st.rng ≠ (stepRank rng srcPix.length st.rng : Int)
            ∧ (metropolis F rng (temperature F cfg step)
                (stepDelta rng cfg srcPix tgtPix tgtOrder srcPix.length st)
                (genAfterOffset rng cfg srcPix.length st.rng)).1 = true) →
          stepPosI rng tgtOrder srcPix.length st.rng ≠ stepPosJ rng cfg tgtOrder srcPix.length st.rng
          ∧ st.mapping.getD (stepPosI rng tgtOrder srcPix.length st.rng) 0
              ≠ st.mapping.getD (stepPosJ rng cfg tgtOrder srcPix.length st.rng) 0
          ∧ st1.mapping.getD (stepPosI rng tgtOrder srcPix.length st.rng) 0
              = st.mapping.getD (stepPosJ rng cfg tgtOrder srcPix.length st.rng) 0
          ∧ st1.mapping.getD (stepPosJ rng cfg tgtOrder srcPix.length st.rng) 0
              = st.mapping.getD (stepPosI rng tgtOrder srcPix.length st.rng) 0
          ∧ (∀ t, t ≠ stepPosI rng tgtOrder srcPix.length st.rng →
              t ≠ stepPosJ rng cfg tgtOrder srcPix.length st.rng →
              st1.mapping.getD t 0 = st.mapping.getD t 0)
          ∧ st1.E = st.E + stepDelta rng cfg srcPix tgtPix tgtOrder srcPix.length st)
      ∧ (¬ (stepRank2 rng cfg srcPix.length st.rng ≠ (stepRank rng srcPix.length st.rng : Int)
            ∧ (metropolis F rng (temperature F cfg step)
                (stepDelta rng cfg srcPix tgtPix tgtOrder srcPix.length st)
                (genAfterOffset rng cfg srcPix.length st.rng)).1 = true) →
          st1.mapping = st.mapping ∧ st1.E = st.E) := by
  have hi := stepPosI_lt rng tgtOrder srcPix.length st.rng hN ht
  have hj := stepPosJ_lt rng cfg tgtOrder srcPix.length st.rng hN ht
  have hml := perm_range_length hm
  refine ⟨_, annealStep_eq F rng cfg srcPix tgtPix tgtOrder step st hlen.le hN ht hm, ?_, ?_, ?_⟩
  · unfold stepResult
    split
    · rfl
    · simp only []
      split
      · exact exchanged_length _ _ _
      · rfl
  · rintro ⟨hns, hacc⟩
    have hij := stepPos_ne rng cfg tgtOrder srcPix.length st.rng hN ht hns
    simp only [stepResult, if_neg hns, hacc, if_true]
    exact ⟨hij, (exchanged_ne st.mapping srcPix.length _ _ hm hi hj hij).1,
      exchanged_getD_left _ _ _ (by omega) hij, exchanged_getD_right _ _ _ (by omega),
      fun t h1 h2 => exchanged_getD_other _ _ _ t h1 h2, trivial⟩
  · intro hno
    unfold stepResult
    by_cases hs : stepRank2 rng cfg srcPix.length st.rng = (stepRank rng srcPix.length st.rng : Int)
    · rw [if_pos hs]
      exact ⟨rfl, rfl⟩
    · rw [if_neg hs]
      have hacc : ¬ (metropolis F rng (temperature F cfg step)
          (stepDelta rng cfg srcPix tgtPix tgtOrder srcPix.length st)
          (genAfterOffset rng cfg srcPix.length st.rng)).1 = true := fun h => hno ⟨hs, h⟩
      simp only [hacc]
      exact ⟨rfl, rfl⟩

theorem offset_range (radius raw : Nat) (hR : 1 ≤ radius) (hR2 : 2 * radius + 1 < 2 ^ 31)
    (hraw : raw ≤ 2 * radius) :
    -(radius : Int) ≤ offset radius raw ∧ offset radius raw ≤ radius ∧ offset radius raw ≠ 0 := by
  unfold offset toI32 sub32
  simp only []
  have h1 : raw % 2 ^ 32 = raw := Nat.mod_eq_of_lt (by omega)
  have h2 : radius % 2 ^ 32 = radius := Nat.mod_eq_of_lt (by omega)
  rw [h1, h2]
  by_cases hc : radius ≤ raw
  · have e : (raw + (2 ^ 32 - radius)) % 2 ^ 32 = raw - radius := by omega
    rw [Nat.mod_mod, e]
    have : raw - radius < 2 ^ 31 := by omega
    simp only [this, if_true]
    split <;> omega
  · have e : (raw + (2 ^ 32 - radius)) % 2 ^ 32 = raw + 2 ^ 32 - radius := by omega
    rw [Nat.mod_mod, e]
    have : ¬ raw + 2 ^ 32 - radius < 2 ^ 31 := by omega
    simp only [this, if_false]
    split <;> omega

/-- C19. A step draws first the rank `k` with `Integer(N)`, then the raw
offset with `Integer(2*RADIUS + 1)` from the state left by the first draw, and
then calls `Rndm()` exactly when the step is not skipped and `dE > 0`: the
generator state after the step is the state after the two integer draws, or
the state after the additional `Rndm()` draw in that one case. -/
theorem draws_per_step {σ D : Type} (F : DoubleOps D) (rng : TRandom3 σ D) (cfg : Config D)
    (srcPix tgtPix tgtOrder : List Nat) (step : Nat) (st : AnnealState σ)
    (hlen : srcPix.length = tgtPix.length) (hN : 0 < srcPix.length)
    (ht : tgtOrder.Perm (List.range srcPix.length))
    (hm : st.mapping.Perm (List.range srcPix.length)) :
    stepRank rng srcPix.length st.rng = (rng.Integer st.rng srcPix.length).1
    ∧ stepRaw rng cfg srcPix.length st.rng
        = (rng.Integer (rng.Integer st.rng srcPix.length).2 (2 * cfg.radius + 1)).1
    ∧ genAfterOffset rng cfg srcPix.length st.rng
        = (rng.Integer (rng.Integer st.rng srcPix.length).2 (2 * cfg.radius + 1)).2
    ∧ ∃ st1, annealStep F rng cfg srcPix tgtPix tgtOrder srcPix.length step st = some st1
        ∧ st1.rng =
          if stepRank2 rng cfg srcPix.length st.rng ≠ (stepRank rng srcPix.length st.rng : Int)
              ∧ 0 < stepDelta rng cfg srcPix tgtPix tgtOrder srcPix.length st
          then (rng.Rndm (genAfterOffset rng cfg srcPix.length st.rng)).2
          else genAfterOffset rng cfg srcPix.length st.rng := by
  refine ⟨rfl, rfl, rfl, _,
    annealStep_eq F rng cfg srcPix tgtPix tgtOrder step st hlen.le hN ht hm, ?_⟩
  unfold stepResult
  by_cases hs : stepRank2 rng cfg srcPix.length st.rng = (stepRank rng srcPix.length st.rng : Int)
  · have : ¬ (stepRank2 rng cfg srcPix.length st.rng ≠ (stepRank rng srcPix.length st.rng : Int)
        ∧ 0 < stepDelta rng cfg srcPix tgtPix tgtOrder srcPix.length st) := fun h => h.1 hs
    rw [if_pos hs, if_neg this]
  · rw [if_neg hs]
    by_cases hd : 0 < stepDelta rng cfg srcPix tgtPix tgtOrder srcPix.length st
    · have hc : stepRank2 rng cfg srcPix.length st.rng ≠ (stepRank rng srcPix.length st.rng : Int)
          ∧ 0 < stepDelta rng cfg srcPix tgtPix tgtOrder srcPix.length st := ⟨hs, hd⟩
      rw [if_pos hc]
      simp only [metropolis_of_pos F rng _ _ _ hd]
      split <;> rfl
    · have : ¬ (stepRank2 rng cfg srcPix.length st.rng ≠ (stepRank rng srcPix.length st.rng : Int)
          ∧ 0 < stepDelta rng cfg srcPix tgtPix tgtOrder srcPix.length st) := fun h => hd h.2
      rw [if_neg this]
      simp only [metropolis_of_nonpos F rng _ _ _ (not_lt.mp hd), if_true]

theorem metropolis_rule_witness :
    ∃ st1, annealStep ratOps sampleRng (config ratOps) sampleSrc sampleTgt [0, 1] sampleSrc.length
        0 sampleState = some st1
      ∧ (stepDelta sampleRng (config ratOps) sampleSrc sampleTgt [0, 1] sampleSrc.length
          sampleState ≤ 0 →
          st1.mapping = exchanged sampleState.mapping (stepPosI sampleRng [0, 1] sampleSrc.length
              sampleState.rng)
              (stepPosJ sampleRng (config ratOps) [0, 1] sampleSrc.length sampleState.rng)
          ∧ st1.E = sampleState.E + stepDelta sampleRng (config ratOps) sampleSrc sampleTgt [0, 1]
              sampleSrc.length sampleState
          ∧ st1.E ≤ sampleState.E)
      ∧ (0 < stepDelta sampleRng (config ratOps) sampleSrc sampleTgt [0, 1] sampleSrc.length
          sampleState →
          (ratOps.lt (sampleRng.Rndm (genAfterOffset sampleRng (config ratOps) sampleSrc.length
              sampleState.rng)).1
              (ratOps.exp (ratOps.div (ratOps.neg (ratOps.ofInt
                (stepDelta sampleRng (config ratOps) sampleSrc sampleTgt [0, 1] sampleSrc.length
                    sampleState)))
                (temperature ratOps (config ratOps) 0))) = true →
            st1.mapping = exchanged sampleState.mapping (stepPosI sampleRng [0, 1] sampleSrc.length
                sampleState.rng)
                (stepPosJ sampleRng (config ratOps) [0, 1] sampleSrc.length sampleState.rng)
            ∧ st1.E = sampleState.E + stepDelta sampleRng (config ratOps) sampleSrc sampleTgt [0,
                1] sampleSrc.length sampleState)
          ∧ (ratOps.lt (sampleRng.Rndm (genAfterOffset sampleRng (config ratOps) sampleSrc.length
              sampleState.rng)).1
              (ratOps.exp (ratOps.div (ratOps.neg (ratOps.ofInt
                (stepDelta sampleRng (config ratOps) sampleSrc sampleTgt [0, 1] sampleSrc.length
                    sampleState)))
                (temperature ratOps (config ratOps) 0))) = false →
            st1.mapping = sampleState.mapping ∧ st1.E = sampleState.E))
      ∧ exchanged sampleState.mapping (stepPosI sampleRng [0, 1] sampleSrc.length sampleState.rng)
          (stepPosJ sampleRng (config ratOps) [0, 1] sampleSrc.length sampleState.rng) ≠
              sampleState.mapping :=
  metropolis_rule ratOps sampleRng (config ratOps) sampleSrc sampleTgt [0, 1] 0 sampleState
    (by decide) (by decide) (by decide) (by decide) (by decide)

theorem step_frame_witness :
    ∃ st1, annealStep ratOps sampleRng (config ratOps) sampleSrc sampleTgt [0, 1] sampleSrc.length
        0 sampleState = some st1
      ∧ st1.mapping.length = sampleState.mapping.length
      ∧ ((stepRank2 sampleRng (config ratOps) sampleSrc.length sampleState.rng ≠ (stepRank
          sampleRng sampleSrc.length sampleState.rng : Int)
            ∧ (metropolis ratOps sampleRng (temperature ratOps (config ratOps) 0)
                (stepDelta sampleRng (config ratOps) sampleSrc sampleTgt [0, 1] sampleSrc.length
                    sampleState)
                (genAfterOffset sampleRng (config ratOps) sampleSrc.length sampleState.rng)).1 =
                    true) →
          stepPosI sampleRng [0, 1] sampleSrc.length sampleState.rng ≠ stepPosJ sampleRng (config
              ratOps) [0, 1] sampleSrc.length sampleState.rng
          ∧ sampleState.mapping.getD (stepPosI sampleRng [0, 1] sampleSrc.length sampleState.rng) 0
              ≠ sampleState.mapping.getD (stepPosJ sampleRng (config ratOps) [0, 1]
                  sampleSrc.length sampleState.rng) 0
          ∧ st1.mapping.getD (stepPosI sampleRng [0, 1] sampleSrc.length sampleState.rng) 0
              = sampleState.mapping.getD (stepPosJ sampleRng (config ratOps) [0, 1]
                  sampleSrc.length sampleState.rng) 0
          ∧ st1.mapping.getD (stepPosJ sampleRng (config ratOps) [0, 1] sampleSrc.length
              sampleState.rng) 0
              = sampleState.mapping.getD (stepPosI sampleRng [0, 1] sampleSrc.length
                  sampleState.rng) 0
          ∧ (∀ t, t ≠ stepPosI sampleRng [0, 1] sampleSrc.length sampleState.rng →
              t ≠ stepPosJ sampleRng (config ratOps) [0, 1] sampleSrc.length sampleState.rng →
              st1.mapping.getD t 0 = sampleState.mapping.getD t 0)
          ∧ st1.E = sampleState.E + stepDelta sampleRng (config ratOps) sampleSrc sampleTgt [0, 1]
              sampleSrc.length sampleState)
      ∧ (¬ (stepRank2 sampleRng (config ratOps) sampleSrc.length sampleState.rng ≠ (stepRank
          sampleRng sampleSrc.length sampleState.rng : Int)
            ∧ (metropolis ratOps sampleRng (temperature ratOps (config ratOps) 0)
                (stepDelta sampleRng (config ratOps) sampleSrc sampleTgt [0, 1] sampleSrc.length
                    sampleState)
                (genAfterOffset sampleRng (config ratOps) sampleSrc.length sampleState.rng)).1 =
                    true) →
          st1.mapping = sampleState.mapping ∧ st1.E = sampleState.E) :=
  step_frame ratOps sampleRng (config ratOps) sampleSrc sampleTgt [0, 1] 0 sampleState
    (by decide) (by decide) (by decide) (by decide)

theorem draws_per_step_witness :
    stepRank sampleRng sampleSrc.length sampleState.rng = (sampleRng.Integer sampleState.rng
        sampleSrc.length).1
    ∧ stepRaw sampleRng (config ratOps) sampleSrc.length sampleState.rng
        = (sampleRng.Integer (sampleRng.Integer sampleState.rng sampleSrc.length).2 (2 * (config
            ratOps).radius + 1)).1
    ∧ genAfterOffset sampleRng (config ratOps) sampleSrc.length sampleState.rng
        = (sampleRng.Integer (sampleRng.Integer sampleState.rng sampleSrc.length).2 (2 * (config
            ratOps).radius + 1)).2
    ∧ ∃ st1, annealStep ratOps sampleRng (config ratOps) sampleSrc sampleTgt [0, 1]
        sampleSrc.length 0 sampleState = some st1
        ∧ st1.rng =
          if stepRank2 sampleRng (config ratOps) sampleSrc.length sampleState.rng ≠ (stepRank
              sampleRng sampleSrc.length sampleState.rng : Int)
              ∧ 0 < stepDelta sampleRng (config ratOps) sampleSrc sampleTgt [0, 1] sampleSrc.length
                  sampleState
          then (sampleRng.Rndm (genAfterOffset sampleRng (config ratOps) sampleSrc.length
              sampleState.rng)).2
          else genAfterOffset sampleRng (config ratOps) sampleSrc.length sampleState.rng :=
  draws_per_step ratOps sampleRng (config ratOps) sampleSrc sampleTgt [0, 1] 0 sampleState
    (by decide) (by decide) (by decide) (by decide)

theorem annealLoop_succ {σ D : Type} (F : DoubleOps D) (rng : TRandom3 σ D) (cfg : Config D)
    (srcPix tgtPix tgtOrder : List Nat) (N n step : Nat) (st : AnnealState σ) :
    annealLoop F rng cfg srcPix tgtPix tgtOrder N (n + 1) step st
      = (annealStep F rng cfg srcPix tgtPix tgtOrder N step st).bind fun st1 =>
          annealLoop F rng cfg srcPix tgtPix tgtOrder N n (step + 1) st1 := rfl

theorem annealLoop_snoc {σ D : Type} (F : DoubleOps D) (rng : TRandom3 σ D) (cfg : Config D)
    (srcPix tgtPix tgtOrder : List Nat) (N n : Nat) :
    ∀ (step : Nat) (st : AnnealState σ),
      annealLoop F rng cfg srcPix tgtPix tgtOrder N (n + 1) step st
        = (annealLoop F rng cfg srcPix tgtPix tgtOrder N n step st).bind fun st1 =>
            annealStep F rng cfg srcPix tgtPix tgtOrder N (step + n) st1 := by
  induction n with
  | zero =>
    intro step st
    simp [annealLoop]
  | succ n ih =>
    intro step st
    rw [annealLoop_succ, annealLoop_succ F rng cfg srcPix tgtPix tgtOrder N n step st]
    cases h : annealStep F rng cfg srcPix tgtPix tgtOrder N step st with
    | none => rfl
    | some st1 =>
      simp only [Option.some_bind]
      rw [ih (step + 1) st1]
      have e : step + 1 + n = step + (n + 1) := by omega
      rw [e]

theorem annealStep_keeps_zero {σ D : Type} (F : DoubleOps D) (rng : TRandom3 σ D)
    (cfg : Config D) (srcPix tgtPix tgtOrder : List Nat) (step : Nat) (st : AnnealState σ)
    (hlen : srcPix.length ≤ tgtPix.length) (hN : 0 < srcPix.length)
    (ht : tgtOrder.Perm (List.range srcPix.length))
    (hc : Consistent srcPix tgtPix st) (hE : st.E = 0)
    (hrej : stepRank2 rng cfg srcPix.length st.rng ≠ (stepRank rng srcPix.length st.rng : Int) →
      0 < stepDelta rng cfg srcPix tgtPix tgtOrder srcPix.length st →
      F.lt (rng.Rndm (genAfterOffset rng cfg srcPix.length st.rng)).1
        (F.exp (F.div (F.neg (F.ofInt
          (stepDelta rng cfg srcPix tgtPix tgtOrder srcPix.length st)))
          (temperature F cfg step))) = false) :
    ∃ st1, annealStep F rng cfg srcPix tgtPix tgtOrder srcPix.length step st = some st1
      ∧ Consistent srcPix tgtPix st1 ∧ st1.E = 0 := by
  obtain ⟨st1, h1, hc1⟩ :=
    annealStep_consistent F rng cfg srcPix tgtPix tgtOrder step st hlen hN ht hc
  have h2 := annealStep_eq F rng cfg srcPix tgtPix tgtOrder step st hlen hN ht hc.1
  rw [h1] at h2
  refine ⟨st1, h1, hc1, ?_⟩
  have h0 : 0 ≤ st1.E := by
    rw [hc1.2]
    exact energySum_nonneg _ _ _ _
  have h3 : st1 = stepResult F rng cfg srcPix tgtPix tgtOrder srcPix.length step st :=
    Option.some.inj h2
  have hE1 : st1.E ≤ 0 := by
    rw [h3]
    unfold stepResult
    by_cases hs : stepRank2 rng cfg srcPix.length st.rng = (stepRank rng srcPix.length st.rng : Int)
    · rw [if_pos hs]
      exact le_of_eq hE
    · rw [if_neg hs]
      by_cases hd : stepDelta rng cfg srcPix tgtPix tgtOrder srcPix.length st ≤ 0
      · simp only [metropolis_of_nonpos F rng _ _ _ hd, if_true]
        omega
      · have hd1 : 0 < stepDelta rng cfg srcPix tgtPix tgtOrder srcPix.length st := by omega
        simp only [metropolis_of_pos F rng _ _ _ hd1, hrej hs hd1]
        exact le_of_eq hE
  omega

theorem stateAfter_keeps_zero {σ D : Type} (S : StdSort) (F : DoubleOps D)
    (rng : TRandom3 σ D) (cfg : Config D) (srcPix : List Nat) (su : Setup σ)
    (hsu : setup S rng srcPix srcPix = some su) (hE : su.start.E = 0)
    (hN : 0 < srcPix.length) (n : Nat)
    (hrej : ∀ (s : Nat) (st : AnnealState σ), s < n →
      stateAfter S F rng cfg srcPix srcPix s = some st →
      stepRank2 rng cfg srcPix.length st.rng ≠ (stepRank rng srcPix.length st.rng : Int) →
      0 < stepDelta rng cfg srcPix srcPix su.tgtOrder srcPix.length st →
      F.lt (rng.Rndm (genAfterOffset rng cfg srcPix.length st.rng)).1
        (F.exp (F.div (F.neg (F.ofInt
          (stepDelta rng cfg srcPix srcPix su.tgtOrder srcPix.length st)))
          (temperature F cfg s))) = false) :
    ∃ st, stateAfter S F rng cfg srcPix srcPix n = some st
      ∧ Consistent srcPix srcPix st ∧ st.E = 0 := by
  obtain ⟨ht, _, hc⟩ := setup_tgtOrder_perm S rng srcPix srcPix su (Nat.le_refl _) hsu
  induction n with
  | zero =>
    exact ⟨su.start, by simp [stateAfter, hsu, annealLoop], hc, hE⟩
  | succ n ih =>
    obtain ⟨st, h1, hc1, hE1⟩ := ih (fun s st hs => hrej s st (by omega))
    obtain ⟨st1, h2, hc2, hE2⟩ :=
      annealStep_keeps_zero F rng cfg srcPix srcPix su.tgtOrder n st (Nat.le_refl _) hN ht hc1 hE1
        (hrej n st (by omega) h1)
    refine ⟨st1, ?_, hc2, hE2⟩
    have h3 : annealLoop F rng cfg srcPix srcPix su.tgtOrder srcPix.length n 0 su.start
        = some st := by
      simpa [stateAfter, hsu] using h1
    simp only [stateAfter, hsu, Option.some_bind]
    rw [annealLoop_snoc, h3]
    simpa using h2

theorem setup_identity {σ D : Type} (S : StdSort) (rng : TRandom3 σ D) (srcPix : List Nat) :
    ∃ su, setup S rng srcPix srcPix = some su
      ∧ su.start.mapping = List.range srcPix.length ∧ su.start.E = 0 := by
  obtain ⟨su, h, e1, e2, _, hc, hget⟩ := setup_spec S rng srcPix srcPix (Nat.le_refl _)
  have ht : su.tgtOrder.Perm (List.range srcPix.length) := e2 ▸ sortedOrder_perm S srcPix _
  have hml := perm_range_length hc.1
  have hid : ∀ i, i < srcPix.length → su.start.mapping.getD i 0 = i := by
    intro i hi
    have hmem : i ∈ su.tgtOrder := ht.symm.subset (List.mem_range.mpr hi)
    obtain ⟨r, hr, hri⟩ := List.mem_iff_getElem.mp hmem
    have hg := hget r (by rw [← perm_range_length ht]; exact hr)
    rw [e1, ← e2, List.getD_eq_getElem su.tgtOrder 0 hr, hri] at hg
    exact hg
  have hm : su.start.mapping = List.range srcPix.length := by
    apply List.ext_getElem
    · simp [hml]
    · intro i h1 h2
      have := hid i (by omega)
      rw [List.getD_eq_getElem _ 0 h1] at this
      simp [this]
  refine ⟨su, h, hm, ?_⟩
  rw [hc.2, energySum_eq_zero_iff]
  intro i hi
  rw [hid i hi]

theorem assemble_identity (srcPix : List Nat) :
    assemble srcPix (List.range srcPix.length) srcPix.length = some srcPix := by
  obtain ⟨out, ho, hl, hget, _⟩ :=
    assemble_spec srcPix (List.range srcPix.length) (List.Perm.refl _)
  rw [ho]
  congr 1
  apply List.ext_getElem hl
  intro i h1 h2
  have := hget i h2
  rw [List.getD_eq_getElem out 0 h1] at this
  rw [this]
  simp [List.getElem?_eq_getElem h2, h2]

/-- C7 (amended). When the source and the target image are identical, the
initial mapping is the identity and the output assembled before the first step
is the source buffer.  Consider a run of `n` steps, for any sort, generator
and floating-point operations, in which every exchange proposal that would
increase the energy is rejected: at every step `s < n` that is not skipped and
has `dE > 0`, the comparison `Rndm() < exp(-dE / T)` of line 150, on the state
the run has reached, is false.  Then the output after the `n` steps exists
(for `N > 0`) and has the same `R`, `G` and `B` as the source at every
position. -/
theorem identical_images_keep_colours {σ D : Type} (S : StdSort) (F : DoubleOps D)
    (rng : TRandom3 σ D) (cfg : Config D) (srcPix : List Nat) (n : Nat)
    (hrej : ∀ (s : Nat) (su : Setup σ) (st : AnnealState σ), s < n →
      setup S rng srcPix srcPix = some su →
      stateAfter S F rng cfg srcPix srcPix s = some st →
      stepRank2 rng cfg srcPix.length st.rng ≠ (stepRank rng srcPix.length st.rng : Int) →
      0 < stepDelta rng cfg srcPix srcPix su.tgtOrder srcPix.length st →
      F.lt (rng.Rndm (genAfterOffset rng cfg srcPix.length st.rng)).1
        (F.exp (F.div (F.neg (F.ofInt
          (stepDelta rng cfg srcPix srcPix su.tgtOrder srcPix.length st)))
          (temperature F cfg s))) = false) :
    (∃ su, setup S rng srcPix srcPix = some su
        ∧ su.start.mapping = List.range srcPix.length)
    ∧ outputAfter S F rng cfg srcPix srcPix 0 = some srcPix
    ∧ (0 < srcPix.length → ∃ out, outputAfter S F rng cfg srcPix srcPix n = some out)
    ∧ (∀ out, outputAfter S F rng cfg srcPix srcPix n = some out →
        ∀ i, i < srcPix.length → rgb (out.getD i 0) = rgb (srcPix.getD i 0)) := by
  obtain ⟨su, h, hm, hE⟩ := setup_identity S rng srcPix
  have key : 0 < srcPix.length → ∃ st out,
      stateAfter S F rng cfg srcPix srcPix n = some st
      ∧ assemble srcPix st.mapping srcPix.length = some out
      ∧ ∀ i, i < srcPix.length → rgb (out.getD i 0) = rgb (srcPix.getD i 0) := by
    intro hN
    obtain ⟨st, h1, hc1, hE1⟩ :=
      stateAfter_keeps_zero S F rng cfg srcPix su h hE hN n (fun s st hs => hrej s su st hs h)
    obtain ⟨out, ho, _, hget, _⟩ := assemble_spec srcPix st.mapping hc1.1
    refine ⟨st, out, h1, ho, ?_⟩
    intro i hi
    rw [hget i hi]
    have hz : energySum srcPix srcPix st.mapping srcPix.length = 0 := by
      rw [← hc1.2, hE1]
    exact (energySum_eq_zero_iff _ _ _ _).mp hz i hi
  refine ⟨⟨su, h, hm⟩, ?_, ?_, ?_⟩
  · simp [outputAfter, stateAfter, h, annealLoop, hm, assemble_identity]
  · intro hN
    obtain ⟨st, out, h1, h2, _⟩ := key hN
    exact ⟨out, by simp [outputAfter, h1, h2]⟩
  · intro out ho i hi
    obtain ⟨st, out1, h1, h2, h3⟩ := key (by omega)
    simp only [outputAfter, h1, Option.some_bind, h2, Option.some.injEq] at ho
    rw [← ho]
    exact h3 i hi

theorem identical_images_keep_colours_witness :
    (∃ su, setup insertionSort twinRng twinSrc twinSrc = some su
        ∧ su.start.mapping = List.range twinSrc.length)
    ∧ outputAfter insertionSort ratOps twinRng (config ratOps) twinSrc twinSrc 0 = some twinSrc
    ∧ (0 < twinSrc.length →
        ∃ out, outputAfter insertionSort ratOps twinRng (config ratOps) twinSrc twinSrc 2
          = some out)
    ∧ (∀ out, outputAfter insertionSort ratOps twinRng (config ratOps) twinSrc twinSrc 2
          = some out →
        ∀ i, i < twinSrc.length → rgb (out.getD i 0) = rgb (twinSrc.getD i 0)) :=
  identical_images_keep_colours insertionSort ratOps twinRng (config ratOps) twinSrc 2
    (by
      intro s su st hs hsu hst hns hd
      have hsu1 : setup insertionSort twinRng twinSrc twinSrc
          = some { srcOrder := [0, 1, 2], tgtOrder := [0, 1, 2],
                   start := { mapping := [0, 1, 2], E := 0,
                              rng := [1, 8001, 4000000000, 0, 8001] } } := by
        decide
      rw [hsu1] at hsu
      cases hsu
      have hs2 : s = 0 ∨ s = 1 := by omega
      rcases hs2 with rfl | rfl
      · have h0 : stateAfter insertionSort ratOps twinRng (config ratOps) twinSrc twinSrc 0
            = some { mapping := [0, 1, 2], E := 0, rng := [1, 8001, 4000000000, 0, 8001] } := by
          decide
        rw [h0] at hst
        cases hst
        decide!
      · have h1 : stateAfter insertionSort ratOps twinRng (config ratOps) twinSrc twinSrc 1
            = some { mapping := [0, 1, 2], E := 0, rng := [0, 8001] } := by
          decide!
        rw [h1] at hst
        cases hst
        exact absurd hd (by decide))

/-! ### A run in which identical images are not reproduced -/

theorem offset_zero_draw : offset RADIUS 0 = -8000 := by decide

/-- Once the scripted generator is exhausted it draws `0` for the rank and `0`
for the raw offset, so the proposal is clamped back to rank `0` and the step is
skipped. -/
theorem annealStep_exhausted (F : DoubleOps ℚ) (script : List Nat)
    (srcPix tgtPix tgtOrder : List Nat) (N step : Nat) (hN : 0 < N)
    (st : AnnealState (List Nat)) (hg : st.rng = []) :
    annealStep F (scriptedRng script) (config F) srcPix tgtPix tgtOrder N step st
      = some st := by
  obtain ⟨m, E, g⟩ := st
  simp only at hg
  subst hg
  have hk2 : clampRank N 0 (-8000) = 0 := by
    unfold clampRank
    simp only
    split_ifs <;> omega
  simp [annealStep, scriptedRng, config, offset_zero_draw, hk2]

theorem annealLoop_exhausted (F : DoubleOps ℚ) (script : List Nat)
    (srcPix tgtPix tgtOrder : List Nat) (N : Nat) (hN : 0 < N) (n : Nat) :
    ∀ (step : Nat) (st : AnnealState (List Nat)), st.rng = [] →
      annealLoop F (scriptedRng script) (config F) srcPix tgtPix tgtOrder N n step st
        = some st := by
  induction n with
  | zero => intro step st _; rfl
  | succ n ih =>
    intro step st hg
    simp [annealLoop, annealStep_exhausted F script srcPix tgtPix tgtOrder N step hN st hg,
      ih (step + 1) st hg]

theorem annealLoop_first_then_exhausted (F : DoubleOps ℚ) (script : List Nat)
    (srcPix tgtPix tgtOrder : List Nat) (N n : Nat) (hN : 0 < N) (hn : 0 < n)
    (st st1 : AnnealState (List Nat)) (hg : st1.rng = [])
    (h : annealStep F (scriptedRng script) (config F) srcPix tgtPix tgtOrder N 0 st = some st1) :
    annealLoop F (scriptedRng script) (config F) srcPix tgtPix tgtOrder N n 0 st
      = some st1 := by
  cases n with
  | zero => omega
  | succ m =>
    rw [annealLoop_succ, h]
    exact annealLoop_exhausted F script srcPix tgtPix tgtOrder N hN m 1 st1 hg

theorem pixswap_eq_of_run {σ D : Type} (S : StdSort) (F : DoubleOps D) (rng : TRandom3 σ D)
    (cfg : Config D) (srcPix tgtPix : List Nat) (su : Setup σ) (st : AnnealState σ)
    (out : List Nat) (hs : setup S rng srcPix tgtPix = some su)
    (hl : annealLoop F rng cfg srcPix tgtPix su.tgtOrder srcPix.length cfg.nSteps 0 su.start
      = some st)
    (ha : assemble srcPix st.mapping srcPix.length = some out) :
    pixswap S F rng cfg srcPix tgtPix = some out := by
  simp [pixswap, outputAfter, stateAfter, hs, hl, ha]

theorem nSteps_pos {D : Type} (F : DoubleOps D) : 0 < (config F).nSteps :=
  Nat.lt_of_sub_eq_succ (rfl : N_STEPS - 0 = 39999999 + 1)

/-- C7 (counterexample). Two complete runs of the program on identical source
and target images whose output is not the source.  In the first, with pixels
`[0x000000, 0x000001]`, the first step proposes the exchange of the two
positions (`dE = 2` at temperature `2`) with the acceptance draw
`1000000000 / 2^32`, which is below `exp(-1)`, and all later steps are skipped:
the output is `[0x000001, 0x000000]`.  In the second, with two pixels of equal
colour and different alpha, the exchange has `dE = 0` and is accepted without
any draw: the output is `[0x00000000, 0xFF000000]`. -/
theorem identical_images_counterexample :
    pixswap insertionSort ratOps (scriptedRng [0, 8001, 1000000000]) (config ratOps)
        [0x000000, 0x000001] [0x000000, 0x000001] = some [0x000001, 0x000000]
    ∧ [0x000001, 0x000000] ≠ [0x000000, 0x000001]
    ∧ pixswap insertionSort ratOps (scriptedRng [0, 8001]) (config ratOps)
        [0xFF000000, 0x00000000] [0xFF000000, 0x00000000] = some [0x00000000, 0xFF000000]
    ∧ [0x00000000, 0xFF000000] ≠ [0xFF000000, 0x00000000]
    ∧ (1000000000 : ℝ) / 2 ^ 32 < Real.exp (-(2 : ℝ) / 2) := by
  refine ⟨?_, by decide, ?_, by decide, ?_⟩
  · have hs : setup insertionSort (scriptedRng [0, 8001, 1000000000]) [0, 1] [0, 1]
        = some { srcOrder := [0, 1], tgtOrder := [0, 1],
                 start := { mapping := [0, 1], E := 0, rng := [0, 8001, 1000000000] } } := by
      decide
    have h1 : annealStep ratOps (scriptedRng [0, 8001, 1000000000]) (config ratOps)
        [0, 1] [0, 1] [0, 1] 2 0 { mapping := [0, 1], E := 0, rng := [0, 8001, 1000000000] }
        = some { mapping := [1, 0], E := 2, rng := [] } := by
      decide!
    have hl := annealLoop_first_then_exhausted ratOps [0, 8001, 1000000000] [0, 1] [0, 1]
      [0, 1] 2 (config ratOps).nSteps (by decide) (nSteps_pos ratOps) _ _ rfl h1
    have ha : assemble [0, 1] [1, 0] 2 = some [1, 0] := by decide
    exact pixswap_eq_of_run _ _ _ _ _ _ _ _ _ hs hl ha
  · have hs : setup insertionSort (scriptedRng [0, 8001]) [0xFF000000, 0] [0xFF000000, 0]
        = some { srcOrder := [0, 1], tgtOrder := [0, 1],
                 start := { mapping := [0, 1], E := 0, rng := [0, 8001] } } := by
      decide
    have h1 : annealStep ratOps (scriptedRng [0, 8001]) (config ratOps)
        [0xFF000000, 0] [0xFF000000, 0] [0, 1] 2 0 { mapping := [0, 1], E := 0, rng := [0, 8001] }
        = some { mapping := [1, 0], E := 0, rng := [] } := by
      decide
    have hl := annealLoop_first_then_exhausted ratOps [0, 8001] [0xFF000000, 0]
      [0xFF000000, 0] [0, 1] 2 (config ratOps).nSteps (by decide) (nSteps_pos ratOps)
      _ _ rfl h1
    have ha : assemble [0xFF000000, 0] [1, 0] 2 = some [0, 0xFF000000] := by decide
    exact pixswap_eq_of_run _ _ _ _ _ _ _ _ _ hs hl ha
  · rw [show -(2 : ℝ) / 2 = -1 by norm_num, Real.exp_neg]
    calc (1000000000 : ℝ) / 2 ^ 32 < (2.7182818286 : ℝ)⁻¹ := by norm_num
      _ < (Real.exp 1)⁻¹ := inv_strictAnti₀ (Real.exp_pos 1) Real.exp_one_lt_d9

/-! ## Ties in the rank ordering -/

theorem countP_lt_range (a N : Nat) :
    (List.range N).countP (fun r => decide (r < a)) = min a N := by
  induction N with
  | zero => simp
  | succ n ih =>
    rw [List.range_succ, List.countP_append, ih]
    by_cases h : n < a
    · simp [List.countP_cons, h]
      omega
    · simp [List.countP_cons, h]
      omega

theorem countP_range_perm (order : List Nat) (N : Nat) (h : order.Perm (List.range N))
    (p : Nat → Bool) :
    (List.range N).countP p = (List.range N).countP (fun r => p (order.getD r 0)) := by
  have hl := perm_range_length h
  rw [← h.countP_eq p]
  conv_lhs => rw [← map_getD_range order, List.countP_map, hl]
  rfl

/-- C13 (amended). For every pixel buffer and every sort that meets the
contract of `std::sort`, so also for the library sort: of two pixels with
different colour keys the one with the smaller key has the smaller rank, and
the rank of a pixel is at least the number of pixels with a smaller key and
less than the number of pixels with a key that is not larger.  The pixels of
one colour key thus occupy one block of consecutive ranks; their order inside
the block is the one the sort leaves. -/
theorem rankOrder_ties (S : StdSort) (pix : List Nat) :
    ∃ order, rankOrder S pix pix.length = some order
      ∧ order.Perm (List.range pix.length)
      ∧ (∀ i j, i < pix.length → j < pix.length →
          colorKey (pix.getD i 0) < colorKey (pix.getD j 0) →
          order.indexOf i < order.indexOf j)
      ∧ (∀ i, i < pix.length →
          (List.range pix.length).countP
              (fun t => decide (colorKey (pix.getD t 0) < colorKey (pix.getD i 0)))
            ≤ order.indexOf i
          ∧ order.indexOf i
            < (List.range pix.length).countP
                (fun t => decide (colorKey (pix.getD t 0) ≤ colorKey (pix.getD i 0)))) := by
  have hperm := sortedOrder_perm S pix pix.length
  refine ⟨_, rankOrder_eq S pix pix.length (Nat.le_refl _), hperm, ?_⟩
  have hp := sorted_keys_pairwise S (keyList pix pix.length)
  rw [← sortedOrder_keys] at hp
  generalize hO : (S.sort (keyList pix pix.length)).map (fun e => e.idx) = order at hp hperm
  have hlen : order.length = pix.length := perm_range_length hperm
  rw [List.pairwise_iff_getElem] at hp
  -- keys along the ranks are non-decreasing
  have hmono : ∀ a b, a < b → b < pix.length →
      colorKey (pix.getD (order.getD a 0) 0) ≤ colorKey (pix.getD (order.getD b 0) 0) := by
    intro a b hab hb
    have h1 : a < order.length := by omega
    have h2 : b < order.length := by omega
    have h := hp a b (by simpa using h1) (by simpa using h2) hab
    simpa [List.getElem?_eq_getElem h1, List.getElem?_eq_getElem h2] using h
  -- the rank of a pixel
  have hrank : ∀ i, i < pix.length →
      order.indexOf i < pix.length ∧ order.getD (order.indexOf i) 0 = i := by
    intro i hi
    have hmem : i ∈ order := hperm.symm.subset (List.mem_range.mpr hi)
    have hlt : order.indexOf i < order.length := List.indexOf_lt_length.mpr hmem
    refine ⟨by omega, ?_⟩
    rw [List.getD_eq_getElem order 0 hlt]
    exact List.getElem_indexOf hlt
  constructor
  · intro i j hi hj hkey
    obtain ⟨ha, hai⟩ := hrank i hi
    obtain ⟨hb, hbj⟩ := hrank j hj
    by_contra hcon
    have hle : order.indexOf j ≤ order.indexOf i := by omega
    rcases Nat.eq_or_lt_of_le hle with he | hlt
    · rw [he, hai] at hbj
      rw [hbj] at hkey
      exact lt_irrefl _ hkey
    · have := hmono _ _ hlt ha
      rw [hai, hbj] at this
      omega
  · intro i hi
    obtain ⟨ha, hai⟩ := hrank i hi
    constructor
    · rw [countP_range_perm order pix.length hperm]
      calc (List.range pix.length).countP (fun r =>
              decide (colorKey (pix.getD (order.getD r 0) 0) < colorKey (pix.getD i 0)))
          ≤ (List.range pix.length).countP (fun r => decide (r < order.indexOf i)) := by
            apply List.countP_mono_left
            intro r hr hlt
            have hrN := List.mem_range.mp hr
            simp only [decide_eq_true_eq] at hlt ⊢
            by_contra hcon
            rcases Nat.eq_or_lt_of_le (Nat.le_of_not_lt hcon) with he | hgt
            · rw [← he, hai] at hlt
              exact lt_irrefl _ hlt
            · have := hmono _ _ hgt hrN
              rw [hai] at this
              omega
        _ = min (order.indexOf i) pix.length := countP_lt_range _ _
        _ ≤ order.indexOf i := Nat.min_le_left _ _
    · rw [countP_range_perm order pix.length hperm]
      calc order.indexOf i < min (order.indexOf i + 1) pix.length := by
            rw [Nat.lt_min]
            omega
        _ = (List.range pix.length).countP (fun r => decide (r < order.indexOf i + 1)) :=
            (countP_lt_range _ _).symm
        _ ≤ (List.range pix.length).countP (fun r =>
              decide (colorKey (pix.getD (order.getD r 0) 0) ≤ colorKey (pix.getD i 0))) := by
            apply List.countP_mono_left
            intro r hr hlt
            simp only [decide_eq_true_eq] at hlt ⊢
            rcases Nat.eq_or_lt_of_le (Nat.le_of_lt_succ hlt) with he | hgt
            · rw [he, hai]
            · have := hmono _ _ hgt ha
              rw [hai] at this
              exact this

/-- C13 (counterexample). On an image of 17 pixels of one colour the library
sort leaves the records in the order `8, 16, 15, ..., 9, 0, 7, 6, ..., 1` of
their positions: pixel `8` has rank `0` and pixel `0` has rank `9`, although
the two have the same colour key and `0 < 8`. -/
theorem rankOrder_unstable_counterexample :
    std_sort (keyList flatImage 17)
      = some ([8, 16, 15, 14, 13, 12, 11, 10, 9, 0, 7, 6, 5, 4, 3, 2, 1].map
          fun i => { key := 5, idx := i })
    ∧ libstdcxxSort.sort (keyList flatImage 17)
      = [8, 16, 15, 14, 13, 12, 11, 10, 9, 0, 7, 6, 5, 4, 3, 2, 1].map
          (fun i => { key := 5, idx := i })
    ∧ rankOrder libstdcxxSort flatImage flatImage.length
      = some [8, 16, 15, 14, 13, 12, 11, 10, 9, 0, 7, 6, 5, 4, 3, 2, 1]
    ∧ colorKey (flatImage.getD 0 0) = colorKey (flatImage.getD 8 0)
    ∧ [8, 16, 15, 14, 13, 12, 11, 10, 9, 0, 7, 6, 5, 4, 3, 2, 1].indexOf 0 = 9
    ∧ [8, 16, 15, 14, 13, 12, 11, 10, 9, 0, 7, 6, 5, 4, 3, 2, 1].indexOf 8 = 0 := by
  decide

/-! ## Missing checks -/

theorem collect_none {α : Type} (l : List (Option α)) (h : none ∈ l) : collect l = none := by
  induction l with
  | nil => simp at h
  | cons x xs ih =>
    cases x with
    | none => simp [collect]
    | some v =>
      have hx : none ∈ xs := by simpa using h
      simp [collect, ih hx]

theorem loadKeys_short (pix : List Nat) (N : Nat) (h : pix.length < N) :
    loadKeys pix N = none := by
  unfold loadKeys fillArray
  apply collect_none
  rw [List.mem_map]
  exact ⟨pix.length, List.mem_range.mpr h, by simp⟩

theorem setup_short {σ D : Type} (S : StdSort) (rng : TRandom3 σ D)
    (srcPix tgtPix : List Nat) (h : tgtPix.length < srcPix.length) :
    setup S rng srcPix tgtPix = none := by
  unfold setup
  simp only []
  rw [rankOrder_eq S srcPix srcPix.length (Nat.le_refl _)]
  simp only [Option.some_bind]
  unfold rankOrder
  rw [loadKeys_short tgtPix srcPix.length h]
  rfl

theorem pixswap_exists {σ D : Type} (S : StdSort) (F : DoubleOps D) (rng : TRandom3 σ D)
    (cfg : Config D) (srcPix tgtPix : List Nat)
    (hlen : srcPix.length ≤ tgtPix.length) (hN : 0 < srcPix.length) :
    ∃ out, pixswap S F rng cfg srcPix tgtPix = some out ∧ out.Perm srcPix := by
  obtain ⟨st, h⟩ := stateAfter_exists S F rng cfg srcPix tgtPix cfg.nSteps hlen (Or.inl hN)
  have hc := stateAfter_consistent S F rng cfg srcPix tgtPix cfg.nSteps st hlen h
  obtain ⟨out, ho, _, _, hp⟩ := assemble_spec srcPix st.mapping hc.1
  exact ⟨out, by simp [pixswap, outputAfter, h, ho], hp⟩

/-- C14 (amended). The program compares no pixel counts.  With `N` the pixel
count of the source: when the target has at least `N` pixels (also when it has
more) the orderings, the initial mapping and the initial energy are computed,
and for `N > 0` the program returns an output that rearranges the source; when
the target has fewer than `N` pixels the key construction reads beyond the
target buffer and nothing is returned. -/
theorem no_dimension_check {σ D : Type} (S : StdSort) (F : DoubleOps D) (rng : TRandom3 σ D)
    (cfg : Config D) (srcPix tgtPix : List Nat) :
    (srcPix.length ≤ tgtPix.length →
        (∃ su, setup S rng srcPix tgtPix = some su
          ∧ su.start.mapping.Perm (List.range srcPix.length))
        ∧ (0 < srcPix.length →
            ∃ out, pixswap S F rng cfg srcPix tgtPix = some out ∧ out.Perm srcPix))
    ∧ (tgtPix.length < srcPix.length →
        setup S rng srcPix tgtPix = none ∧ pixswap S F rng cfg srcPix tgtPix = none) := by
  constructor
  · intro hle
    constructor
    · obtain ⟨su, h, _, _, _, hc, _⟩ := setup_spec S rng srcPix tgtPix hle
      exact ⟨su, h, hc.1⟩
    · intro hN
      exact pixswap_exists S F rng cfg srcPix tgtPix hle hN
  · intro hlt
    have h := setup_short S rng srcPix tgtPix hlt
    exact ⟨h, by simp [pixswap, outputAfter, stateAfter, h]⟩

theorem no_dimension_check_witness :
    ([0x000005, 0x000001].length ≤ [0x000001, 0x000005, 0x000007].length →
        (∃ su, setup insertionSort sampleRng [0x000005, 0x000001]
            [0x000001, 0x000005, 0x000007] = some su
          ∧ su.start.mapping.Perm (List.range [0x000005, 0x000001].length))
        ∧ (0 < [0x000005, 0x000001].length →
            ∃ out, pixswap insertionSort ratOps sampleRng (config ratOps) [0x000005, 0x000001]
                [0x000001, 0x000005, 0x000007] = some out
              ∧ out.Perm [0x000005, 0x000001]))
    ∧ ([0x000001, 0x000005, 0x000007].length < [0x000005, 0x000001].length →
        setup insertionSort sampleRng [0x000005, 0x000001] [0x000001, 0x000005, 0x000007] = none
        ∧ pixswap insertionSort ratOps sampleRng (config ratOps) [0x000005, 0x000001]
            [0x000001, 0x000005, 0x000007] = none) :=
  no_dimension_check insertionSort ratOps sampleRng (config ratOps) [0x000005, 0x000001]
    [0x000001, 0x000005, 0x000007]

/-- C14 (counterexample). A complete run of the program on a source of one
pixel and a target of three pixels: no error is reported, the loop runs (every
step is skipped) and the output `[0x000005]` is produced. -/
theorem dimension_mismatch_counterexample :
    [0x000005].length ≠ [0x000001, 0x000002, 0x000003].length
    ∧ pixswap insertionSort ratOps (scriptedRng []) (config ratOps) [0x000005]
        [0x000001, 0x000002, 0x000003] = some [0x000005] := by
  refine ⟨by decide, ?_⟩
  have hs : setup insertionSort (scriptedRng []) [0x000005] [0x000001, 0x000002, 0x000003]
      = some { srcOrder := [0], tgtOrder := [0],
               start := { mapping := [0], E := 16, rng := [] } } := by
    decide
  have hl := annealLoop_exhausted ratOps [] [0x000005] [0x000001, 0x000002, 0x000003] [0] 1
    (by decide) (config ratOps).nSteps 0 { mapping := [0], E := 16, rng := [] } rfl
  have ha : assemble [0x000005] [0] 1 = some [0x000005] := by decide
  exact pixswap_eq_of_run _ _ _ _ _ _ _ _ _ hs hl ha

theorem offset_small (radius raw : Nat) (hR2 : 2 * radius + 1 < 2 ^ 31)
    (hraw : raw ≤ 2 * radius) :
    -(radius : Int) ≤ offset radius raw ∧ offset radius raw ≤ (radius : Int) + 1 := by
  by_cases hR : 1 ≤ radius
  · have h := offset_range radius raw hR hR2 hraw
    omega
  · have h0 : radius = 0 := by omega
    have h1 : raw = 0 := by omega
    subst h0
    subst h1
    decide

/-- C15 (amended). The program checks no configuration value.  For every step
count below `2^31`, every radius `RADIUS >= 0` with `2*RADIUS + 1` and
`N + RADIUS` below `2^31`, every pair of temperatures, and buffers of the same
length `N > 0`: the annealing loop runs to its end and an output that
rearranges the source is returned.  Under these bounds the `int` expressions
`N_STEPS - 1` and `k + dk` are within the range of `int`, and every proposal is
clamped into `[0, N-1]`. -/
theorem no_config_validation {σ D : Type} (S : StdSort) (F : DoubleOps D) (rng : TRandom3 σ D)
    (cfg : Config D) (srcPix tgtPix : List Nat) (k raw : Nat)
    (hlen : srcPix.length = tgtPix.length) (hN : 0 < srcPix.length)
    (hsteps : cfg.nSteps < 2 ^ 31) (hR2 : 2 * cfg.radius + 1 < 2 ^ 31)
    (hNR : srcPix.length + cfg.radius < 2 ^ 31)
    (hk : k < srcPix.length) (hraw : raw ≤ 2 * cfg.radius) :
    (∃ st out, stateAfter S F rng cfg srcPix tgtPix cfg.nSteps = some st
      ∧ pixswap S F rng cfg srcPix tgtPix = some out ∧ out.Perm srcPix)
    ∧ (-(2 : Int) ^ 31 ≤ (cfg.nSteps : Int) - 1 ∧ (cfg.nSteps : Int) - 1 < 2 ^ 31)
    ∧ (-(2 : Int) ^ 31 ≤ (k : Int) + offset cfg.radius raw
      ∧ (k : Int) + offset cfg.radius raw < 2 ^ 31)
    ∧ (0 ≤ clampRank srcPix.length k (offset cfg.radius raw)
      ∧ clampRank srcPix.length k (offset cfg.radius raw) ≤ (srcPix.length : Int) - 1) := by
  obtain ⟨st, h⟩ := stateAfter_exists S F rng cfg srcPix tgtPix cfg.nSteps hlen.le (Or.inl hN)
  obtain ⟨out, ho, hp⟩ := pixswap_exists S F rng cfg srcPix tgtPix hlen.le hN
  have hoff := offset_small cfg.radius raw hR2 hraw
  have hc := clampRank_range srcPix.length (k : Int) (offset cfg.radius raw) hN
  refine ⟨⟨st, out, h, ho, hp⟩, ⟨by omega, by omega⟩, ⟨by omega, by omega⟩, hc.1, by omega⟩

theorem no_config_validation_witness :
    (∃ st out, stateAfter insertionSort ratOps (scriptedRng [0]) invalidConfig farSrc farTgt
        invalidConfig.nSteps = some st
      ∧ pixswap insertionSort ratOps (scriptedRng [0]) invalidConfig farSrc farTgt = some out
      ∧ out.Perm farSrc)
    ∧ (-(2 : Int) ^ 31 ≤ (invalidConfig.nSteps : Int) - 1
      ∧ (invalidConfig.nSteps : Int) - 1 < 2 ^ 31)
    ∧ (-(2 : Int) ^ 31 ≤ ((0 : Nat) : Int) + offset invalidConfig.radius 0
      ∧ ((0 : Nat) : Int) + offset invalidConfig.radius 0 < 2 ^ 31)
    ∧ (0 ≤ clampRank farSrc.length (0 : Nat) (offset invalidConfig.radius 0)
      ∧ clampRank farSrc.length (0 : Nat) (offset invalidConfig.radius 0)
          ≤ (farSrc.length : Int) - 1) :=
  no_config_validation insertionSort ratOps (scriptedRng [0]) invalidConfig farSrc farTgt 0 0
    (by decide) (by decide) (by decide) (by decide) (by decide) (by decide) (by decide)

/-- C15 (counterexample). Two complete runs that are not rejected: with the
parameters of the program (`RADIUS = 8000`) on images of two pixels, where
`RADIUS > N - 1`, and with one step, radius `0`, initial temperature `-1` and
final temperature `0`.  In both every step is skipped and the output
`[0x000001, 0x000005]` is returned. -/
theorem invalid_config_counterexample :
    ((config ratOps).radius > sampleSrc.length - 1
      ∧ pixswap insertionSort ratOps (scriptedRng []) (config ratOps) sampleSrc sampleTgt
          = some [0x000001, 0x000005])
    ∧ (invalidConfig.nSteps < 2 ∧ invalidConfig.radius < 1 ∧ invalidConfig.tI ≤ 0
      ∧ invalidConfig.tF ≤ 0
      ∧ pixswap insertionSort ratOps (scriptedRng [1]) invalidConfig sampleSrc sampleTgt
          = some [0x000001, 0x000005]) := by
  have ha : assemble sampleSrc [1, 0] sampleSrc.length = some [0x000001, 0x000005] := by decide
  refine ⟨⟨by decide, ?_⟩, by decide, by decide, by decide!, by decide!, ?_⟩
  · have hs : setup insertionSort (scriptedRng []) sampleSrc sampleTgt
        = some { srcOrder := [1, 0], tgtOrder := [0, 1],
                 start := { mapping := [1, 0], E := 0, rng := [] } } := by
      decide
    have hl := annealLoop_exhausted ratOps [] sampleSrc sampleTgt [0, 1] sampleSrc.length
      (by decide) (config ratOps).nSteps 0 { mapping := [1, 0], E := 0, rng := [] } rfl
    exact pixswap_eq_of_run _ _ _ _ _ _ _ _ _ hs hl ha
  · have hs : setup insertionSort (scriptedRng [1]) sampleSrc sampleTgt
        = some { srcOrder := [1, 0], tgtOrder := [0, 1],
                 start := { mapping := [1, 0], E := 0, rng := [1] } } := by
      decide
    have hl : annealLoop ratOps (scriptedRng [1]) invalidConfig sampleSrc sampleTgt [0, 1]
        sampleSrc.length invalidConfig.nSteps 0 { mapping := [1, 0], E := 0, rng := [1] }
        = some { mapping := [1, 0], E := 0, rng := [] } := by
      decide
    exact pixswap_eq_of_run _ _ _ _ _ _ _ _ _ hs hl ha

/-! ## Rounding -/

theorem log2Fuel_spec (fuel : Nat) : ∀ n, n ≤ fuel → 0 < n →
    2 ^ log2Fuel fuel n ≤ n ∧ n < 2 ^ (log2Fuel fuel n + 1) := by
  induction fuel with
  | zero => intro n h1 h2; omega
  | succ fuel ih =>
    intro n h1 h2
    unfold log2Fuel
    by_cases h : n < 2
    · rw [if_pos h]
      simp
      omega
    · rw [if_neg h]
      have hd := ih (n / 2) (by omega) (by omega)
      have e1 : 2 ^ (log2Fuel fuel (n / 2) + 1) = 2 * 2 ^ log2Fuel fuel (n / 2) := by
        rw [pow_succ]; ring
      have e2 : 2 ^ (log2Fuel fuel (n / 2) + 1 + 1)
          = 2 * 2 ^ (log2Fuel fuel (n / 2) + 1) := by
        rw [pow_succ]; ring
      rw [e2]
      rw [e1] at hd ⊢
      omega

theorem ilog2_spec (n : Nat) (h : 0 < n) : 2 ^ ilog2 n ≤ n ∧ n < 2 ^ (ilog2 n + 1) :=
  log2Fuel_spec n n (Nat.le_refl n) h

theorem roundDouble_zero : roundDouble 0 = 0 := by
  simp [roundDouble]

theorem roundDouble_ne_zero (q : ℚ) (hq : q ≠ 0) : roundDouble q ≠ 0 := by
  have ha : 0 < |q| := abs_pos.mpr hq
  have hnum : 0 < (|q|).num := Rat.num_pos.mpr ha
  have hden : 0 < (|q|).den := (|q|).den_pos
  have hp := ilog2_spec (|q|).num.natAbs (by omega)
  have hr := ilog2_spec (|q|).den hden
  have hdiv : ((|q|).num.natAbs : ℚ) / ((|q|).den : ℚ) = |q| := by
    have h2 : ((|q|).num.natAbs : ℚ) = ((|q|).num : ℚ) := by
      rw [Nat.cast_natAbs, abs_of_pos hnum]
    rw [h2]
    exact Rat.num_div_den _
  unfold roundDouble
  rw [if_neg hq]
  simp only []
  generalize he0 : ((ilog2 (|q|).num.natAbs : Int) - (ilog2 (|q|).den : Int)) = e0
  generalize he : (if |q| < (2 : ℚ) ^ e0 then e0 - 1 else e0) = e
  have hee : e ≤ e0 := by
    rw [← he]; split <;> omega
  have hulp : (0 : ℚ) < (2 : ℚ) ^ (e - 52) := zpow_pos (by norm_num) _
  -- the unit in the last place does not exceed the value
  have hle : (2 : ℚ) ^ (e - 52) ≤ |q| := by
    have h1 : (2 : ℚ) ^ (e - 52) ≤ (2 : ℚ) ^ ((ilog2 (|q|).num.natAbs : Int)
        - ((ilog2 (|q|).den : Int) + 1)) :=
      zpow_le_zpow_right₀ (by norm_num) (by omega)
    have h2 : (2 : ℚ) ^ ((ilog2 (|q|).num.natAbs : Int) - ((ilog2 (|q|).den : Int) + 1))
        = (2 : ℚ) ^ (ilog2 (|q|).num.natAbs) / (2 : ℚ) ^ (ilog2 (|q|).den + 1) := by
      rw [zpow_sub₀ (by norm_num)]
      congr 1
      · exact zpow_natCast _ _
      · have : ((ilog2 (|q|).den : Int) + 1) = ((ilog2 (|q|).den + 1 : Nat) : Int) := by
          push_cast; ring
        rw [this]
        exact zpow_natCast _ _
    have h3 : (2 : ℚ) ^ (ilog2 (|q|).num.natAbs) / (2 : ℚ) ^ (ilog2 (|q|).den + 1)
        ≤ ((|q|).num.natAbs : ℚ) / ((|q|).den : ℚ) := by
      apply div_le_div₀
      · positivity
      · exact_mod_cast hp.1
      · exact_mod_cast hden
      · exact_mod_cast hr.2.le
    calc (2 : ℚ) ^ (e - 52) ≤ _ := h1
      _ = _ := h2
      _ ≤ _ := h3
      _ = |q| := hdiv
  have hm : (1 : ℚ) ≤ |q| / (2 : ℚ) ^ (e - 52) := (one_le_div hulp).mpr hle
  have hf : (1 : Int) ≤ Rat.floor (|q| / (2 : ℚ) ^ (e - 52)) :=
    Rat.le_floor.mpr (by exact_mod_cast hm)
  generalize Rat.floor (|q| / (2 : ℚ) ^ (e - 52)) = f at hf
  generalize hn : (if |q| / (2 : ℚ) ^ (e - 52) - (f : ℚ) < 1 / 2 then f
      else if 1 / 2 < |q| / (2 : ℚ) ^ (e - 52) - (f : ℚ) then f + 1
      else if f % 2 = 0 then f else f + 1) = n
  have hn1 : (1 : Int) ≤ n := by
    rw [← hn]; split_ifs <;> omega
  have hnq : (n : ℚ) ≠ 0 := by
    have : (0 : ℚ) < (n : ℚ) := by exact_mod_cast (by omega : (0 : Int) < n)
    exact ne_of_gt this
  have hs : (if q < 0 then (-1 : ℚ) else 1) ≠ 0 := by split <;> norm_num
  exact mul_ne_zero (mul_ne_zero hs hnq) (ne_of_gt hulp)

theorem roundDouble_err (q : ℚ) : |roundDouble q - q| ≤ |q| / 2 ^ 53 := by
  by_cases hq : q = 0
  · subst hq
    simp [roundDouble_zero]
  have ha : 0 < |q| := abs_pos.mpr hq
  have hnum : 0 < (|q|).num := Rat.num_pos.mpr ha
  have hden : 0 < (|q|).den := (|q|).den_pos
  have hp := ilog2_spec (|q|).num.natAbs (by omega)
  have hr := ilog2_spec (|q|).den hden
  have hdiv : ((|q|).num.natAbs : ℚ) / ((|q|).den : ℚ) = |q| := by
    have h2 : ((|q|).num.natAbs : ℚ) = ((|q|).num : ℚ) := by
      rw [Nat.cast_natAbs, abs_of_pos hnum]
    rw [h2]
    exact Rat.num_div_den _
  unfold roundDouble
  rw [if_neg hq]
  simp only []
  generalize he0 : ((ilog2 (|q|).num.natAbs : Int) - (ilog2 (|q|).den : Int)) = e0
  -- the value is at least `2^(e0 - 1)`
  have hlow : (2 : ℚ) ^ (e0 - 1) ≤ |q| := by
    have h2 : (2 : ℚ) ^ (e0 - 1)
        = (2 : ℚ) ^ (ilog2 (|q|).num.natAbs) / (2 : ℚ) ^ (ilog2 (|q|).den + 1) := by
      rw [← he0]
      have : ((ilog2 (|q|).num.natAbs : Int) - (ilog2 (|q|).den : Int) - 1)
          = (ilog2 (|q|).num.natAbs : Int) - ((ilog2 (|q|).den + 1 : Nat) : Int) := by
        push_cast; ring
      rw [this, zpow_sub₀ (by norm_num), zpow_natCast, zpow_natCast]
    have h3 : (2 : ℚ) ^ (ilog2 (|q|).num.natAbs) / (2 : ℚ) ^ (ilog2 (|q|).den + 1)
        ≤ ((|q|).num.natAbs : ℚ) / ((|q|).den : ℚ) := by
      apply div_le_div₀
      · positivity
      · exact_mod_cast hp.1
      · exact_mod_cast hden
      · exact_mod_cast hr.2.le
    calc (2 : ℚ) ^ (e0 - 1) = _ := h2
      _ ≤ _ := h3
      _ = |q| := hdiv
  generalize he : (if |q| < (2 : ℚ) ^ e0 then e0 - 1 else e0) = e
  have h2e : (2 : ℚ) ^ e ≤ |q| := by
    rw [← he]
    split
    · exact hlow
    · next h => exact not_lt.mp h
  have hulp : (0 : ℚ) < (2 : ℚ) ^ (e - 52) := zpow_pos (by norm_num) _
  have hulp2 : (2 : ℚ) ^ (e - 52) * 2 ^ 52 = (2 : ℚ) ^ e := by
    rw [zpow_sub₀ (by norm_num)]
    have : (2 : ℚ) ^ (52 : Int) = 2 ^ 52 := by norm_cast
    rw [this]
    field_simp
  generalize hu : (2 : ℚ) ^ (e - 52) = ulp at hulp hulp2
  generalize hf : Rat.floor (|q| / ulp) = f
  have hf1 : (f : ℚ) ≤ |q| / ulp := by
    rw [← hf]; exact Rat.le_floor.mp (le_refl _)
  have hf2 : |q| / ulp < (f : ℚ) + 1 := by
    by_contra hcon
    have h1 : ((f + 1 : Int) : ℚ) ≤ |q| / ulp := by
      push_cast
      exact not_lt.mp hcon
    have h2 := Rat.le_floor.mpr h1
    omega
  generalize hm : |q| / ulp = m at hf1 hf2
  generalize hn : (if m - (f : ℚ) < 1 / 2 then f
      else if 1 / 2 < m - (f : ℚ) then f + 1
      else if f % 2 = 0 then f else f + 1) = n
  have hnm : |(n : ℚ) - m| ≤ 1 / 2 := by
    rw [← hn, abs_le]
    split_ifs with h1 h2 h3
    · constructor <;> linarith
    · push_cast; constructor <;> linarith
    · have : m - (f : ℚ) = 1 / 2 := le_antisymm (not_lt.mp h2) (not_lt.mp h1)
      constructor <;> linarith
    · have : m - (f : ℚ) = 1 / 2 := le_antisymm (not_lt.mp h2) (not_lt.mp h1)
      push_cast; constructor <;> linarith
  have hqm : |q| = m * ulp := by
    rw [← hm]; field_simp
  have key : abs ((n : ℚ) * ulp - |q|) ≤ |q| / 2 ^ 53 := by
    rw [hqm, ← sub_mul, abs_mul, abs_of_pos hulp]
    have h1 : |(n : ℚ) - m| * ulp ≤ 1 / 2 * ulp := mul_le_mul_of_nonneg_right hnm hulp.le
    have h2 : 1 / 2 * ulp ≤ m * ulp / 2 ^ 53 := by
      rw [← hqm, le_div_iff₀ (by positivity)]
      calc 1 / 2 * ulp * 2 ^ 53 = ulp * 2 ^ 52 := by ring
        _ = (2 : ℚ) ^ e := hulp2
        _ ≤ |q| := h2e
    exact le_trans h1 h2
  by_cases hneg : q < 0
  · rw [if_pos hneg]
    have hq1 : |q| = -q := abs_of_neg hneg
    have e1 : -1 * (n : ℚ) * ulp - q = -((n : ℚ) * ulp - |q|) := by rw [hq1]; ring
    rw [e1, abs_neg]
    exact key
  · rw [if_neg hneg]
    have hq1 : |q| = q := abs_of_nonneg (not_lt.mp hneg)
    have e1 : 1 * (n : ℚ) * ulp - q = (n : ℚ) * ulp - |q| := by rw [hq1]; ring
    rw [e1]
    exact key

theorem roundDouble_near (q : ℚ) (hq : 0 ≤ q) :
    q * (1 - 1 / 2 ^ 53) ≤ roundDouble q ∧ roundDouble q ≤ q * (1 + 1 / 2 ^ 53) := by
  have h := roundDouble_err q
  rw [abs_of_nonneg hq, abs_le] at h
  constructor <;> linarith [h.1, h.2]

/-- The form of a rounded positive value: an integer significand `n` between
`2^52` and `2^53` times `2^(e - 52)`, for the exponent `e` of the binade
`[2^e, 2^(e+1))` of the value. -/
theorem roundDouble_form (q : ℚ) (hq : 0 < q) :
    ∃ (e n : Int), roundDouble q = (n : ℚ) * (2 : ℚ) ^ (e - 52)
      ∧ (2 : ℚ) ^ e ≤ q ∧ q < (2 : ℚ) ^ (e + 1) ∧ 2 ^ 52 ≤ n ∧ n ≤ 2 ^ 53 := by
  have hq0 : q ≠ 0 := ne_of_gt hq
  have habs : |q| = q := abs_of_pos hq
  have hnum : 0 < q.num := Rat.num_pos.mpr hq
  have hden : 0 < q.den := q.den_pos
  have hp := ilog2_spec q.num.natAbs (by omega)
  have hr := ilog2_spec q.den hden
  have hdiv : (q.num.natAbs : ℚ) / (q.den : ℚ) = q := by
    have h2 : (q.num.natAbs : ℚ) = (q.num : ℚ) := by
      rw [Nat.cast_natAbs, abs_of_pos hnum]
    rw [h2]
    exact Rat.num_div_den _
  unfold roundDouble
  rw [if_neg hq0]
  simp only []
  rw [habs, if_neg (not_lt.mpr hq.le)]
  generalize he0 : ((ilog2 q.num.natAbs : Int) - (ilog2 q.den : Int)) = e0
  have hlow : (2 : ℚ) ^ (e0 - 1) ≤ q := by
    have h2 : (2 : ℚ) ^ (e0 - 1)
        = (2 : ℚ) ^ (ilog2 q.num.natAbs) / (2 : ℚ) ^ (ilog2 q.den + 1) := by
      rw [← he0]
      have : ((ilog2 q.num.natAbs : Int) - (ilog2 q.den : Int) - 1)
          = (ilog2 q.num.natAbs : Int) - ((ilog2 q.den + 1 : Nat) : Int) := by
        push_cast; ring
      rw [this, zpow_sub₀ (by norm_num), zpow_natCast, zpow_natCast]
    have h3 : (2 : ℚ) ^ (ilog2 q.num.natAbs) / (2 : ℚ) ^ (ilog2 q.den + 1)
        ≤ (q.num.natAbs : ℚ) / (q.den : ℚ) := by
      apply div_le_div₀
      · positivity
      · exact_mod_cast hp.1
      · exact_mod_cast hden
      · exact_mod_cast hr.2.le
    calc (2 : ℚ) ^ (e0 - 1) = _ := h2
      _ ≤ _ := h3
      _ = q := hdiv
  have hhigh : q < (2 : ℚ) ^ (e0 + 1) := by
    have h2 : (2 : ℚ) ^ (e0 + 1)
        = (2 : ℚ) ^ (ilog2 q.num.natAbs + 1) / (2 : ℚ) ^ (ilog2 q.den) := by
      rw [← he0]
      have : ((ilog2 q.num.natAbs : Int) - (ilog2 q.den : Int) + 1)
          = ((ilog2 q.num.natAbs + 1 : Nat) : Int) - (ilog2 q.den : Int) := by
        push_cast; ring
      rw [this, zpow_sub₀ (by norm_num), zpow_natCast, zpow_natCast]
    have h3 : (q.num.natAbs : ℚ) / (q.den : ℚ)
        < (2 : ℚ) ^ (ilog2 q.num.natAbs + 1) / (2 : ℚ) ^ (ilog2 q.den) := by
      have hd : (0 : ℚ) < (q.den : ℚ) := by exact_mod_cast hden
      have hn : (q.num.natAbs : ℚ) < (2 : ℚ) ^ (ilog2 q.num.natAbs + 1) := by
        exact_mod_cast hp.2
      have hd2 : (2 : ℚ) ^ (ilog2 q.den) ≤ (q.den : ℚ) := by exact_mod_cast hr.1
      have hpos : (0 : ℚ) < (2 : ℚ) ^ (ilog2 q.den) := by positivity
      rw [div_lt_div_iff₀ hd hpos]
      calc (q.num.natAbs : ℚ) * (2 : ℚ) ^ (ilog2 q.den)
          ≤ (q.num.natAbs : ℚ) * (q.den : ℚ) :=
            mul_le_mul_of_nonneg_left hd2 (by positivity)
        _ < (2 : ℚ) ^ (ilog2 q.num.natAbs + 1) * (q.den : ℚ) :=
            mul_lt_mul_of_pos_right hn hd
    calc q = _ := hdiv.symm
      _ < _ := h3
      _ = _ := h2.symm
  generalize he : (if q < (2 : ℚ) ^ e0 then e0 - 1 else e0) = e
  have h2e : (2 : ℚ) ^ e ≤ q ∧ q < (2 : ℚ) ^ (e + 1) := by
    rw [← he]
    split
    · next h =>
      refine ⟨hlow, ?_⟩
      have : e0 - 1 + 1 = e0 := by ring
      rw [this]
      exact h
    · next h => exact ⟨not_lt.mp h, hhigh⟩
  have hulp : (0 : ℚ) < (2 : ℚ) ^ (e - 52) := zpow_pos (by norm_num) _
  have hulp2 : (2 : ℚ) ^ (e - 52) * 2 ^ 52 = (2 : ℚ) ^ e := by
    rw [zpow_sub₀ (by norm_num)]
    have : (2 : ℚ) ^ (52 : Int) = 2 ^ 52 := by norm_cast
    rw [this]
    field_simp
  have hulp3 : (2 : ℚ) ^ (e - 52) * 2 ^ 53 = (2 : ℚ) ^ (e + 1) := by
    rw [zpow_add_one₀ (by norm_num), ← hulp2]
    ring
  have hm1 : (2 : ℚ) ^ 52 ≤ q / (2 : ℚ) ^ (e - 52) := by
    rw [le_div_iff₀ hulp, mul_comm, hulp2]
    exact h2e.1
  have hm2 : q / (2 : ℚ) ^ (e - 52) < (2 : ℚ) ^ 53 := by
    rw [div_lt_iff₀ hulp, mul_comm, hulp3]
    exact h2e.2
  have hf1 : ((2 ^ 52 : Int) : ℚ) ≤ q / (2 : ℚ) ^ (e - 52) := by
    push_cast
    exact hm1
  have hf2 := Rat.le_floor.mpr hf1
  have hf3 : Rat.floor (q / (2 : ℚ) ^ (e - 52)) < 2 ^ 53 := by
    have h1 : ((Rat.floor (q / (2 : ℚ) ^ (e - 52)) : Int) : ℚ) ≤ q / (2 : ℚ) ^ (e - 52) :=
      Rat.le_floor.mp (le_refl _)
    have h2 : ((Rat.floor (q / (2 : ℚ) ^ (e - 52)) : Int) : ℚ) < ((2 ^ 53 : Int) : ℚ) := by
      push_cast
      exact lt_of_le_of_lt h1 hm2
    exact_mod_cast h2
  generalize Rat.floor (q / (2 : ℚ) ^ (e - 52)) = f at hf2 hf3
  generalize hn : (if q / (2 : ℚ) ^ (e - 52) - (f : ℚ) < 1 / 2 then f
      else if 1 / 2 < q / (2 : ℚ) ^ (e - 52) - (f : ℚ) then f + 1
      else if f % 2 = 0 then f else f + 1) = n
  have hn1 : 2 ^ 52 ≤ n ∧ n ≤ 2 ^ 53 := by
    rw [← hn]
    split_ifs <;> omega
  exact ⟨e, n, by ring, h2e.1, h2e.2, hn1.1, hn1.2⟩

/-- No double lies strictly between `1 - 2^-53` and `1`. -/
theorem roundDouble_gap (q : ℚ) : ¬ (1 - 1 / 2 ^ 53 < roundDouble q ∧ roundDouble q < 1) := by
  rintro ⟨h1, h2⟩
  rcases le_or_lt q 0 with hq | hq
  · have h := roundDouble_err q
    rw [abs_of_nonpos hq, abs_le] at h
    have : roundDouble q ≤ 0 := by
      have h3 : (0 : ℚ) ≤ -q / 2 ^ 53 := div_nonneg (by linarith) (by positivity)
      have h4 : -q / 2 ^ 53 ≤ -q := by
        apply div_le_self (by linarith)
        norm_num
      linarith [h.2]
    norm_num at h1
    linarith
  · obtain ⟨e, n, hr, _, _, hn1, hn2⟩ := roundDouble_form q hq
    rw [hr] at h1 h2
    have hnq1 : ((2 : ℚ) ^ 52) ≤ (n : ℚ) := by exact_mod_cast hn1
    have hnq2 : (n : ℚ) ≤ (2 : ℚ) ^ 53 := by exact_mod_cast hn2
    have hulp : (0 : ℚ) < (2 : ℚ) ^ (e - 52) := zpow_pos (by norm_num) _
    rcases lt_trichotomy e (-1) with he | he | he
    · -- at most one half
      have h3 : (2 : ℚ) ^ (e - 52) ≤ (2 : ℚ) ^ ((-54 : Int)) :=
        zpow_le_zpow_right₀ (by norm_num) (by omega)
      have h4 : (n : ℚ) * (2 : ℚ) ^ (e - 52) ≤ (2 : ℚ) ^ 53 * (2 : ℚ) ^ ((-54 : Int)) :=
        mul_le_mul hnq2 h3 hulp.le (by positivity)
      norm_num at h4 h1
      linarith
    · subst he
      have h3 : (2 : ℚ) ^ ((-1 : Int) - 52) = 1 / 2 ^ 53 := by norm_num
      rw [h3] at h1 h2
      have h4 : ((2 ^ 53 - 1 : Int) : ℚ) < (n : ℚ) := by
        push_cast
        norm_num at h1 ⊢
        linarith
      have h5 : (n : ℚ) < ((2 ^ 53 : Int) : ℚ) := by
        push_cast
        norm_num at h2 ⊢
        linarith
      have h6 : (2 ^ 53 - 1 : Int) < n := by exact_mod_cast h4
      have h7 : n < (2 ^ 53 : Int) := by exact_mod_cast h5
      omega
    · -- at least one
      have h3 : (2 : ℚ) ^ ((-52 : Int)) ≤ (2 : ℚ) ^ (e - 52) :=
        zpow_le_zpow_right₀ (by norm_num) (by omega)
      have h4 : (2 : ℚ) ^ 52 * (2 : ℚ) ^ ((-52 : Int)) ≤ (n : ℚ) * (2 : ℚ) ^ (e - 52) :=
        mul_le_mul hnq1 h3 (by positivity) (by linarith)
      norm_num at h4
      linarith

/-! ## Temperature schedule -/

theorem roundDouble_one : roundDouble 1 = 1 := by decide!

theorem temperature_first (pw : ℚ → ℚ → ℚ) (ex : ℚ → ℚ) (cfg : Config ℚ)
    (hI : roundDouble cfg.tI = cfg.tI) :
    temperature (ieeeOps pw ex) cfg 0 = cfg.tI := by
  simp [temperature, ieeeOps, roundDouble_zero, hI]

theorem temperature_last (pw : ℚ → ℚ → ℚ) (ex : ℚ → ℚ) (cfg : Config ℚ)
    (hn : 2 ≤ cfg.nSteps) :
    temperature (ieeeOps pw ex) cfg (cfg.nSteps - 1)
      = roundDouble (cfg.tI * roundDouble (cfg.tF / cfg.tI)) := by
  have hc : (((cfg.nSteps - 1 : Nat) : Int) : ℚ) = (((cfg.nSteps : Int) - 1 : Int) : ℚ) := by
    congr 1
    omega
  have hx : (((cfg.nSteps : Int) - 1 : Int) : ℚ) ≠ 0 := by
    have : ((cfg.nSteps : Int) - 1) ≠ 0 := by omega
    exact_mod_cast this
  have hr := roundDouble_ne_zero _ hx
  simp only [temperature, ieeeOps]
  rw [hc, div_self hr, roundDouble_one]
  simp

theorem temperature_exact (F : DoubleOps ℝ) (cfg : Config ℝ) (hF : ExactOps F) (s : Nat) :
    temperature F cfg s
      = cfg.tI * (cfg.tF / cfg.tI) ^ ((s : ℝ) / ((cfg.nSteps : ℝ) - 1)) := by
  obtain ⟨h1, h2, h3, h4⟩ := hF
  simp only [temperature, h1, h2, h3, h4]
  push_cast
  rfl

theorem temperature_exact_ends (F : DoubleOps ℝ) (cfg : Config ℝ) (hF : ExactOps F)
    (hn : 2 ≤ cfg.nSteps) (hI : 0 < cfg.tI) :
    temperature F cfg 0 = cfg.tI ∧ temperature F cfg (cfg.nSteps - 1) = cfg.tF := by
  have hn1 : ((cfg.nSteps : ℝ) - 1) ≠ 0 := by
    have : (2 : ℝ) ≤ (cfg.nSteps : ℝ) := by exact_mod_cast hn
    intro h
    linarith
  rw [temperature_exact F cfg hF, temperature_exact F cfg hF]
  constructor
  · simp
  · rw [Nat.cast_sub (by omega), Nat.cast_one, div_self hn1, Real.rpow_one]
    field_simp

/-- C11 (amended). In double arithmetic, for every step count of at least `2`
and every initial temperature that is a double: the temperature at step `0` is
exactly `T_I`, and the temperature at step `N_STEPS - 1` is exactly the rounded
product `T_I * (T_F / T_I)` of the rounded quotient.  For the parameters of the
program (`T_I = 2.0`, `T_F = 1e-3`, `N_STEPS = 40000000`) these are exactly
`T_I` and `T_F`.  In exact real arithmetic, for every step count of at least
`2` and positive `T_I`, the two values are exactly `T_I` and `T_F`. -/
theorem temperature_endpoints (pw : ℚ → ℚ → ℚ) (ex : ℚ → ℚ) (cfg : Config ℚ)
    (F : DoubleOps ℝ) (rcfg : Config ℝ)
    (hn : 2 ≤ cfg.nSteps) (hI : roundDouble cfg.tI = cfg.tI)
    (hF : ExactOps F) (hrn : 2 ≤ rcfg.nSteps) (hrI : 0 < rcfg.tI) :
    temperature (ieeeOps pw ex) cfg 0 = cfg.tI
    ∧ temperature (ieeeOps pw ex) cfg (cfg.nSteps - 1)
        = roundDouble (cfg.tI * roundDouble (cfg.tF / cfg.tI))
    ∧ (config (ieeeOps pw ex)).tI = 2
    ∧ (config (ieeeOps pw ex)).tF = roundDouble (1 / 1000)
    ∧ temperature (ieeeOps pw ex) (config (ieeeOps pw ex)) 0 = (config (ieeeOps pw ex)).tI
    ∧ temperature (ieeeOps pw ex) (config (ieeeOps pw ex)) (N_STEPS - 1)
        = (config (ieeeOps pw ex)).tF
    ∧ temperature F rcfg 0 = rcfg.tI
    ∧ temperature F rcfg (rcfg.nSteps - 1) = rcfg.tF := by
  have h2 : roundDouble 2 = 2 := by decide!
  have h22 : roundDouble (roundDouble 2) = roundDouble 2 := by decide!
  have h3 : roundDouble (roundDouble 2 * roundDouble (roundDouble (1 / 1000) / roundDouble 2))
      = roundDouble (1 / 1000) := by decide!
  have hN : 2 ≤ (config (ieeeOps pw ex)).nSteps := by
    show 2 ≤ N_STEPS
    decide
  have hr := temperature_exact_ends F rcfg hF hrn hrI
  refine ⟨temperature_first pw ex cfg hI, temperature_last pw ex cfg hn, h2, rfl,
    temperature_first pw ex (config (ieeeOps pw ex)) h22, ?_, hr.1, hr.2⟩
  have := temperature_last pw ex (config (ieeeOps pw ex)) hN
  exact this.trans h3

theorem temperature_endpoints_witness :
    ∃ (F : DoubleOps ℝ) (rcfg : Config ℝ), ExactOps F ∧ 2 ≤ rcfg.nSteps ∧ 0 < rcfg.tI
      ∧ 2 ≤ coolingConfig.nSteps ∧ roundDouble coolingConfig.tI = coolingConfig.tI
      ∧ (temperature ieeeBasic coolingConfig 0 = coolingConfig.tI
        ∧ temperature ieeeBasic coolingConfig (coolingConfig.nSteps - 1)
            = roundDouble (coolingConfig.tI * roundDouble (coolingConfig.tF / coolingConfig.tI))
        ∧ (config ieeeBasic).tI = 2
        ∧ (config ieeeBasic).tF = roundDouble (1 / 1000)
        ∧ temperature ieeeBasic (config ieeeBasic) 0 = (config ieeeBasic).tI
        ∧ temperature ieeeBasic (config ieeeBasic) (N_STEPS - 1) = (config ieeeBasic).tF
        ∧ temperature F rcfg 0 = rcfg.tI
        ∧ temperature F rcfg (rcfg.nSteps - 1) = rcfg.tF) :=
  ⟨{ lit := fun q => (q : ℝ), ofInt := fun z => (z : ℝ), neg := fun x => -x,
     mul := fun x y => x * y, div := fun x y => x / y, pow := fun x y => x ^ y,
     exp := Real.exp, lt := fun x y => decide (x < y) },
   { nSteps := 3, radius := 1, tI := 49, tF := 1 },
   ⟨fun _ => rfl, fun _ _ => rfl, fun _ _ => rfl, fun _ _ => rfl⟩,
   by norm_num, by norm_num, by decide, by decide!,
   temperature_endpoints (fun x _ => x) (fun x => x) coolingConfig _ _ (by decide) (by decide!)
     ⟨fun _ => rfl, fun _ _ => rfl, fun _ _ => rfl, fun _ _ => rfl⟩
     (by norm_num) (by norm_num)⟩

/-- C11 (counterexample). With two steps, `T_I = 49` and `T_F = 1` (both
doubles and positive), the temperature at the last step is
`49 * (1 / 49) = 1 - 2^-53` in double arithmetic, which is not `T_F`. -/
theorem temperature_final_counterexample :
    2 ≤ coolingConfig.nSteps ∧ 0 < coolingConfig.tI ∧ 0 < coolingConfig.tF
    ∧ roundDouble coolingConfig.tI = coolingConfig.tI
    ∧ roundDouble coolingConfig.tF = coolingConfig.tF
    ∧ temperature ieeeBasic coolingConfig (coolingConfig.nSteps - 1) = 1 - 1 / 2 ^ 53
    ∧ temperature ieeeBasic coolingConfig (coolingConfig.nSteps - 1) ≠ coolingConfig.tF := by
  decide!

theorem fraction_range (n s : Nat) (hn : 2 ≤ n) (hs : s ≤ n - 1) :
    (0 : ℝ) ≤ (s : ℝ) / ((n : ℝ) - 1) ∧ (s : ℝ) / ((n : ℝ) - 1) ≤ 1 := by
  have hn1 : (0 : ℝ) < (n : ℝ) - 1 := by
    have : (2 : ℝ) ≤ (n : ℝ) := by exact_mod_cast hn
    linarith
  have hs1 : (s : ℝ) ≤ (n : ℝ) - 1 := by
    have : ((s : Nat) : ℝ) ≤ ((n - 1 : Nat) : ℝ) := by exact_mod_cast hs
    rw [Nat.cast_sub (by omega)] at this
    simpa using this
  exact ⟨div_nonneg (Nat.cast_nonneg s) hn1.le, (div_le_one hn1).mpr hs1⟩

/-- In exact real arithmetic, for `0 < T_F < T_I` and a step count of at least
`2`: at every step `s` in `[0, N_STEPS - 1]` the temperature is positive and
lies in `[T_F, T_I]`, and for steps `s1 < s2` the temperature at `s2` is below
the temperature at `s1`. -/
theorem temperature_exact_lt (F : DoubleOps ℝ) (cfg : Config ℝ) (s s1 s2 : Nat)
    (hF : ExactOps F) (hn : 2 ≤ cfg.nSteps) (hF0 : 0 < cfg.tF) (hFI : cfg.tF < cfg.tI)
    (hs : s ≤ cfg.nSteps - 1) (h12 : s1 < s2) :
    0 < temperature F cfg s
    ∧ cfg.tF ≤ temperature F cfg s
    ∧ temperature F cfg s ≤ cfg.tI
    ∧ temperature F cfg s2 < temperature F cfg s1 := by
  have hI : 0 < cfg.tI := lt_trans hF0 hFI
  have hr0 : 0 < cfg.tF / cfg.tI := div_pos hF0 hI
  have hr1 : cfg.tF / cfg.tI < 1 := (div_lt_one hI).mpr hFI
  have hn1 : (0 : ℝ) < (cfg.nSteps : ℝ) - 1 := by
    have : (2 : ℝ) ≤ (cfg.nSteps : ℝ) := by exact_mod_cast hn
    linarith
  rw [temperature_exact F cfg hF s, temperature_exact F cfg hF s1,
    temperature_exact F cfg hF s2]
  obtain ⟨hx0, hx1⟩ := fraction_range cfg.nSteps s hn hs
  refine ⟨mul_pos hI (Real.rpow_pos_of_pos hr0 _), ?_, ?_, ?_⟩
  · have h := Real.rpow_le_rpow_of_exponent_ge hr0 hr1.le hx1
    rw [Real.rpow_one] at h
    calc cfg.tF = cfg.tI * (cfg.tF / cfg.tI) := by field_simp
      _ ≤ _ := mul_le_mul_of_nonneg_left h hI.le
  · have h := Real.rpow_le_one hr0.le hr1.le hx0
    calc cfg.tI * (cfg.tF / cfg.tI) ^ ((s : ℝ) / ((cfg.nSteps : ℝ) - 1))
        ≤ cfg.tI * 1 := mul_le_mul_of_nonneg_left h hI.le
      _ = cfg.tI := mul_one _
  · have hlt : (s1 : ℝ) / ((cfg.nSteps : ℝ) - 1) < (s2 : ℝ) / ((cfg.nSteps : ℝ) - 1) := by
      apply div_lt_div_of_pos_right _ hn1
      exact_mod_cast h12
    exact mul_lt_mul_of_pos_left (Real.rpow_lt_rpow_of_exponent_gt hr0 hr1 hlt) hI

theorem exp_seven_lt : Real.exp 7 < 1100 := by
  have h1 : Real.exp 7 = Real.exp 1 ^ 7 := by
    rw [← Real.exp_nat_mul]
    norm_num
  rw [h1]
  calc Real.exp 1 ^ 7 < (2.7182818286 : ℝ) ^ 7 :=
        pow_lt_pow_left₀ Real.exp_one_lt_d9 (Real.exp_pos 1).le (by norm_num)
    _ < 1100 := by norm_num

theorem exp_eight_gt : 2500 < Real.exp 8 := by
  have h1 : Real.exp 8 = Real.exp 1 ^ 8 := by
    rw [← Real.exp_nat_mul]
    norm_num
  rw [h1]
  calc (2500 : ℝ) < (2.7182818283 : ℝ) ^ 8 := by norm_num
    _ < Real.exp 1 ^ 8 :=
        pow_lt_pow_left₀ Real.exp_one_gt_d9 (by norm_num) (by norm_num)

theorem log_base_range (b : ℝ) (h0 : 4 / 10000 ≤ b) (h1 : b ≤ 6 / 10000) :
    -8 ≤ Real.log b ∧ Real.log b ≤ -7 := by
  have hb0 : 0 < b := by linarith
  constructor
  · rw [Real.le_log_iff_exp_le hb0]
    have h2 : Real.exp (-8) = (Real.exp 8)⁻¹ := Real.exp_neg 8
    have h3 : (Real.exp 8)⁻¹ < (2500 : ℝ)⁻¹ := inv_strictAnti₀ (by norm_num) exp_eight_gt
    rw [h2]
    have h4 : (2500 : ℝ)⁻¹ = 4 / 10000 := by norm_num
    linarith
  · rw [Real.log_le_iff_le_exp hb0]
    have h2 : Real.exp (-7) = (Real.exp 7)⁻¹ := Real.exp_neg 7
    have h3 : (1100 : ℝ)⁻¹ < (Real.exp 7)⁻¹ := inv_strictAnti₀ (Real.exp_pos 7) exp_seven_lt
    rw [h2]
    have h4 : (6 / 10000 : ℝ) ≤ (1100 : ℝ)⁻¹ := by norm_num
    linarith

/-- A power of a base below `exp(-7)` loses a factor `1 + 7 * d` when the
exponent grows by `d`. -/
theorem rpow_gap (b x y d : ℝ) (hb0 : 0 < b) (hb : b ≤ 6 / 10000) (hd0 : 0 ≤ d)
    (hd : d ≤ y - x) : b ^ y * (1 + 7 * d) ≤ b ^ x := by
  have hlog : Real.log b ≤ -7 := by
    rw [Real.log_le_iff_le_exp hb0]
    have h1 : Real.exp (-7) = (Real.exp 7)⁻¹ := Real.exp_neg 7
    have h2 : (1100 : ℝ)⁻¹ < (Real.exp 7)⁻¹ :=
      inv_strictAnti₀ (Real.exp_pos 7) exp_seven_lt
    rw [h1]
    have h3 : (6 / 10000 : ℝ) ≤ (1100 : ℝ)⁻¹ := by norm_num
    linarith
  have hx : 0 < b ^ x := Real.rpow_pos_of_pos hb0 x
  have hsplit : b ^ y = b ^ x * b ^ (y - x) := by
    rw [← Real.rpow_add hb0]
    congr 1
    ring
  have hpow : b ^ (y - x) ≤ Real.exp (-(7 * d)) := by
    rw [Real.rpow_def_of_pos hb0]
    apply Real.exp_le_exp.mpr
    have h1 : Real.log b * (y - x) ≤ -7 * (y - x) :=
      mul_le_mul_of_nonneg_right hlog (by linarith)
    linarith
  have hexp : Real.exp (-(7 * d)) * (1 + 7 * d) ≤ 1 := by
    have h1 : 1 + 7 * d ≤ Real.exp (7 * d) := by
      have := Real.add_one_le_exp (7 * d)
      linarith
    have h2 : Real.exp (-(7 * d)) * Real.exp (7 * d) = 1 := by
      rw [← Real.exp_add]
      simp
    calc Real.exp (-(7 * d)) * (1 + 7 * d)
        ≤ Real.exp (-(7 * d)) * Real.exp (7 * d) :=
          mul_le_mul_of_nonneg_left h1 (Real.exp_pos _).le
      _ = 1 := h2
  have h7 : 0 < 1 + 7 * d := by linarith
  calc b ^ y * (1 + 7 * d) = b ^ x * (b ^ (y - x) * (1 + 7 * d)) := by rw [hsplit]; ring
    _ ≤ b ^ x * (Real.exp (-(7 * d)) * (1 + 7 * d)) := by
        apply mul_le_mul_of_nonneg_left _ hx.le
        exact mul_le_mul_of_nonneg_right hpow h7.le
    _ ≤ b ^ x * 1 := mul_le_mul_of_nonneg_left hexp hx.le
    _ = b ^ x := mul_one _

/-- The values of `fraction` at two steps `s1 < s2 <= 39999999` differ by at
least `0.99 / 39999999`. -/
theorem fraction_gap (s1 s2 : Nat) (h12 : s1 < s2) (h2 : s2 ≤ 39999999) :
    (99 / 100 : ℚ) / 39999999
      ≤ roundDouble (roundDouble (((s2 : Int) : ℚ)) / 39999999)
        - roundDouble (roundDouble (((s1 : Int) : ℚ)) / 39999999) := by
  have hs1 : (0 : ℚ) ≤ ((s1 : Int) : ℚ) := by exact_mod_cast Nat.zero_le s1
  have hs2 : (0 : ℚ) ≤ ((s2 : Int) : ℚ) := by exact_mod_cast Nat.zero_le s2
  have h12q : ((s1 : Int) : ℚ) + 1 ≤ ((s2 : Int) : ℚ) := by exact_mod_cast h12
  have h2q : ((s2 : Int) : ℚ) ≤ 39999999 := by exact_mod_cast h2
  have a1 := roundDouble_near _ hs1
  have a2 := roundDouble_near _ hs2
  have hr1 : (0 : ℚ) ≤ roundDouble (((s1 : Int) : ℚ)) / 39999999 := by
    apply div_nonneg _ (by norm_num)
    have : (0 : ℚ) ≤ ((s1 : Int) : ℚ) * (1 - 1 / 2 ^ 53) := mul_nonneg hs1 (by norm_num)
    linarith [a1.1]
  have hr2 : (0 : ℚ) ≤ roundDouble (((s2 : Int) : ℚ)) / 39999999 := by
    apply div_nonneg _ (by norm_num)
    have : (0 : ℚ) ≤ ((s2 : Int) : ℚ) * (1 - 1 / 2 ^ 53) := mul_nonneg hs2 (by norm_num)
    linarith [a2.1]
  have b1 := roundDouble_near _ hr1
  have b2 := roundDouble_near _ hr2
  generalize roundDouble (roundDouble (((s1 : Int) : ℚ)) / 39999999) = f1 at b1 ⊢
  generalize roundDouble (roundDouble (((s2 : Int) : ℚ)) / 39999999) = f2 at b2 ⊢
  generalize roundDouble (((s1 : Int) : ℚ)) = r1 at a1 b1 hr1
  generalize roundDouble (((s2 : Int) : ℚ)) = r2 at a2 b2 hr2
  generalize ((s1 : Int) : ℚ) = S1 at *
  generalize ((s2 : Int) : ℚ) = S2 at *
  norm_num at a1 a2 b1 b2 ⊢
  linarith [a1.1, a1.2, a2.1, a2.2, b1.1, b1.2, b2.1, b2.2]

/-- Two doubles that approximate the powers of the base at exponents that
differ by at least `0.99 / 39999999`, each within relative error `2^-25`: the
rounded doubles of the products with `2` are in strict order. -/
theorem rounded_product_lt (b f1 f2 p1 p2 : ℚ) (hb0 : 0 < b) (hb : b ≤ 6 / 10000)
    (hd : (99 / 100 : ℚ) / 39999999 ≤ f2 - f1)
    (hp1 : |(p1 : ℝ) - (b : ℝ) ^ (f1 : ℝ)| ≤ 1 / 2 ^ 25 * (b : ℝ) ^ (f1 : ℝ))
    (hp2 : |(p2 : ℝ) - (b : ℝ) ^ (f2 : ℝ)| ≤ 1 / 2 ^ 25 * (b : ℝ) ^ (f2 : ℝ)) :
    roundDouble (2 * p2) < roundDouble (2 * p1) := by
  have hb0r : (0 : ℝ) < (b : ℝ) := by exact_mod_cast hb0
  have hbr : (b : ℝ) ≤ 6 / 10000 := by
    have h : ((b : ℚ) : ℝ) ≤ ((6 / 10000 : ℚ) : ℝ) := Rat.cast_le.mpr hb
    push_cast at h
    exact h
  have hdr : ((99 / 100 : ℝ) / 39999999) ≤ (f2 : ℝ) - (f1 : ℝ) := by
    have h : (((99 / 100 : ℚ) / 39999999 : ℚ) : ℝ) ≤ ((f2 - f1 : ℚ) : ℝ) := Rat.cast_le.mpr hd
    push_cast at h
    exact h
  have hgap := rpow_gap (b : ℝ) (f1 : ℝ) (f2 : ℝ) ((99 / 100 : ℝ) / 39999999) hb0r hbr
    (by norm_num) hdr
  have hX : 0 < (b : ℝ) ^ (f1 : ℝ) := Real.rpow_pos_of_pos hb0r _
  have hY : 0 < (b : ℝ) ^ (f2 : ℝ) := Real.rpow_pos_of_pos hb0r _
  rw [abs_le] at hp1 hp2
  generalize (b : ℝ) ^ (f1 : ℝ) = X at hgap hX hp1
  generalize (b : ℝ) ^ (f2 : ℝ) = Y at hgap hY hp2
  have hp1pos : (0 : ℝ) ≤ (p1 : ℝ) := by
    have : (0 : ℝ) ≤ (1 - 1 / 2 ^ 25) * X := mul_nonneg (by norm_num) hX.le
    linarith [hp1.1]
  have hp2pos : (0 : ℝ) ≤ (p2 : ℝ) := by
    have : (0 : ℝ) ≤ (1 - 1 / 2 ^ 25) * Y := mul_nonneg (by norm_num) hY.le
    linarith [hp2.1]
  have hq1 : (0 : ℚ) ≤ 2 * p1 := by
    have : (0 : ℚ) ≤ p1 := by exact_mod_cast hp1pos
    linarith
  have hq2 : (0 : ℚ) ≤ 2 * p2 := by
    have : (0 : ℚ) ≤ p2 := by exact_mod_cast hp2pos
    linarith
  have t1 := (roundDouble_near _ hq1).1
  have t2 := (roundDouble_near _ hq2).2
  have t1r : (2 * (p1 : ℝ)) * (1 - 1 / 2 ^ 53) ≤ ((roundDouble (2 * p1) : ℚ) : ℝ) := by
    have h : ((2 * p1 * (1 - 1 / 2 ^ 53) : ℚ) : ℝ) ≤ ((roundDouble (2 * p1) : ℚ) : ℝ) :=
      Rat.cast_le.mpr t1
    push_cast at h
    exact h
  have t2r : ((roundDouble (2 * p2) : ℚ) : ℝ) ≤ (2 * (p2 : ℝ)) * (1 + 1 / 2 ^ 53) := by
    have h : ((roundDouble (2 * p2) : ℚ) : ℝ) ≤ ((2 * p2 * (1 + 1 / 2 ^ 53) : ℚ) : ℝ) :=
      Rat.cast_le.mpr t2
    push_cast at h
    exact h
  have goal : ((roundDouble (2 * p2) : ℚ) : ℝ) < ((roundDouble (2 * p1) : ℚ) : ℝ) := by
    generalize ((roundDouble (2 * p2) : ℚ) : ℝ) = T2 at t2r ⊢
    generalize ((roundDouble (2 * p1) : ℚ) : ℝ) = T1 at t1r ⊢
    generalize (p1 : ℝ) = P1 at *
    generalize (p2 : ℝ) = P2 at *
    norm_num at hgap hp1 hp2 t1r t2r
    linarith [hp1.1, hp1.2, hp2.1, hp2.2]
  exact_mod_cast goal

theorem roundDouble_two : roundDouble 2 = 2 := by decide!

theorem roundDouble_lastStep : roundDouble ((((40000000 : Nat) : Int) - 1 : Int) : ℚ) = 39999999 := by
  decide!

theorem coolingBase_range :
    0 < roundDouble (roundDouble (1 / 1000) / roundDouble 2)
    ∧ 4 / 10000 ≤ roundDouble (roundDouble (1 / 1000) / roundDouble 2)
    ∧ roundDouble (roundDouble (1 / 1000) / roundDouble 2) ≤ 6 / 10000 := by
  decide!

/-- The temperature of the program in double arithmetic: the rounded product
of `2` and the double returned by `pow`. -/
theorem temperature_double (pw : ℚ → ℚ → ℚ) (ex : ℚ → ℚ) (s : Nat) :
    temperature (ieeeOps pw ex) (config (ieeeOps pw ex)) s
      = roundDouble (2 * (ieeeOps pw ex).pow
          ((ieeeOps pw ex).div (config (ieeeOps pw ex)).tF (config (ieeeOps pw ex)).tI)
          ((ieeeOps pw ex).div ((ieeeOps pw ex).ofInt s)
            ((ieeeOps pw ex).ofInt (((config (ieeeOps pw ex)).nSteps : Int) - 1)))) := by
  show roundDouble (roundDouble 2 * _) = _
  rw [roundDouble_two]

theorem fraction_double (pw : ℚ → ℚ → ℚ) (ex : ℚ → ℚ) (s : Nat) :
    (ieeeOps pw ex).div ((ieeeOps pw ex).ofInt s)
        ((ieeeOps pw ex).ofInt (((config (ieeeOps pw ex)).nSteps : Int) - 1))
      = roundDouble (roundDouble (((s : Int) : ℚ)) / 39999999) := by
  show roundDouble (roundDouble (((s : Int) : ℚ))
    / roundDouble ((((40000000 : Nat) : Int) - 1 : Int) : ℚ)) = _
  rw [roundDouble_lastStep]

theorem temperature_double_lt (pw : ℚ → ℚ → ℚ) (ex : ℚ → ℚ) (s1 s2 : Nat)
    (h12 : s1 < s2) (h2 : s2 ≤ N_STEPS - 1)
    (ha1 : PowAccurate (ieeeOps pw ex) (config (ieeeOps pw ex)) s1)
    (ha2 : PowAccurate (ieeeOps pw ex) (config (ieeeOps pw ex)) s2) :
    temperature (ieeeOps pw ex) (config (ieeeOps pw ex)) s2
      < temperature (ieeeOps pw ex) (config (ieeeOps pw ex)) s1 := by
  rw [temperature_double, temperature_double]
  have hb := coolingBase_range
  have h2' : s2 ≤ 39999999 := h2
  have hgap := fraction_gap s1 s2 h12 h2'
  rw [← fraction_double pw ex s1, ← fraction_double pw ex s2] at hgap
  exact rounded_product_lt _ _ _ _ _ hb.1 hb.2.2 hgap ha1 ha2

theorem powAccurate_first (pw : ℚ → ℚ → ℚ) (ex : ℚ → ℚ) :
    PowAccurate (ieeeOps pw ex) (config (ieeeOps pw ex)) 0 := by
  have hf : (ieeeOps pw ex).div ((ieeeOps pw ex).ofInt ((0 : Nat) : Int))
      ((ieeeOps pw ex).ofInt (((config (ieeeOps pw ex)).nSteps : Int) - 1)) = 0 := by
    rw [fraction_double]
    simp [roundDouble_zero]
  unfold PowAccurate
  rw [hf]
  have hp : (ieeeOps pw ex).pow
      ((ieeeOps pw ex).div (config (ieeeOps pw ex)).tF (config (ieeeOps pw ex)).tI) 0 = 1 := by
    simp [ieeeOps]
  rw [hp]
  simp

theorem powAccurate_last (pw : ℚ → ℚ → ℚ) (ex : ℚ → ℚ) :
    PowAccurate (ieeeOps pw ex) (config (ieeeOps pw ex)) (N_STEPS - 1) := by
  have hf : (ieeeOps pw ex).div ((ieeeOps pw ex).ofInt ((N_STEPS - 1 : Nat) : Int))
      ((ieeeOps pw ex).ofInt (((config (ieeeOps pw ex)).nSteps : Int) - 1)) = 1 := by
    rw [fraction_double]
    have h1 : (((N_STEPS - 1 : Nat) : Int) : ℚ) = ((((40000000 : Nat) : Int) - 1 : Int) : ℚ) := by
      norm_num [N_STEPS]
    rw [h1, roundDouble_lastStep]
    norm_num [roundDouble_one]
  unfold PowAccurate
  rw [hf]
  have hp : (ieeeOps pw ex).pow
      ((ieeeOps pw ex).div (config (ieeeOps pw ex)).tF (config (ieeeOps pw ex)).tI) 1
      = (ieeeOps pw ex).div (config (ieeeOps pw ex)).tF (config (ieeeOps pw ex)).tI := by
    simp [ieeeOps]
  rw [hp]
  have hb : (0 : ℝ) < (((ieeeOps pw ex).div (config (ieeeOps pw ex)).tF
      (config (ieeeOps pw ex)).tI : ℚ) : ℝ) := by
    have := coolingBase_range.1
    exact_mod_cast this
  simp only [Rat.cast_one, Real.rpow_one, sub_self, abs_zero]
  positivity

theorem temperature_config_ends (pw : ℚ → ℚ → ℚ) (ex : ℚ → ℚ) :
    temperature (ieeeOps pw ex) (config (ieeeOps pw ex)) 0 = (config (ieeeOps pw ex)).tI
    ∧ temperature (ieeeOps pw ex) (config (ieeeOps pw ex)) (N_STEPS - 1)
        = (config (ieeeOps pw ex)).tF
    ∧ 0 < (config (ieeeOps pw ex)).tF := by
  have h22 : roundDouble (roundDouble 2) = roundDouble 2 := by decide!
  have h3 : roundDouble (roundDouble 2 * roundDouble (roundDouble (1 / 1000) / roundDouble 2))
      = roundDouble (1 / 1000) := by decide!
  have h0 : 0 < roundDouble (1 / 1000) := by decide!
  have hN : 2 ≤ (config (ieeeOps pw ex)).nSteps := by
    show 2 ≤ N_STEPS
    decide
  refine ⟨temperature_first pw ex (config (ieeeOps pw ex)) h22, ?_, h0⟩
  have := temperature_last pw ex (config (ieeeOps pw ex)) hN
  exact this.trans h3

/-- In double arithmetic, with the parameters of the program, at a step at
which `pow` is accurate the temperature lies in `[T_F, T_I]` and is positive. -/
theorem temperature_double_range (pw : ℚ → ℚ → ℚ) (ex : ℚ → ℚ) (s : Nat)
    (hs : s ≤ N_STEPS - 1)
    (ha : PowAccurate (ieeeOps pw ex) (config (ieeeOps pw ex)) s) :
    0 < temperature (ieeeOps pw ex) (config (ieeeOps pw ex)) s
    ∧ (config (ieeeOps pw ex)).tF ≤ temperature (ieeeOps pw ex) (config (ieeeOps pw ex)) s
    ∧ temperature (ieeeOps pw ex) (config (ieeeOps pw ex)) s ≤ (config (ieeeOps pw ex)).tI := by
  obtain ⟨e0, e1, hpos⟩ := temperature_config_ends pw ex
  have hlow : (config (ieeeOps pw ex)).tF
      ≤ temperature (ieeeOps pw ex) (config (ieeeOps pw ex)) s := by
    rcases Nat.eq_or_lt_of_le hs with he | hlt
    · rw [he, e1]
    · rw [← e1]
      exact (temperature_double_lt pw ex s (N_STEPS - 1) hlt (Nat.le_refl _) ha
        (powAccurate_last pw ex)).le
  have hhigh : temperature (ieeeOps pw ex) (config (ieeeOps pw ex)) s
      ≤ (config (ieeeOps pw ex)).tI := by
    rcases Nat.eq_zero_or_pos s with he | hp
    · rw [he, e0]
    · rw [← e0]
      exact (temperature_double_lt pw ex 0 s hp hs (powAccurate_first pw ex) ha).le
  exact ⟨lt_of_lt_of_le hpos hlow, hlow, hhigh⟩

/-- Near an exponent `y0` the power of the base of the program is close to its
first-order expansion: a value within `0.1 * |t|` of `1 - 7.6 * t`, times the
power at `y0`, is within relative error `2^-25` of the power at `y0 + t`, for
`|t| <= 2.6e-8`. -/
theorem rpow_near (b y0 t ρ : ℝ) (hb4 : 4 / 10000 ≤ b) (hb6 : b ≤ 6 / 10000)
    (ht : |t| ≤ 26 / 1000000000) (hρ : |ρ - (1 - 38 / 5 * t)| ≤ 1 / 10 * |t|) :
    |b ^ y0 * ρ - b ^ (y0 + t)| ≤ 1 / 2 ^ 25 * b ^ (y0 + t) := by
  have hb0 : 0 < b := by linarith
  obtain ⟨hl8, hl7⟩ := log_base_range b hb4 hb6
  have hy0 : 0 < b ^ y0 := Real.rpow_pos_of_pos hb0 y0
  rw [Real.rpow_add hb0, Real.rpow_def_of_pos hb0 t]
  have ha0 : 0 ≤ |t| := abs_nonneg t
  have hx : |Real.log b * t + 38 / 5 * t| ≤ 6 / 10 * |t| := by
    have e : Real.log b * t + 38 / 5 * t = (Real.log b + 38 / 5) * t := by ring
    rw [e, abs_mul]
    apply mul_le_mul_of_nonneg_right _ ha0
    rw [abs_le]
    constructor <;> linarith
  have hx8 : |Real.log b * t| ≤ 8 * |t| := by
    rw [abs_mul]
    apply mul_le_mul_of_nonneg_right _ ha0
    rw [abs_le]
    constructor <;> linarith
  have habs : |Real.log b * t| ≤ 1 := by linarith
  have hexp := Real.abs_exp_sub_one_sub_id_le habs
  have hsq : (Real.log b * t) ^ 2 ≤ 64 * (26 / 1000000000) * |t| := by
    have h1 : (Real.log b * t) ^ 2 = |Real.log b * t| * |Real.log b * t| := by
      rw [← sq_abs, sq]
    have h2 : |Real.log b * t| * |Real.log b * t| ≤ (8 * |t|) * (8 * |t|) :=
      mul_le_mul hx8 hx8 (abs_nonneg _) (by linarith)
    have h3 : |t| * |t| ≤ 26 / 1000000000 * |t| := mul_le_mul_of_nonneg_right ht ha0
    rw [h1]
    linarith
  have key : |ρ - Real.exp (Real.log b * t)| ≤ 1 / 2 ^ 25 * Real.exp (Real.log b * t) := by
    rw [abs_le] at hρ hx hexp hx8 ⊢
    generalize Real.exp (Real.log b * t) = E at hexp ⊢
    generalize (Real.log b * t) ^ 2 = x2 at hexp hsq
    generalize Real.log b * t = x at hexp hx hx8
    generalize |t| = a at *
    norm_num at hsq ⊢
    constructor <;> linarith [hρ.1, hρ.2, hx.1, hx.2, hexp.1, hexp.2, hx8.1, hx8.2]
  calc |b ^ y0 * ρ - b ^ y0 * Real.exp (Real.log b * t)|
      = b ^ y0 * |ρ - Real.exp (Real.log b * t)| := by
        rw [← mul_sub, abs_mul, abs_of_pos hy0]
    _ ≤ b ^ y0 * (1 / 2 ^ 25 * Real.exp (Real.log b * t)) :=
        mul_le_mul_of_nonneg_left key hy0.le
    _ = 1 / 2 ^ 25 * (b ^ y0 * Real.exp (Real.log b * t)) := by ring

/-- Accuracy of `pow` at a step whose exponent is within `2.6e-8` of an
exponent `y0` at which the power is the double `c`, when `pow` returns `c`
times a value within `0.1 * |t|` of `1 - 7.6 * t`, for the distance `t`. -/
theorem powAccurate_near (F : DoubleOps ℚ) (cfg : Config ℚ) (s : Nat) (y0 c ρ : ℚ)
    (hb4 : 4 / 10000 ≤ F.div cfg.tF cfg.tI) (hb6 : F.div cfg.tF cfg.tI ≤ 6 / 10000)
    (ht : |F.div (F.ofInt s) (F.ofInt ((cfg.nSteps : Int) - 1)) - y0| ≤ 26 / 1000000000)
    (hρ : |ρ - (1 - 38 / 5 * (F.div (F.ofInt s) (F.ofInt ((cfg.nSteps : Int) - 1)) - y0))|
      ≤ 1 / 10 * |F.div (F.ofInt s) (F.ofInt ((cfg.nSteps : Int) - 1)) - y0|)
    (hc : ((c : ℚ) : ℝ) = ((F.div cfg.tF cfg.tI : ℚ) : ℝ) ^ ((y0 : ℚ) : ℝ))
    (hp : F.pow (F.div cfg.tF cfg.tI) (F.div (F.ofInt s) (F.ofInt ((cfg.nSteps : Int) - 1)))
      = c * ρ) :
    PowAccurate F cfg s := by
  unfold PowAccurate
  rw [hp]
  generalize F.div cfg.tF cfg.tI = b at *
  generalize F.div (F.ofInt s) (F.ofInt ((cfg.nSteps : Int) - 1)) = f at *
  have hb4r : (4 / 10000 : ℝ) ≤ (b : ℝ) := by
    have h : ((4 / 10000 : ℚ) : ℝ) ≤ ((b : ℚ) : ℝ) := Rat.cast_le.mpr hb4
    push_cast at h
    exact h
  have hb6r : (b : ℝ) ≤ 6 / 10000 := by
    have h : ((b : ℚ) : ℝ) ≤ ((6 / 10000 : ℚ) : ℝ) := Rat.cast_le.mpr hb6
    push_cast at h
    exact h
  have htr : |(f : ℝ) - (y0 : ℝ)| ≤ 26 / 1000000000 := by
    have h : ((|f - y0| : ℚ) : ℝ) ≤ ((26 / 1000000000 : ℚ) : ℝ) := Rat.cast_le.mpr ht
    push_cast at h
    exact h
  have hρr : |(ρ : ℝ) - (1 - 38 / 5 * ((f : ℝ) - (y0 : ℝ)))| ≤ 1 / 10 * |(f : ℝ) - (y0 : ℝ)| := by
    have h : ((|ρ - (1 - 38 / 5 * (f - y0))| : ℚ) : ℝ) ≤ ((1 / 10 * |f - y0| : ℚ) : ℝ) :=
      Rat.cast_le.mpr hρ
    push_cast at h
    exact h
  have h := rpow_near (b : ℝ) (y0 : ℝ) ((f : ℝ) - (y0 : ℝ)) (ρ : ℝ) hb4r hb6r htr hρr
  have e : (y0 : ℝ) + ((f : ℝ) - (y0 : ℝ)) = (f : ℝ) := by ring
  rw [e, ← hc] at h
  push_cast
  exact h

theorem samplePow_first (x : ℚ) :
    roundDouble (roundDouble (((1 : Nat) : Int) : ℚ) / 39999999) ≠ 0
    ∧ roundDouble (roundDouble (((1 : Nat) : Int) : ℚ) / 39999999) ≠ 1
    ∧ roundDouble (samplePow x (roundDouble (roundDouble (((1 : Nat) : Int) : ℚ) / 39999999)))
      = 1 * (4503598771585019 / 4503599627370496) := by
  show _ ∧ _ ∧ roundDouble (if _ < 1 / 2 then _ else _) = _
  decide!

theorem samplePow_last (x : ℚ) :
    roundDouble (roundDouble (((39999998 : Nat) : Int) : ℚ) / 39999999) ≠ 0
    ∧ roundDouble (roundDouble (((39999998 : Nat) : Int) : ℚ) / 39999999) ≠ 1
    ∧ roundDouble (samplePow x
        (roundDouble (roundDouble (((39999998 : Nat) : Int) : ℚ) / 39999999)))
      = roundDouble (roundDouble (1 / 1000) / roundDouble 2)
        * (4611686894751883 / 9223372036854775808
          / roundDouble (roundDouble (1 / 1000) / roundDouble 2)) := by
  show _ ∧ _ ∧ roundDouble (if _ < 1 / 2 then _ else _) = _
  decide!

theorem powAccurate_sample (ex : ℚ → ℚ) :
    PowAccurate (ieeeOps samplePow ex) (config (ieeeOps samplePow ex)) 1
    ∧ PowAccurate (ieeeOps samplePow ex) (config (ieeeOps samplePow ex)) 39999998 := by
  constructor
  · refine powAccurate_near _ _ 1 0 1 (4503598771585019 / 4503599627370496) ?_ ?_ ?_ ?_ ?_ ?_
    · exact coolingBase_range.2.1
    · exact coolingBase_range.2.2
    · rw [fraction_double]
      decide!
    · rw [fraction_double]
      decide!
    · simp
    · rw [fraction_double]
      obtain ⟨h0, h1, h2⟩ := samplePow_first
        ((ieeeOps samplePow ex).div (config (ieeeOps samplePow ex)).tF
          (config (ieeeOps samplePow ex)).tI)
      show (if _ = 0 then _ else if _ = 1 then _ else _) = _
      rw [if_neg h0, if_neg h1]
      exact h2
  · refine powAccurate_near _ _ 39999998 1
      (roundDouble (roundDouble (1 / 1000) / roundDouble 2))
      (4611686894751883 / 9223372036854775808
        / roundDouble (roundDouble (1 / 1000) / roundDouble 2)) ?_ ?_ ?_ ?_ ?_ ?_
    · exact coolingBase_range.2.1
    · exact coolingBase_range.2.2
    · rw [fraction_double]
      decide!
    · rw [fraction_double]
      decide!
    · show _ = ((roundDouble (roundDouble (1 / 1000) / roundDouble 2) : ℚ) : ℝ) ^ _
      simp
    · rw [fraction_double]
      obtain ⟨h0, h1, h2⟩ := samplePow_last
        ((ieeeOps samplePow ex).div (config (ieeeOps samplePow ex)).tF
          (config (ieeeOps samplePow ex)).tI)
      show (if _ = 0 then _ else if _ = 1 then _ else _) = _
      rw [if_neg h0, if_neg h1]
      exact h2

/-- C12 (amended). In double arithmetic with the parameters of the program
(`N_STEPS = 40000000`, `T_I = 2.0`, `T_F = 1e-3`): at every step
`s <= N_STEPS - 1` at which `std::pow` returns a double within relative error
`2^-25` of the real power, the temperature is positive and lies in
`[T_F, T_I]`; and for steps `s1 < s2 <= N_STEPS - 1` at which `pow` is that
accurate, the temperature at `s2` is below the temperature at `s1`.  In exact
real arithmetic, for every `0 < T_F < T_I` and every step count of at least
`2`, the temperature is positive and in `[T_F, T_I]` at every step in
`[0, N_STEPS - 1]` and is strictly decreasing in the step. -/
theorem temperature_schedule_decreasing (pw : ℚ → ℚ → ℚ) (ex : ℚ → ℚ) (s s1 s2 : Nat)
    (F : DoubleOps ℝ) (rcfg : Config ℝ) (r r1 r2 : Nat)
    (hs : s ≤ N_STEPS - 1) (h12 : s1 < s2) (h2 : s2 ≤ N_STEPS - 1)
    (ha : PowAccurate (ieeeOps pw ex) (config (ieeeOps pw ex)) s)
    (ha1 : PowAccurate (ieeeOps pw ex) (config (ieeeOps pw ex)) s1)
    (ha2 : PowAccurate (ieeeOps pw ex) (config (ieeeOps pw ex)) s2)
    (hF : ExactOps F) (hn : 2 ≤ rcfg.nSteps) (hF0 : 0 < rcfg.tF) (hFI : rcfg.tF < rcfg.tI)
    (hr : r ≤ rcfg.nSteps - 1) (hr12 : r1 < r2) :
    (0 < temperature (ieeeOps pw ex) (config (ieeeOps pw ex)) s
      ∧ (config (ieeeOps pw ex)).tF ≤ temperature (ieeeOps pw ex) (config (ieeeOps pw ex)) s
      ∧ temperature (ieeeOps pw ex) (config (ieeeOps pw ex)) s ≤ (config (ieeeOps pw ex)).tI
      ∧ temperature (ieeeOps pw ex) (config (ieeeOps pw ex)) s2
          < temperature (ieeeOps pw ex) (config (ieeeOps pw ex)) s1)
    ∧ (0 < temperature F rcfg r
      ∧ rcfg.tF ≤ temperature F rcfg r
      ∧ temperature F rcfg r ≤ rcfg.tI
      ∧ temperature F rcfg r2 < temperature F rcfg r1) := by
  obtain ⟨h0, hlow, hhigh⟩ := temperature_double_range pw ex s hs ha
  exact ⟨⟨h0, hlow, hhigh, temperature_double_lt pw ex s1 s2 h12 h2 ha1 ha2⟩,
    temperature_exact_lt F rcfg r r1 r2 hF hn hF0 hFI hr hr12⟩

theorem temperature_schedule_decreasing_witness :
    ∃ (F : DoubleOps ℝ) (rcfg : Config ℝ), ExactOps F ∧ 2 ≤ rcfg.nSteps ∧ 0 < rcfg.tF
      ∧ rcfg.tF < rcfg.tI
      ∧ PowAccurate (ieeeOps samplePow (fun x => x))
          (config (ieeeOps samplePow (fun x => x))) 1
      ∧ PowAccurate (ieeeOps samplePow (fun x => x))
          (config (ieeeOps samplePow (fun x => x))) 39999998
      ∧ ((0 < temperature (ieeeOps samplePow (fun x => x))
              (config (ieeeOps samplePow (fun x => x))) 1
          ∧ (config (ieeeOps samplePow (fun x => x))).tF
              ≤ temperature (ieeeOps samplePow (fun x => x))
                  (config (ieeeOps samplePow (fun x => x))) 1
          ∧ temperature (ieeeOps samplePow (fun x => x))
                (config (ieeeOps samplePow (fun x => x))) 1
              ≤ (config (ieeeOps samplePow (fun x => x))).tI
          ∧ temperature (ieeeOps samplePow (fun x => x))
                (config (ieeeOps samplePow (fun x => x))) 39999998
              < temperature (ieeeOps samplePow (fun x => x))
                  (config (ieeeOps samplePow (fun x => x))) 1)
        ∧ (0 < temperature F rcfg 1
          ∧ rcfg.tF ≤ temperature F rcfg 1
          ∧ temperature F rcfg 1 ≤ rcfg.tI
          ∧ temperature F rcfg 2 < temperature F rcfg 0)) :=
  ⟨{ lit := fun q => (q : ℝ), ofInt := fun z => (z : ℝ), neg := fun x => -x,
     mul := fun x y => x * y, div := fun x y => x / y, pow := fun x y => x ^ y,
     exp := Real.exp, lt := fun x y => decide (x < y) },
   { nSteps := 3, radius := 1, tI := 2, tF := 1 },
   ⟨fun _ => rfl, fun _ _ => rfl, fun _ _ => rfl, fun _ _ => rfl⟩,
   by norm_num, by norm_num, by norm_num,
   (powAccurate_sample (fun x => x)).1, (powAccurate_sample (fun x => x)).2,
   temperature_schedule_decreasing samplePow (fun x => x) 1 1 39999998 _ _ 1 0 2
     (by decide) (by decide) (by decide)
     (powAccurate_sample (fun x => x)).1 (powAccurate_sample (fun x => x)).1
     (powAccurate_sample (fun x => x)).2
     ⟨fun _ => rfl, fun _ _ => rfl, fun _ _ => rfl, fun _ _ => rfl⟩
     (by norm_num) (by norm_num) (by norm_num) (by norm_num) (by norm_num)⟩

/-- C12 (counterexample). With two steps, `T_I = 49` and `T_F = 1`, so that
`0 < T_F < T_I`, the temperature at step `1` in double arithmetic is
`1 - 2^-53`, which is below `T_F` and so outside `[T_F, T_I]`.  With three
steps, `T_I = 1` and `T_F = 1 - 2^-53`, both doubles, the temperatures at the
steps `0` and `2` are the neighbouring doubles `1` and `1 - 2^-53`, so that
whatever `pow` returns at step `1` the three temperatures are not strictly
decreasing. -/
theorem temperature_range_counterexample :
    (2 ≤ coolingConfig.nSteps ∧ 0 < coolingConfig.tF ∧ coolingConfig.tF < coolingConfig.tI
      ∧ 1 ≤ coolingConfig.nSteps - 1
      ∧ temperature ieeeBasic coolingConfig 1 < coolingConfig.tF)
    ∧ (2 ≤ nearConfig.nSteps ∧ 0 < nearConfig.tF ∧ nearConfig.tF < nearConfig.tI
      ∧ roundDouble nearConfig.tI = nearConfig.tI ∧ roundDouble nearConfig.tF = nearConfig.tF
      ∧ ∀ (pw : ℚ → ℚ → ℚ) (ex : ℚ → ℚ),
          ¬ (temperature (ieeeOps pw ex) nearConfig 1 < temperature (ieeeOps pw ex) nearConfig 0
            ∧ temperature (ieeeOps pw ex) nearConfig 2
                < temperature (ieeeOps pw ex) nearConfig 1)) := by
  refine ⟨by decide!, by decide, by decide!, by decide!, by decide!, by decide!, ?_⟩
  rintro pw ex ⟨h1, h2⟩
  have e0 : temperature (ieeeOps pw ex) nearConfig 0 = 1 :=
    temperature_first pw ex nearConfig (by decide!)
  have e2 : temperature (ieeeOps pw ex) nearConfig 2 = 1 - 1 / 2 ^ 53 := by
    have h := temperature_last pw ex nearConfig (by decide)
    have h3 : roundDouble (nearConfig.tI * roundDouble (nearConfig.tF / nearConfig.tI))
        = 1 - 1 / 2 ^ 53 := by decide!
    exact h.trans h3
  rw [e0] at h1
  rw [e2] at h2
  exact roundDouble_gap _ ⟨h2, h1⟩

end Simpix
